import Mathlib

/-!
# scaffold32.c : big-integer multiplication over 32-bit words

A shallow embedding of `src/scaffold32.c` and a verification of its
arithmetic primitives (`add32`, `subtract32`, `multiply32`), of the
recursive `karatsuba32`, of the dispatcher `decide` and of the entry point
`Product32`.

## Embedding

* Memory is word addressed: `Mem = Nat → Nat`, one 32-bit word per address.
  A C pointer `unsigned int *p` is the address of its first word, `p[i]` is
  the word at `p + i`, and pointer arithmetic `p + n` is address arithmetic.
  That every word is below `2^32` is the predicate `WF`.
* `calloc` is a bump allocator over a `State` (memory and break address):
  it returns the break, zeroes the block and moves the break past it, and it
  always succeeds.  `free` is not modelled: a freed block is never read
  again by the program and `calloc` zeroes whatever it hands out.  A block
  "was allocated" when it lies below the break.
* `unsigned long long` sums and products are taken `% 2^64`, stores into
  `unsigned int` are taken `% 2^32`, `long long` values are `Int`
  (their magnitude stays below `2^34`), `>> 32` on them is the floor
  division by `2^32`.
* Word counts and indices (`unsigned int`, `int`) are `Nat`; subtraction of
  counts is the truncated one of `Nat` (no count goes below zero on the runs
  that are proved or evaluated here).
* An output parameter `unsigned int *wc` is the second component of the
  returned pair.
* `for (i = 0; i < n; i++)` is `loop n body`; `while` loops recurse on the
  number of words left (or on the carry, for the carry loop of `add32`).
* `decide` and `karatsuba32` are mutually recursive in C.  Here `decide`
  recurses on a fuel argument and `karatsuba32` receives the dispatcher it
  calls as its first argument; out of fuel the result is `none`.
* Facts about the locals of `karatsuba32` (lengths, the operands of step 6,
  the extent of each write) are stated on `karatsuba32_locals`, the same
  function returning all its locals, and facts about every level of the
  recursion on `decide_asserting`, the same dispatcher with an assertion
  after each run of `karatsuba32`.  A write is observed as the set of words
  a step can change, for arbitrary prior contents of the memory.
-/

set_option linter.unusedVariables false
set_option linter.unreachableTactic false
set_option linter.unusedTactic false

namespace Scaffold32

/-- Word-addressed memory. -/
abbrev Mem := Nat → Nat

/-- The constant `#define POWER32 4294967296`. -/
def POWER32 : Nat := 4294967296

/-- Range of `unsigned long long`. -/
def POWER64 : Nat := 18446744073709551616

/-- The store `p[0] = v`. -/
def write (m : Mem) (p v : Nat) : Mem := fun q => if q = p then v else m q

/-- Every memory word is a 32-bit word. -/
def WF (m : Mem) : Prop := ∀ q, m q < POWER32

/-- Value of the `n` words at `p`, least significant first:
`Σ_{i<n} p[i] * 2^(32 i)`. -/
def value (m : Mem) (p : Nat) : Nat → Nat
  | 0 => 0
  | n + 1 => value m p n + m (p + n) * POWER32 ^ n

/-- The words `p[0..n)` as a list. -/
def words (m : Mem) (p n : Nat) : List Nat := (List.range n).map (fun i => m (p + i))

/-- The loop `for (i = 0; i < n; i++) s = body i s`. -/
def loop {σ : Type} (n : Nat) (body : Nat → σ → σ) (s : σ) : σ :=
  match n with
  | 0 => s
  | k + 1 => body k (loop k body s)

/-! ## add32 -/

/-- Body of the main loop of `add32` (lines 51-69); the state is the memory
and the carry `c`. -/
def add32_body (int_a int_b int_c wb : Nat) (i : Nat) (st : Mem × Nat) : Mem × Nat :=
  let m := st.1
  let c := st.2
  let s :=
    if i < wb then (m (int_a + i) + m (int_b + i) + c) % POWER64
    else (m (int_a + i) + c) % POWER64
  (write m (int_c + i) (s % POWER32), (s / POWER32) % POWER32)

/-- The loop `while (c > 0)` of `add32` (lines 71-78).  The first argument
bounds the number of iterations; the carry itself is enough, since each
iteration replaces `c` by `c / POWER32`. -/
def add32_carry (int_c : Nat) : Nat → Nat → Nat → Mem → Mem × Nat
  | 0, i, _, m => (m, i)
  | k + 1, i, c, m =>
    if c > 0 then
      let s := c % POWER64
      add32_carry int_c k (i + 1) ((s / POWER32) % POWER32) (write m (int_c + i) (s % POWER32))
    else (m, i)

/-- Lines 51-81 of `add32`: the two loops, after the operands were ordered. -/
def add32_main (m : Mem) (int_a int_b int_c wa wb : Nat) : Mem × Nat :=
  let r := loop wa (add32_body int_a int_b int_c wb) (m, 0)
  add32_carry int_c r.2 wa r.2 r.1

/-- The function `add32(int_a, int_b, int_c, wa, wb, &wc)`: returns the memory and `wc`.
In the branch `wb > wa` the source stores `wa` through `tmp`, which is the
caller's `int_a`, and reads `wb` back from there. -/
def add32 (m : Mem) (int_a int_b int_c wa wb : Nat) : Mem × Nat :=
  if wb > wa then
    let tmp := int_a
    let m1 := write m tmp (wa % POWER32)
    add32_main m1 int_b tmp int_c wb (m1 tmp)
  else
    add32_main m int_a int_b int_c wa wb

/-! ## subtract32 -/

/-- Store of a `long long` into an `unsigned int`. -/
def toWord (s : Int) : Nat := (s % (POWER32 : Int)).toNat

/-- The shift `sum >> 32` of a `long long`. -/
def sar32 (s : Int) : Int := s / (POWER32 : Int)

/-- Body of the first loop of `subtract32` (lines 106-112). -/
def sub_body3 (int_a int_b int_d int_c : Nat) (i : Nat) (st : Mem × Int) : Mem × Int :=
  let m := st.1
  let a : Int := m (int_a + i)
  let b : Int := m (int_b + i)
  let d : Int := m (int_d + i)
  let sum := a - b - d + sar32 st.2
  (write m (int_c + i) (toWord sum), sum)

/-- Body of the second loop of `subtract32` (lines 115-120); `k` counts from
`0`, the index is `i = wd + k`. -/
def sub_body2 (int_a int_b int_c wd : Nat) (k : Nat) (st : Mem × Int) : Mem × Int :=
  let m := st.1
  let i := wd + k
  let a : Int := m (int_a + i)
  let b : Int := m (int_b + i)
  let sum := a - b + sar32 st.2
  (write m (int_c + i) (toWord sum), sum)

/-- The loop `while (i < wa && sum < 0)` (lines 123-127); the first argument
is the number of words left, `wa - i`.  Returns the memory and `i`. -/
def sub_borrow (int_a int_c : Nat) : Nat → Nat → Int → Mem → Mem × Nat
  | 0, i, _, m => (m, i)
  | k + 1, i, sum, m =>
    if sum < 0 then
      let a : Int := m (int_a + i)
      let sum1 := a + sar32 sum
      sub_borrow int_a int_c k (i + 1) sum1 (write m (int_c + i) (toWord sum1))
    else (m, i)

/-- The loop `while (i < wa) int_c[i++] = int_a[i];` (lines 130-132), read as
its comment says, "place rest of a into c": word `i` of `a` goes to word `i`
of `c`.  The first argument is the number of words left, `wa - i`. -/
def sub_copy (int_a int_c : Nat) : Nat → Nat → Mem → Mem
  | 0, _, m => m
  | k + 1, i, m => sub_copy int_a int_c k (i + 1) (write m (int_c + i) (m (int_a + i)))

/-- The function `subtract32(int_a, int_b, int_d, int_c, wa, wb, wd, &wc)`:
returns the memory and `wc`. -/
def subtract32 (m : Mem) (int_a int_b int_d int_c wa wb wd : Nat) : Mem × Nat :=
  let r1 := loop wd (sub_body3 int_a int_b int_d int_c) (m, 0)
  let r2 := loop (wb - wd) (sub_body2 int_a int_b int_c wd) r1
  let i := wd + (wb - wd)
  let r3 := sub_borrow int_a int_c (wa - i) i r2.2 r2.1
  let m4 := sub_copy int_a int_c (wa - r3.2) r3.2 r3.1
  (m4, wa)

/-! ## multiply32 -/

/-- Body of the inner loop of `multiply32` (lines 161-165); the state is the
memory and the carry `c`. -/
def mul_inner (int_a int_b int_c i : Nat) (j : Nat) (st : Mem × Nat) : Mem × Nat :=
  let m := st.1
  let p := (m (int_a + i) * m (int_b + j) + m (int_c + (i + j)) + st.2) % POWER64
  (write m (int_c + (i + j)) (p % POWER32), (p / POWER32) % POWER32)

/-- Body of the outer loop of `multiply32` (lines 159-167). -/
def mul_outer (int_a int_b int_c wb : Nat) (i : Nat) (m : Mem) : Mem :=
  let r := loop wb (mul_inner int_a int_b int_c i) (m, 0)
  write r.1 (int_c + (i + wb)) r.2

/-- The function `multiply32(int_a, int_b, int_c, wa, wb, &wc)`: returns the
memory and `wc`. -/
def multiply32 (m : Mem) (int_a int_b int_c wa wb : Nat) : Mem × Nat :=
  let wc := wa + wb
  let m0 := loop wc (fun i m => write m (int_c + i) 0) m
  (loop wa (mul_outer int_a int_b int_c wb) m0, wc)

/-! ## calloc, karatsuba32, decide, Product32 -/

/-- Program state: the memory and the break of the allocator. -/
structure State where
  mem : Mem
  brk : Nat

/-- The call `calloc(sizeof(unsigned int), n)`: a fresh zeroed block of `n` words. -/
def calloc (st : State) (n : Nat) : State × Nat :=
  ({ mem := fun q => if st.brk ≤ q ∧ q < st.brk + n then 0 else st.mem q,
     brk := st.brk + n }, st.brk)

/-- Type of the dispatcher: state, `int_a int_b int_c wa wb`, result state
and `wc`. -/
abbrev Dispatcher := State → Nat → Nat → Nat → Nat → Nat → Option (State × Nat)

/-- The function `karatsuba32(int_a, int_b, int_c, wa, wb, &wc)`; `dec` is the `decide` it
calls for the three sub-products. -/
def karatsuba32 (dec : Dispatcher) (st : State) (int_a int_b int_c wa wb : Nat) :
    Option (State × Nat) :=
  let n := if wa < wb then wa / 2 else wb / 2
  let u2 := int_a
  let u1 := int_a + n
  let wu1 := wa - n
  let v2 := int_b
  let v1 := int_b + n
  let wv1 := wb - n
  let (st1, t1) := calloc st (wu1 + wv1 + 2)
  let t2 := t1 + wu1 + 1
  -- Step 1
  let (m2, wt1) := add32 st1.mem u1 u2 t1 wu1 n
  -- Step 2
  let (m3, wt2) := add32 m2 v1 v2 t2 wv1 n
  -- Step 3
  let (st4, w3) := calloc { st1 with mem := m3 } (wt1 + wt2)
  match dec st4 t1 t2 w3 wt1 wt2 with
  | none => none
  | some (st5, ww3) =>
    -- Step 4
    let (st6, w2) := calloc st5 (wu1 + wv1)
    match dec st6 u1 v1 w2 wu1 wv1 with
    | none => none
    | some (st7, ww2) =>
      -- Step 5
      let w4 := int_c
      match dec st7 u2 v2 w4 n n with
      | none => none
      | some (st8, ww4) =>
        -- Step 6
        let (m9, ww3) :=
          if ww2 > ww4 then subtract32 st8.mem w3 w2 w4 w3 ww3 ww2 ww4
          else subtract32 st8.mem w3 w4 w2 w3 ww3 ww4 ww2
        -- Step 7
        let c := w4 + n
        -- Step 8
        let (m10, ww3) := add32 m9 w3 c (int_c + n) ww3 (ww4 - n)
        -- Step 9
        let (m11, ww2) := add32 m10 w2 (int_c + 2 * n) (int_c + 2 * n) ww2 (ww3 - n)
        some ({ st8 with mem := m11 }, 3 * n + (ww2 - n))

/-- The function `decide(int_a, int_b, int_c, wa, wb, &wc)`, with fuel for the recursion
through `karatsuba32`. -/
def decide : Nat → Dispatcher
  | 0, _, _, _, _, _, _ => none
  | fuel + 1, st, int_a, int_b, int_c, wa, wb =>
    if wb = 0 ∨ wa = 0 then some (st, 0)
    else if wa < 27 ∨ wb < 27 then
      let r := multiply32 st.mem int_a int_b int_c wa wb
      some ({ st with mem := r.1 }, r.2)
    else karatsuba32 (decide fuel) st int_a int_b int_c wa wb

/-- The call `memset(p, 0, n * sizeof(unsigned int))`. -/
def memset0 (m : Mem) (p n : Nat) : Mem := loop n (fun i m => write m (p + i) 0) m

/-- The function `Product32(a, b, c, wa, ba, wb, bb, &wc, &bc)`; `bc` is the word the
caller holds at `*bc`.  Returns the state, `wc` and the word at `*bc`. -/
def Product32 (fuel : Nat) (st : State) (a b c wa ba wb bb bc : Nat) :
    Option (State × Nat × Nat) :=
  let int_a := a
  let int_b := b
  let int_c := c
  let st1 : State := { st with mem := memset0 st.mem int_c (wa + wb) }
  match decide fuel st1 int_a int_b int_c wa wb with
  | none => none
  | some (st2, wc) => some (st2, wc, bc)

/-- Memory holding the listed words from address `p` on, zero elsewhere. -/
def ofList (p : Nat) : List Nat → Mem
  | [] => fun _ => 0
  | x :: xs => write (ofList (p + 1) xs) p x

/-- Example state: `a = [0xFFFFFFFF, 0xFFFFFFFF]` at address 0, `b = [2]` at
address 2, a destination of three words at address 3 holding left-over words. -/
def exMul : State := { mem := ofList 0 [0xFFFFFFFF, 0xFFFFFFFF, 2, 7, 7, 7], brk := 6 }

/-- Example memory: `a = [0, 1, 9]` at address 0, `b = [1]` at address 3, an
empty `d` at address 4, the destination at address 5. -/
def exSub : Mem := ofList 0 [0, 1, 9, 1, 0, 0, 0, 0]

/-- Example memory: `a = [5]` at address 0, `b = [1, 1]` at address 1, the
destination at address 3. -/
def exAdd : Mem := ofList 0 [5, 1, 1]

/-- Example memory: `x = [5]` at address 0, `y = [1, 0]` at address 1; the sum
goes to address 3, the difference to address 7. -/
def exRound : Mem := ofList 0 [5, 1, 0]

/-- Example state: `a = [0xFFFFFFFF, 0xFFFFFFFF]` at address 0, the same `b` at
address 2, the destination at address 4, the break at 12. -/
def exKara : State :=
  { mem := ofList 0 [0xFFFFFFFF, 0xFFFFFFFF, 0xFFFFFFFF, 0xFFFFFFFF], brk := 12 }

/-- Example state with two 40-word operands, `a` at address 0 and `b` at address
40, and a destination of 80 words at address 80. -/
def exBig : State := { mem := fun q => (q * 2654435761 + 12345) % POWER32, brk := 160 }

/-- Example memory: `b = [1]` at address 1 and `a = [0xFFFFFFFF]` at address 2,
the destination at address 3. -/
def exCarry : Mem := ofList 0 [0xFFFFFFFF, 1, 0xFFFFFFFF]

/-- Example memory: `a = [0xFFFFFFFF, 0xFFFFFFFF]` at address 0, `b = [1]` at address
2 with room for the sum, a second destination at address 5. -/
def exInPlace : Mem := ofList 0 [0xFFFFFFFF, 0xFFFFFFFF, 1, 0, 0, 0, 0, 0]

/-! ## Instrumented copies, used to state facts about the locals of
`karatsuba32` and about every level of the recursion -/

/-- The locals of one run of `karatsuba32`, named as in the source, with the
memory or state after each step. -/
structure KLocals where
  n : Nat
  wu1 : Nat
  wv1 : Nat
  t1 : Nat
  t2 : Nat
  /-- Memory after the `calloc` of `t1`. -/
  m1 : Mem
  /-- Memory after step 1. -/
  m2 : Mem
  wt1 : Nat
  /-- Memory after step 2. -/
  m3 : Mem
  wt2 : Nat
  w3 : Nat
  /-- State after the `calloc` of `w3`, handed to the first `decide`. -/
  st4 : State
  /-- State after step 3. -/
  st5 : State
  ww3 : Nat
  w2 : Nat
  /-- State after the `calloc` of `w2`, handed to the second `decide`. -/
  st6 : State
  /-- State after step 4, handed to the third `decide`. -/
  st7 : State
  ww2 : Nat
  w4 : Nat
  /-- State after step 5, on which step 6 calls `subtract32`. -/
  st8 : State
  ww4 : Nat
  /-- Memory after step 6. -/
  m9 : Mem
  /-- The `ww3` reported by step 6. -/
  ww3a : Nat
  /-- Memory after step 8. -/
  m10 : Mem
  /-- The `ww3` reported by step 8. -/
  ww3b : Nat
  /-- Memory after step 9. -/
  m11 : Mem
  /-- The `ww2` reported by step 9. -/
  ww2b : Nat
  /-- State returned. -/
  out : State
  /-- The `wc` returned. -/
  wc : Nat

/-- Copy of `karatsuba32` that returns all its locals; `karatsuba32` is this
function followed by the projection to `(out, wc)`
(`karatsuba32_eq_locals`). -/
def karatsuba32_locals (dec : Dispatcher) (st : State) (int_a int_b int_c wa wb : Nat) :
    Option KLocals :=
  let n := if wa < wb then wa / 2 else wb / 2
  let u2 := int_a
  let u1 := int_a + n
  let wu1 := wa - n
  let v2 := int_b
  let v1 := int_b + n
  let wv1 := wb - n
  let (st1, t1) := calloc st (wu1 + wv1 + 2)
  let t2 := t1 + wu1 + 1
  let (m2, wt1) := add32 st1.mem u1 u2 t1 wu1 n
  let (m3, wt2) := add32 m2 v1 v2 t2 wv1 n
  let (st4, w3) := calloc { st1 with mem := m3 } (wt1 + wt2)
  match dec st4 t1 t2 w3 wt1 wt2 with
  | none => none
  | some (st5, ww3) =>
    let (st6, w2) := calloc st5 (wu1 + wv1)
    match dec st6 u1 v1 w2 wu1 wv1 with
    | none => none
    | some (st7, ww2) =>
      let w4 := int_c
      match dec st7 u2 v2 w4 n n with
      | none => none
      | some (st8, ww4) =>
        let (m9, ww3a) :=
          if ww2 > ww4 then subtract32 st8.mem w3 w2 w4 w3 ww3 ww2 ww4
          else subtract32 st8.mem w3 w4 w2 w3 ww3 ww4 ww2
        let c := w4 + n
        let (m10, ww3b) := add32 m9 w3 c (int_c + n) ww3a (ww4 - n)
        let (m11, ww2b) := add32 m10 w2 (int_c + 2 * n) (int_c + 2 * n) ww2 (ww3b - n)
        some { n := n, wu1 := wu1, wv1 := wv1, t1 := t1, t2 := t2, m1 := st1.mem, m2 := m2,
               wt1 := wt1, m3 := m3, wt2 := wt2, w3 := w3, st4 := st4, st5 := st5, ww3 := ww3,
               w2 := w2, st6 := st6, st7 := st7, ww2 := ww2, w4 := w4, st8 := st8, ww4 := ww4,
               m9 := m9, ww3a := ww3a, m10 := m10, ww3b := ww3b, m11 := m11, ww2b := ww2b,
               out := { st8 with mem := m11 }, wc := 3 * n + (ww2b - n) }

/-- Copy of `decide` that runs an assertion `chk wa wb locals` after every
run of `karatsuba32`, at every level of the recursion, and fails (`none`)
when the assertion does. -/
def decide_asserting (chk : Nat → Nat → KLocals → Bool) : Nat → Dispatcher
  | 0, _, _, _, _, _, _ => none
  | fuel + 1, st, int_a, int_b, int_c, wa, wb =>
    if wb = 0 ∨ wa = 0 then some (st, 0)
    else if wa < 27 ∨ wb < 27 then
      let r := multiply32 st.mem int_a int_b int_c wa wb
      some ({ st with mem := r.1 }, r.2)
    else
      match karatsuba32_locals (decide_asserting chk fuel) st int_a int_b int_c wa wb with
      | none => none
      | some L => if chk wa wb L = true then some (L.out, L.wc) else none

/-- The precondition of `subtract32` for the call made at step 6 of
`karatsuba32`: the word lengths are ordered `wd ≤ wb ≤ wa` and the minuend is
at least the sum of the two subtrahends. -/
def step6_pre (wa wb : Nat) (L : KLocals) : Bool :=
  if L.ww2 > L.ww4 then
    Decidable.decide (L.ww4 ≤ L.ww2 ∧ L.ww2 ≤ L.ww3 ∧
      value L.st8.mem L.w2 L.ww2 + value L.st8.mem L.w4 L.ww4 ≤ value L.st8.mem L.w3 L.ww3)
  else
    Decidable.decide (L.ww2 ≤ L.ww4 ∧ L.ww4 ≤ L.ww3 ∧
      value L.st8.mem L.w4 L.ww4 + value L.st8.mem L.w2 L.ww2 ≤ value L.st8.mem L.w3 L.ww3)

/-- The lengths written by `karatsuba32` fit the blocks they are written to:
`t1` and `t2` inside the `wu1 + wv1 + 2` words, the sub-products inside the
blocks of `w3` and `w2`, and the three writes into the destination inside its
`wa + wb` words. -/
def writes_fit (wa wb : Nat) (L : KLocals) : Bool :=
  Decidable.decide (L.wt1 ≤ L.wu1 + 1 ∧ L.wt2 ≤ L.wv1 + 1 ∧
    L.t2 = L.t1 + L.wu1 + 1 ∧ L.t2 + L.wt2 ≤ L.t1 + (L.wu1 + L.wv1 + 2) ∧
    L.ww3 ≤ L.wt1 + L.wt2 ∧ L.ww3a ≤ L.wt1 + L.wt2 ∧ L.ww2 ≤ L.wu1 + L.wv1 ∧
    L.ww4 ≤ wa + wb ∧ L.n + L.ww3b ≤ wa + wb ∧ 2 * L.n + L.ww2b ≤ wa + wb)

/-- The two assembling additions of `karatsuba32` append no carry word and
have a second operand no longer than the first, and the reported length is
`wa + wb`. -/
def assembly_exact (wa wb : Nat) (L : KLocals) : Bool :=
  Decidable.decide (L.ww4 - L.n ≤ L.ww3a ∧ L.ww3b = L.ww3a ∧
    L.ww3b - L.n ≤ L.ww2 ∧ L.ww2b = L.ww2 ∧ 3 * L.n + (L.ww2b - L.n) = wa + wb ∧
    L.wc = wa + wb)

/-- The operand lengths of the three `decide` calls of `karatsuba32` are
below `wa` (first operand) and below `wb` (second operand). -/
def calls_decrease (wa wb : Nat) (L : KLocals) : Bool :=
  Decidable.decide (13 ≤ L.n ∧ L.wt1 ≤ wa - L.n + 1 ∧ L.wt2 ≤ wb - L.n + 1 ∧
    L.wt1 < wa ∧ L.wt2 < wb ∧ L.wu1 < wa ∧ L.wv1 < wb ∧ L.n < wa ∧ L.n < wb)

/-- Precondition of a multiplication call: 32-bit words, the three blocks
were allocated (they lie below the break), and the destination of `wa + wb`
words is disjoint from both operands. -/
def MulPre (st : State) (pa pb pc wa wb : Nat) : Prop :=
  WF st.mem ∧ pa + wa ≤ st.brk ∧ pb + wb ≤ st.brk ∧ pc + (wa + wb) ≤ st.brk ∧
  (pa + wa ≤ pc ∨ pc + (wa + wb) ≤ pa) ∧ (pb + wb ≤ pc ∨ pc + (wa + wb) ≤ pb)

/-- Postcondition of a multiplication call `f` on nonempty operands: it
returns, reports `wa + wb`, leaves the product in the destination, and
changes no other word below the break. -/
def MulOK (f : Dispatcher) (st : State) (pa pb pc wa wb : Nat) : Prop :=
  ∃ st1 : State, f st pa pb pc wa wb = some (st1, wa + wb) ∧ WF st1.mem ∧ st.brk ≤ st1.brk ∧
    (∀ q, q < st.brk → (q < pc ∨ pc + (wa + wb) ≤ q) → st1.mem q = st.mem q) ∧
    value st1.mem pc (wa + wb) = value st.mem pa wa * value st.mem pb wb

/-! ## Memory and value lemmas -/

theorem write_same (m : Mem) (p v : Nat) : write m p v p = v := by
  simp [write]

theorem write_other (m : Mem) (p v q : Nat) (h : q ≠ p) : write m p v q = m q := by
  simp [write, h]

theorem WF_write {m : Mem} (h : WF m) (p : Nat) {v : Nat} (hv : v < POWER32) :
    WF (write m p v) := by
  intro q
  by_cases hq : q = p
  · subst hq; rw [write_same]; exact hv
  · rw [write_other _ _ _ _ hq]; exact h q

theorem POWER32_pos : 0 < POWER32 := by decide

theorem mod_POWER32_lt (x : Nat) : x % POWER32 < POWER32 := Nat.mod_lt _ POWER32_pos

theorem loop_succ {σ : Type} (n : Nat) (body : Nat → σ → σ) (s : σ) :
    loop (n + 1) body s = body n (loop n body s) := rfl

theorem value_succ (m : Mem) (p n : Nat) :
    value m p (n + 1) = value m p n + m (p + n) * POWER32 ^ n := rfl

/-- The value of a block only depends on the words of the block. -/
theorem value_congr {m m1 : Mem} {p n : Nat} (h : ∀ i, i < n → m1 (p + i) = m (p + i)) :
    value m1 p n = value m p n := by
  induction n with
  | zero => rfl
  | succ k ih =>
    rw [value_succ, value_succ, ih (fun i hi => h i (by omega)), h k (by omega)]

/-- Two blocks with the same words have the same value. -/
theorem value_ext {m m1 : Mem} {p p1 n : Nat} (h : ∀ i, i < n → m1 (p1 + i) = m (p + i)) :
    value m1 p1 n = value m p n := by
  induction n with
  | zero => rfl
  | succ k ih =>
    rw [value_succ, value_succ, ih (fun i hi => h i (by omega)), h k (by omega)]

/-- A block of `n` 32-bit words holds a value below `2^(32 n)`. -/
theorem value_lt {m : Mem} (h : WF m) (p n : Nat) : value m p n < POWER32 ^ n := by
  induction n with
  | zero => simp [value]
  | succ k ih =>
    rw [value_succ, pow_succ]
    have h1 := h (p + k)
    have h2 : m (p + k) * POWER32 ^ k ≤ (POWER32 - 1) * POWER32 ^ k :=
      Nat.mul_le_mul_right _ (by omega)
    have h3 : (POWER32 - 1) * POWER32 ^ k + POWER32 ^ k = POWER32 ^ k * POWER32 := by
      have : POWER32 - 1 + 1 = POWER32 := by decide
      calc (POWER32 - 1) * POWER32 ^ k + POWER32 ^ k
          = (POWER32 - 1 + 1) * POWER32 ^ k := by ring
        _ = POWER32 ^ k * POWER32 := by rw [this]; ring
    omega

/-- Splitting a block at word `n`. -/
theorem value_add (m : Mem) (p n k : Nat) :
    value m p (n + k) = value m p n + POWER32 ^ n * value m (p + n) k := by
  induction k with
  | zero => simp [value]
  | succ j ih =>
    rw [← Nat.add_assoc, value_succ, ih, value_succ, pow_add]
    have : p + (n + j) = p + n + j := by omega
    rw [this]; ring

/-- A store outside a block leaves its value alone. -/
theorem value_write_out (m : Mem) (p n q v : Nat) (h : q < p ∨ p + n ≤ q) :
    value (write m q v) p n = value m p n := by
  apply value_congr
  intro i hi
  apply write_other
  omega

/-! ## add32 -/

theorem POWER32_lt_POWER64 : POWER32 * POWER32 = POWER64 := by decide

/-- Invariant of the main loop of `add32` after `i` words, for `wb ≤ wa` and
a destination that never overwrites an operand word before it is read. -/
theorem add32_loop_inv {m : Mem} (hm : WF m) (pa pb pc wa wb : Nat)
    (hA : pc ≤ pa ∨ pa + wa ≤ pc) (hB : pc ≤ pb ∨ pb + wb ≤ pc) (i : Nat) (hi : i ≤ wa) :
    WF (loop i (add32_body pa pb pc wb) (m, 0)).1 ∧
    (loop i (add32_body pa pb pc wb) (m, 0)).2 ≤ 1 ∧
    (∀ q, (q < pc ∨ pc + i ≤ q) → (loop i (add32_body pa pb pc wb) (m, 0)).1 q = m q) ∧
    value (loop i (add32_body pa pb pc wb) (m, 0)).1 pc i +
      (loop i (add32_body pa pb pc wb) (m, 0)).2 * POWER32 ^ i =
      value m pa i + value m pb (min i wb) := by
  induction i with
  | zero => exact ⟨hm, Nat.zero_le _, fun _ _ => rfl, by simp [loop, value]⟩
  | succ k ih =>
    obtain ⟨hwf, hc, hfr, hv⟩ := ih (by omega)
    rw [loop_succ]
    generalize loop k (add32_body pa pb pc wb) (m, 0) = r at hwf hc hfr hv
    obtain ⟨mk, c⟩ := r
    simp only at hwf hc hfr hv
    have ha : mk (pa + k) = m (pa + k) := hfr _ (by omega)
    have hal := hm (pa + k)
    have hbl := hm (pb + k)
    have hP : POWER32 = 4294967296 := rfl
    have hQ : POWER64 = 18446744073709551616 := rfl
    by_cases hk : k < wb
    · have hb : mk (pb + k) = m (pb + k) := hfr _ (by omega)
      have hmin : min (k + 1) wb = k + 1 := by omega
      have hmin1 : min k wb = k := by omega
      simp only [add32_body, hk, if_true, ha, hb]
      rw [hmin1] at hv
      rw [hmin]
      have hs : (m (pa + k) + m (pb + k) + c) % POWER64 = m (pa + k) + m (pb + k) + c :=
        Nat.mod_eq_of_lt (by omega)
      rw [hs]
      set s := m (pa + k) + m (pb + k) + c with hsdef
      have hdiv : s / POWER32 ≤ 1 := by
        rw [hP]; omega
      have hdm : s / POWER32 % POWER32 = s / POWER32 := Nat.mod_eq_of_lt (by omega)
      refine ⟨WF_write hwf _ (mod_POWER32_lt _), by omega, ?_, ?_⟩
      · intro q hq
        rw [write_other _ _ _ _ (by omega)]
        exact hfr q (by omega)
      · rw [value_succ, value_write_out _ _ _ _ _ (Or.inr (le_refl _)), write_same, hdm,
          value_succ, value_succ, pow_succ]
        have hsplit : s % POWER32 + POWER32 * (s / POWER32) = s := Nat.mod_add_div s POWER32
        calc value mk pc k + s % POWER32 * POWER32 ^ k + s / POWER32 * (POWER32 ^ k * POWER32)
            = value mk pc k + (s % POWER32 + POWER32 * (s / POWER32)) * POWER32 ^ k := by ring
          _ = value mk pc k + c * POWER32 ^ k + (m (pa + k) + m (pb + k)) * POWER32 ^ k := by
              rw [hsplit, hsdef]; ring
          _ = value m pa k + m (pa + k) * POWER32 ^ k +
                (value m pb k + m (pb + k) * POWER32 ^ k) := by rw [hv]; ring
    · have hmin : min (k + 1) wb = wb := by omega
      have hmin1 : min k wb = wb := by omega
      simp only [add32_body, hk, if_false, ha]
      rw [hmin1] at hv
      rw [hmin]
      have hs : (m (pa + k) + c) % POWER64 = m (pa + k) + c :=
        Nat.mod_eq_of_lt (by omega)
      rw [hs]
      set s := m (pa + k) + c with hsdef
      have hdiv : s / POWER32 ≤ 1 := by
        rw [hP]; omega
      have hdm : s / POWER32 % POWER32 = s / POWER32 := Nat.mod_eq_of_lt (by omega)
      refine ⟨WF_write hwf _ (mod_POWER32_lt _), by omega, ?_, ?_⟩
      · intro q hq
        rw [write_other _ _ _ _ (by omega)]
        exact hfr q (by omega)
      · rw [value_succ, value_write_out _ _ _ _ _ (Or.inr (le_refl _)), write_same, hdm,
          value_succ, pow_succ]
        have hsplit : s % POWER32 + POWER32 * (s / POWER32) = s := Nat.mod_add_div s POWER32
        calc value mk pc k + s % POWER32 * POWER32 ^ k + s / POWER32 * (POWER32 ^ k * POWER32)
            = value mk pc k + (s % POWER32 + POWER32 * (s / POWER32)) * POWER32 ^ k := by ring
          _ = value mk pc k + c * POWER32 ^ k + m (pa + k) * POWER32 ^ k := by
              rw [hsplit, hsdef]; ring
          _ = value m pa k + m (pa + k) * POWER32 ^ k + value m pb wb := by rw [hv]; ring

/-- What `add32` does when no swap is needed (`wb ≤ wa`). -/
theorem add32_main_spec {m : Mem} (hm : WF m) (pa pb pc wa wb : Nat) (hab : wb ≤ wa)
    (hA : pc ≤ pa ∨ pa + wa ≤ pc) (hB : pc ≤ pb ∨ pb + wb ≤ pc) :
    WF (add32_main m pa pb pc wa wb).1 ∧
    wa ≤ (add32_main m pa pb pc wa wb).2 ∧ (add32_main m pa pb pc wa wb).2 ≤ wa + 1 ∧
    (∀ q, (q < pc ∨ pc + (add32_main m pa pb pc wa wb).2 ≤ q) →
      (add32_main m pa pb pc wa wb).1 q = m q) ∧
    value (add32_main m pa pb pc wa wb).1 pc (add32_main m pa pb pc wa wb).2 =
      value m pa wa + value m pb wb ∧
    ((add32_main m pa pb pc wa wb).2 = wa + 1 →
      POWER32 ^ wa ≤ value m pa wa + value m pb wb) := by
  obtain ⟨hwf, hc, hfr, hv⟩ := add32_loop_inv hm pa pb pc wa wb hA hB wa (le_refl _)
  unfold add32_main
  generalize loop wa (add32_body pa pb pc wb) (m, 0) = r at hwf hc hfr hv
  obtain ⟨mk, c⟩ := r
  simp only at hwf hc hfr hv ⊢
  rw [Nat.min_eq_right hab] at hv
  have hc01 : c = 0 ∨ c = 1 := by omega
  rcases hc01 with rfl | rfl
  · simp only [add32_carry]
    refine ⟨hwf, le_refl _, by omega, hfr, by simpa using hv, fun h => by omega⟩
  · have h1 : (1 : Nat) % POWER64 % POWER32 = 1 := by decide
    have h2 : (1 : Nat) % POWER64 / POWER32 % POWER32 = 0 := by decide
    simp only [add32_carry, h1, h2, Nat.lt_irrefl, if_true, Nat.zero_lt_one, gt_iff_lt]
    refine ⟨WF_write hwf _ (by decide), by omega, le_refl _, ?_, ?_, fun _ => ?_⟩
    · intro q hq
      rw [write_other _ _ _ _ (by omega)]
      exact hfr q (by omega)
    · rw [value_succ, value_write_out _ _ _ _ _ (Or.inr (le_refl _)), write_same]
      exact hv
    · have := value_lt hwf pc wa
      rw [← hv]; omega

/-- The bound of the carry loop is never the reason it stops: any bound
`k ≥ c` gives the result of the bound `c`. -/
theorem add32_carry_fuel (pc : Nat) : ∀ (k c i : Nat) (m : Mem), c ≤ k →
    add32_carry pc k i c m = add32_carry pc c i c m := by
  intro k
  induction k using Nat.strong_induction_on with
  | _ k ih =>
    intro c i m hck
    cases k with
    | zero =>
      have : c = 0 := by omega
      subst this; rfl
    | succ k =>
      cases c with
      | zero => simp [add32_carry]
      | succ j =>
        have hlt : (j + 1) % POWER64 / POWER32 % POWER32 ≤ j := by
          have h1 : (j + 1) % POWER64 / POWER32 % POWER32 ≤ (j + 1) % POWER64 / POWER32 :=
            Nat.mod_le _ _
          have h2 : (j + 1) % POWER64 ≤ j + 1 := Nat.mod_le _ _
          have h3 : (j + 1) % POWER64 / POWER32 ≤ (j + 1) / POWER32 := Nat.div_le_div_right h2
          have h4 : (j + 1) / POWER32 < j + 1 := Nat.div_lt_self (by omega) (by decide)
          omega
        simp only [add32_carry, Nat.succ_pos, if_true, gt_iff_lt]
        rw [ih k (by omega) _ _ _ (by omega), ih j (by omega) _ _ _ hlt]

theorem add32_of_le (m : Mem) (pa pb pc wa wb : Nat) (hab : wb ≤ wa) :
    add32 m pa pb pc wa wb = add32_main m pa pb pc wa wb := by
  unfold add32
  rw [if_neg (by omega)]

/-! ## subtract32 -/

theorem POWER32_cast_pos : (0 : Int) < (POWER32 : Int) := by
  have := POWER32_pos
  exact_mod_cast this

theorem toWord_cast (s : Int) : ((toWord s : Nat) : Int) = s % (POWER32 : Int) := by
  unfold toWord
  exact Int.toNat_of_nonneg (Int.emod_nonneg _ (ne_of_gt POWER32_cast_pos))

theorem toWord_lt (s : Int) : toWord s < POWER32 := by
  have h := Int.emod_lt_of_pos s POWER32_cast_pos
  rw [← toWord_cast] at h
  exact_mod_cast h

/-- A `long long` is its low word plus `2^32` times its shift. -/
theorem toWord_add_sar32 (s : Int) : ((toWord s : Nat) : Int) + (POWER32 : Int) * sar32 s = s := by
  rw [toWord_cast]
  exact Int.emod_add_ediv s _

theorem sar32_nonpos {s : Int} (h : s < (POWER32 : Int)) : sar32 s ≤ 0 := by
  unfold sar32
  have := Int.ediv_lt_of_lt_mul POWER32_cast_pos (show s < 1 * (POWER32 : Int) by simpa using h)
  omega

theorem sar32_neg {s : Int} (h : s < 0) : sar32 s ≤ -1 := by
  unfold sar32
  have := Int.ediv_neg' h POWER32_cast_pos
  omega

theorem sar32_zero {s : Int} (h0 : 0 ≤ s) (h : s < (POWER32 : Int)) : sar32 s = 0 := by
  unfold sar32
  exact Int.ediv_eq_zero_of_lt h0 h

theorem value_cast_lt {m : Mem} (h : WF m) (p n : Nat) :
    ((value m p n : Nat) : Int) < (POWER32 : Int) ^ n := by
  have := value_lt h p n
  exact_mod_cast this

/-- Invariant of the first loop of `subtract32` after `i ≤ wd` words. -/
theorem sub_loop3_inv {m : Mem} (hm : WF m) (pa pb pd pc wa wb wd : Nat)
    (hdb : wd ≤ wb) (hba : wb ≤ wa)
    (hA : pc ≤ pa ∨ pa + wa ≤ pc) (hB : pc ≤ pb ∨ pb + wb ≤ pc) (hD : pc ≤ pd ∨ pd + wd ≤ pc)
    (i : Nat) (hi : i ≤ wd) :
    WF (loop i (sub_body3 pa pb pd pc) (m, 0)).1 ∧
    (loop i (sub_body3 pa pb pd pc) (m, 0)).2 < (POWER32 : Int) ∧
    (∀ q, (q < pc ∨ pc + i ≤ q) → (loop i (sub_body3 pa pb pd pc) (m, 0)).1 q = m q) ∧
    ((value (loop i (sub_body3 pa pb pd pc) (m, 0)).1 pc i : Nat) : Int) +
      sar32 (loop i (sub_body3 pa pb pd pc) (m, 0)).2 * (POWER32 : Int) ^ i =
      (value m pa i : Int) - (value m pb i : Int) - (value m pd i : Int) := by
  induction i with
  | zero =>
    refine ⟨hm, POWER32_cast_pos, fun _ _ => rfl, ?_⟩
    simp [loop, value, sar32]
  | succ k ih =>
    obtain ⟨hwf, hs, hfr, hv⟩ := ih (by omega)
    rw [loop_succ]
    generalize loop k (sub_body3 pa pb pd pc) (m, 0) = r at hwf hs hfr hv
    obtain ⟨mk, sum⟩ := r
    simp only at hwf hs hfr hv
    have ha : mk (pa + k) = m (pa + k) := hfr _ (by omega)
    have hb : mk (pb + k) = m (pb + k) := hfr _ (by omega)
    have hd : mk (pd + k) = m (pd + k) := hfr _ (by omega)
    have hal : ((m (pa + k) : Nat) : Int) < (POWER32 : Int) := by exact_mod_cast hm (pa + k)
    have hbor := sar32_nonpos hs
    simp only [sub_body3, ha, hb, hd]
    set sum1 : Int := (m (pa + k) : Int) - (m (pb + k) : Int) - (m (pd + k) : Int) + sar32 sum
      with hsum1
    refine ⟨WF_write hwf _ (toWord_lt _), by omega, ?_, ?_⟩
    · intro q hq
      rw [write_other _ _ _ _ (by omega)]
      exact hfr q (by omega)
    · rw [value_succ, value_write_out _ _ _ _ _ (Or.inr (le_refl _)), write_same,
        value_succ, value_succ, value_succ, pow_succ]
      push_cast
      have hsplit := toWord_add_sar32 sum1
      calc (value mk pc k : Int) + (toWord sum1 : Int) * (POWER32 : Int) ^ k +
            sar32 sum1 * ((POWER32 : Int) ^ k * (POWER32 : Int))
          = (value mk pc k : Int) +
              ((toWord sum1 : Int) + (POWER32 : Int) * sar32 sum1) * (POWER32 : Int) ^ k := by
            ring
        _ = ((value mk pc k : Int) + sar32 sum * (POWER32 : Int) ^ k) +
              ((m (pa + k) : Int) - (m (pb + k) : Int) - (m (pd + k) : Int)) *
                (POWER32 : Int) ^ k := by
            rw [hsplit, hsum1]; ring
        _ = _ := by rw [hv]; ring

/-- Invariant of the second loop of `subtract32` after `k ≤ wb - wd` words,
started in a state `r` that satisfies the invariant of the first loop at
`wd`. -/
theorem sub_loop2_inv {m : Mem} (hm : WF m) (pa pb pc wa wb wd : Nat) (Dv : Int)
    (hdb : wd ≤ wb) (hba : wb ≤ wa)
    (hA : pc ≤ pa ∨ pa + wa ≤ pc) (hB : pc ≤ pb ∨ pb + wb ≤ pc)
    (r : Mem × Int) (hwf0 : WF r.1) (hs0 : r.2 < (POWER32 : Int))
    (hfr0 : ∀ q, (q < pc ∨ pc + wd ≤ q) → r.1 q = m q)
    (hv0 : ((value r.1 pc wd : Nat) : Int) + sar32 r.2 * (POWER32 : Int) ^ wd =
      (value m pa wd : Int) - (value m pb wd : Int) - Dv)
    (k : Nat) (hk : k ≤ wb - wd) :
    WF (loop k (sub_body2 pa pb pc wd) r).1 ∧
    (loop k (sub_body2 pa pb pc wd) r).2 < (POWER32 : Int) ∧
    (∀ q, (q < pc ∨ pc + (wd + k) ≤ q) → (loop k (sub_body2 pa pb pc wd) r).1 q = m q) ∧
    ((value (loop k (sub_body2 pa pb pc wd) r).1 pc (wd + k) : Nat) : Int) +
      sar32 (loop k (sub_body2 pa pb pc wd) r).2 * (POWER32 : Int) ^ (wd + k) =
      (value m pa (wd + k) : Int) - (value m pb (wd + k) : Int) - Dv := by
  induction k with
  | zero => exact ⟨hwf0, hs0, hfr0, hv0⟩
  | succ j ih =>
    obtain ⟨hwf, hs, hfr, hv⟩ := ih (by omega)
    rw [loop_succ]
    generalize loop j (sub_body2 pa pb pc wd) r = t at hwf hs hfr hv
    obtain ⟨mk, sum⟩ := t
    simp only at hwf hs hfr hv
    have ha : mk (pa + (wd + j)) = m (pa + (wd + j)) := hfr _ (by omega)
    have hb : mk (pb + (wd + j)) = m (pb + (wd + j)) := hfr _ (by omega)
    have hal : ((m (pa + (wd + j)) : Nat) : Int) < (POWER32 : Int) := by
      exact_mod_cast hm (pa + (wd + j))
    have hbor := sar32_nonpos hs
    simp only [sub_body2, ha, hb]
    set sum1 : Int := (m (pa + (wd + j)) : Int) - (m (pb + (wd + j)) : Int) + sar32 sum
      with hsum1
    refine ⟨WF_write hwf _ (toWord_lt _), by omega, ?_, ?_⟩
    · intro q hq
      rw [write_other _ _ _ _ (by omega)]
      exact hfr q (by omega)
    · rw [show wd + (j + 1) = (wd + j) + 1 from rfl, value_succ,
        value_write_out _ _ _ _ _ (Or.inr (le_refl _)),
        write_same, value_succ, value_succ, pow_succ]
      push_cast
      have hsplit := toWord_add_sar32 sum1
      calc (value mk pc (wd + j) : Int) + (toWord sum1 : Int) * (POWER32 : Int) ^ (wd + j) +
            sar32 sum1 * ((POWER32 : Int) ^ (wd + j) * (POWER32 : Int))
          = (value mk pc (wd + j) : Int) +
              ((toWord sum1 : Int) + (POWER32 : Int) * sar32 sum1) *
                (POWER32 : Int) ^ (wd + j) := by
            ring
        _ = ((value mk pc (wd + j) : Int) + sar32 sum * (POWER32 : Int) ^ (wd + j)) +
              ((m (pa + (wd + j)) : Int) - (m (pb + (wd + j)) : Int)) *
                (POWER32 : Int) ^ (wd + j) := by
            rw [hsplit, hsum1]; ring
        _ = _ := by rw [hv]; ring

/-- The borrow loop of `subtract32`, started at word `i` with `k = wa - i`
words left: it stops at the first word where no borrow is pending. -/
theorem sub_borrow_spec {m : Mem} (hm : WF m) (pa pc wa : Nat) (S : Int)
    (hA : pc ≤ pa ∨ pa + wa ≤ pc) :
    ∀ (k i : Nat) (sum : Int) (mk : Mem), i + k = wa → WF mk → sum < (POWER32 : Int) →
      (∀ q, (q < pc ∨ pc + i ≤ q) → mk q = m q) →
      ((value mk pc i : Nat) : Int) + sar32 sum * (POWER32 : Int) ^ i = (value m pa i : Int) - S →
      WF (sub_borrow pa pc k i sum mk).1 ∧
      i ≤ (sub_borrow pa pc k i sum mk).2 ∧ (sub_borrow pa pc k i sum mk).2 ≤ wa ∧
      (∀ q, (q < pc ∨ pc + (sub_borrow pa pc k i sum mk).2 ≤ q) →
        (sub_borrow pa pc k i sum mk).1 q = m q) ∧
      (∀ j, i ≤ j → j < (sub_borrow pa pc k i sum mk).2 → (value m pa j : Int) < S) ∧
      ∃ bw : Int, bw ≤ 0 ∧ ((sub_borrow pa pc k i sum mk).2 < wa → bw = 0) ∧
        ((value (sub_borrow pa pc k i sum mk).1 pc (sub_borrow pa pc k i sum mk).2 : Nat) : Int) +
          bw * (POWER32 : Int) ^ (sub_borrow pa pc k i sum mk).2 =
          (value m pa (sub_borrow pa pc k i sum mk).2 : Int) - S := by
  intro k
  induction k with
  | zero =>
    intro i sum mk hik hwf hs hfr hv
    simp only [sub_borrow]
    refine ⟨hwf, le_refl _, by omega, hfr, fun j h1 h2 => by omega, sar32 sum,
      sar32_nonpos hs, fun h => by omega, hv⟩
  | succ k ih =>
    intro i sum mk hik hwf hs hfr hv
    by_cases hneg : sum < 0
    · simp only [sub_borrow, hneg, if_true]
      have ha : mk (pa + i) = m (pa + i) := hfr _ (by omega)
      have hal : ((m (pa + i) : Nat) : Int) < (POWER32 : Int) := by exact_mod_cast hm (pa + i)
      have hbor := sar32_neg hneg
      rw [ha]
      set sum1 : Int := (m (pa + i) : Int) + sar32 sum with hsum1
      have hpend : (value m pa i : Int) < S := by
        have h1 := value_cast_lt hwf pc i
        have h2 : sar32 sum * (POWER32 : Int) ^ i ≤ -1 * (POWER32 : Int) ^ i :=
          mul_le_mul_of_nonneg_right hbor (pow_nonneg (le_of_lt POWER32_cast_pos) _)
        linarith
      have hv1 : ((value (write mk (pc + i) (toWord sum1)) pc (i + 1) : Nat) : Int) +
          sar32 sum1 * (POWER32 : Int) ^ (i + 1) = (value m pa (i + 1) : Int) - S := by
        rw [value_succ, value_write_out _ _ _ _ _ (Or.inr (le_refl _)), write_same,
          value_succ, pow_succ]
        push_cast
        have hsplit := toWord_add_sar32 sum1
        calc (value mk pc i : Int) + (toWord sum1 : Int) * (POWER32 : Int) ^ i +
              sar32 sum1 * ((POWER32 : Int) ^ i * (POWER32 : Int))
            = (value mk pc i : Int) +
                ((toWord sum1 : Int) + (POWER32 : Int) * sar32 sum1) * (POWER32 : Int) ^ i := by
              ring
          _ = ((value mk pc i : Int) + sar32 sum * (POWER32 : Int) ^ i) +
                (m (pa + i) : Int) * (POWER32 : Int) ^ i := by
              rw [hsplit, hsum1]; ring
          _ = _ := by rw [hv]; ring
      have hfr1 : ∀ q, (q < pc ∨ pc + (i + 1) ≤ q) →
          write mk (pc + i) (toWord sum1) q = m q := by
        intro q hq
        rw [write_other _ _ _ _ (by omega)]
        exact hfr q (by omega)
      obtain ⟨g1, g2, g3, g4, g5, g6⟩ :=
        ih (i + 1) sum1 (write mk (pc + i) (toWord sum1)) (by omega)
          (WF_write hwf _ (toWord_lt _)) (by omega) hfr1 hv1
      refine ⟨g1, by omega, g3, g4, ?_, g6⟩
      intro j hj1 hj2
      by_cases hji : j = i
      · subst hji; exact hpend
      · exact g5 j (by omega) hj2
    · simp only [sub_borrow, hneg, if_false]
      have h0 : sar32 sum = 0 := sar32_zero (by omega) hs
      rw [h0] at hv
      refine ⟨hwf, le_refl _, by omega, hfr, fun j h1 h2 => by omega, 0, le_refl _,
        fun _ => rfl, hv⟩

/-- The copy loop of `subtract32`, started at word `i` with `k = wa - i`
words left. -/
theorem sub_copy_spec {m : Mem} (pa pc wa : Nat) (hA : pc ≤ pa ∨ pa + wa ≤ pc) :
    ∀ (k i : Nat) (mk : Mem), i + k = wa → WF mk →
      (∀ q, (q < pc ∨ pc + i ≤ q) → mk q = m q) →
      WF (sub_copy pa pc k i mk) ∧
      (∀ q, (q < pc ∨ pc + wa ≤ q) → sub_copy pa pc k i mk q = m q) ∧
      (∀ j, j < i → sub_copy pa pc k i mk (pc + j) = mk (pc + j)) ∧
      (∀ j, i ≤ j → j < wa → sub_copy pa pc k i mk (pc + j) = m (pa + j)) := by
  intro k
  induction k with
  | zero =>
    intro i mk hik hwf hfr
    simp only [sub_copy]
    exact ⟨hwf, fun q hq => hfr q (by omega), fun _ _ => trivial, fun j h1 h2 => by omega⟩
  | succ k ih =>
    intro i mk hik hwf hfr
    simp only [sub_copy]
    have ha : mk (pa + i) = m (pa + i) := hfr _ (by omega)
    have hfr1 : ∀ q, (q < pc ∨ pc + (i + 1) ≤ q) →
        write mk (pc + i) (mk (pa + i)) q = m q := by
      intro q hq
      rw [write_other _ _ _ _ (by omega)]
      exact hfr q (by omega)
    obtain ⟨g1, g2, g3, g4⟩ := ih (i + 1) (write mk (pc + i) (mk (pa + i))) (by omega)
      (WF_write hwf _ (hwf _)) hfr1
    refine ⟨g1, g2, ?_, ?_⟩
    · intro j hj
      rw [g3 j (by omega), write_other _ _ _ _ (by omega)]
    · intro j hj1 hj2
      by_cases hji : j = i
      · subst hji
        rw [g3 j (by omega), write_same, ha]
      · exact g4 j (by omega) hj2

/-- What `subtract32` does under its precondition `wd ≤ wb ≤ wa`,
`value b + value d ≤ value a`, for a destination that never overwrites an
operand word before it is read (in particular the in-place call with the
destination on `a`). -/
theorem subtract32_spec {m : Mem} (hm : WF m) (pa pb pd pc wa wb wd : Nat)
    (hdb : wd ≤ wb) (hba : wb ≤ wa)
    (hA : pc ≤ pa ∨ pa + wa ≤ pc) (hB : pc ≤ pb ∨ pb + wb ≤ pc) (hD : pc ≤ pd ∨ pd + wd ≤ pc)
    (hval : value m pb wb + value m pd wd ≤ value m pa wa) :
    WF (subtract32 m pa pb pd pc wa wb wd).1 ∧
    (subtract32 m pa pb pd pc wa wb wd).2 = wa ∧
    (∀ q, (q < pc ∨ pc + wa ≤ q) → (subtract32 m pa pb pd pc wa wb wd).1 q = m q) ∧
    value (subtract32 m pa pb pd pc wa wb wd).1 pc wa + value m pb wb + value m pd wd =
      value m pa wa ∧
    (∀ j, wb ≤ j → j < wa → value m pb wb + value m pd wd ≤ value m pa j →
      (subtract32 m pa pb pd pc wa wb wd).1 (pc + j) = m (pa + j)) := by
  obtain ⟨a1, a2, a3, a4⟩ := sub_loop3_inv hm pa pb pd pc wa wb wd hdb hba hA hB hD wd (le_refl _)
  obtain ⟨b1, b2, b3, b4⟩ := sub_loop2_inv hm pa pb pc wa wb wd (value m pd wd : Int) hdb hba hA hB
    _ a1 a2 a3 a4 (wb - wd) (le_refl _)
  have hwd : wd + (wb - wd) = wb := by omega
  rw [hwd] at b3 b4
  unfold subtract32
  simp only [hwd]
  generalize loop (wb - wd) (sub_body2 pa pb pc wd) (loop wd (sub_body3 pa pb pd pc) (m, 0)) = r2
    at b1 b2 b3 b4
  obtain ⟨m2, sum⟩ := r2
  simp only at b1 b2 b3 b4 ⊢
  have b4' : ((value m2 pc wb : Nat) : Int) + sar32 sum * (POWER32 : Int) ^ wb =
      (value m pa wb : Int) - ((value m pb wb : Int) + (value m pd wd : Int)) := by
    rw [b4]; ring
  obtain ⟨c1, c2, c3, c4, c5, bw, c6, c7, c8⟩ :=
    sub_borrow_spec hm pa pc wa ((value m pb wb : Int) + (value m pd wd : Int)) hA
      (wa - wb) wb sum m2 (by omega) b1 b2 b3 b4'
  generalize sub_borrow pa pc (wa - wb) wb sum m2 = r3 at c1 c2 c3 c4 c5 c6 c7 c8
  obtain ⟨m3, i3⟩ := r3
  simp only at c1 c2 c3 c4 c5 c6 c7 c8 ⊢
  obtain ⟨d1, d2, d3, d4⟩ := sub_copy_spec (m := m) pa pc wa hA (wa - i3) i3 m3 (by omega) c1 c4
  generalize sub_copy pa pc (wa - i3) i3 m3 = m4 at d1 d2 d3 d4
  have hsplit : value m4 pc wa =
      value m3 pc i3 + POWER32 ^ i3 * value m (pa + i3) (wa - i3) := by
    have e : wa = i3 + (wa - i3) := by omega
    conv_lhs => rw [e]
    rw [value_add]
    congr 1
    · exact value_congr (fun j hj => d3 j hj)
    · congr 1
      apply value_ext
      intro j hj
      have := d4 (i3 + j) (by omega) (by omega)
      rw [show pc + i3 + j = pc + (i3 + j) by omega, this]
      congr 1; omega
  have hasplit : value m pa wa = value m pa i3 + POWER32 ^ i3 * value m (pa + i3) (wa - i3) := by
    have e : wa = i3 + (wa - i3) := by omega
    conv_lhs => rw [e]
    rw [value_add]
  have hbw : bw = 0 := by
    by_cases hlt : i3 < wa
    · exact c7 hlt
    · have hi3 : i3 = wa := by omega
      subst hi3
      have h1 := value_cast_lt c1 pc i3
      have h2 : ((value m pb wb + value m pd wd : Nat) : Int) ≤ (value m pa i3 : Int) := by
        exact_mod_cast hval
      push_cast at h2
      have h3 : (0 : Int) ≤ (value m3 pc i3 : Int) := Int.natCast_nonneg _
      by_contra hne
      have h4 : bw ≤ -1 := by omega
      have h5 : bw * (POWER32 : Int) ^ i3 ≤ -1 * (POWER32 : Int) ^ i3 :=
        mul_le_mul_of_nonneg_right h4 (pow_nonneg (le_of_lt POWER32_cast_pos) _)
      linarith
  rw [hbw] at c8
  refine ⟨d1, trivial, d2, ?_, ?_⟩
  · rw [hsplit, hasplit]
    have : ((value m3 pc i3 : Nat) : Int) + (value m pb wb : Int) + (value m pd wd : Int) =
        (value m pa i3 : Int) := by linarith
    have h' : value m3 pc i3 + value m pb wb + value m pd wd = value m pa i3 := by
      exact_mod_cast this
    omega
  · intro j hj1 hj2 hj3
    by_cases hji : j < i3
    · have := c5 j hj1 hji
      have h2 : ((value m pb wb + value m pd wd : Nat) : Int) ≤ (value m pa j : Int) := by
        exact_mod_cast hj3
      push_cast at h2
      omega
    · exact d4 j (by omega) hj2

/-! ## multiply32 -/

/-- A store inside a block replaces one digit of its value. -/
theorem value_write_in (m : Mem) (p n k v : Nat) (hk : k < n) :
    value (write m (p + k) v) p n + m (p + k) * POWER32 ^ k =
      value m p n + v * POWER32 ^ k := by
  induction n with
  | zero => omega
  | succ j ih =>
    rw [value_succ, value_succ]
    by_cases hkj : k = j
    · subst hkj
      rw [value_write_out _ _ _ _ _ (Or.inr (le_refl _)), write_same]
      ring
    · rw [write_other _ _ _ _ (by omega)]
      have := ih (by omega)
      omega

/-- The zeroing loops (of `multiply32`, and the `memset` of `Product32`). -/
theorem zero_loop_spec {m : Mem} (hm : WF m) (pc n : Nat) :
    WF (loop n (fun i m => write m (pc + i) 0) m) ∧
    (∀ q, (q < pc ∨ pc + n ≤ q) → loop n (fun i m => write m (pc + i) 0) m q = m q) ∧
    (∀ i, i < n → loop n (fun i m => write m (pc + i) 0) m (pc + i) = 0) := by
  induction n with
  | zero => exact ⟨hm, fun _ _ => rfl, fun i hi => by omega⟩
  | succ k ih =>
    obtain ⟨h1, h2, h3⟩ := ih
    rw [loop_succ]
    refine ⟨WF_write h1 _ POWER32_pos, ?_, ?_⟩
    · intro q hq
      rw [write_other _ _ _ _ (by omega)]
      exact h2 q (by omega)
    · intro i hi
      by_cases hik : i = k
      · subst hik; exact write_same _ _ _
      · rw [write_other _ _ _ _ (by omega)]
        exact h3 i (by omega)

theorem value_zero_block {m : Mem} {p n : Nat} (h : ∀ i, i < n → m (p + i) = 0) :
    value m p n = 0 := by
  induction n with
  | zero => rfl
  | succ k ih => rw [value_succ, ih (fun i hi => h i (by omega)), h k (by omega)]; simp

/-- The 64-bit accumulator of `multiply32` cannot overflow. -/
theorem mul_acc_lt {x y z k : Nat} (hx : x < POWER32) (hy : y < POWER32) (hz : z < POWER32)
    (hk : k < POWER32) : x * y + z + k < POWER64 := by
  have h1 : x * y ≤ (POWER32 - 1) * (POWER32 - 1) :=
    Nat.mul_le_mul (by omega) (by omega)
  have h2 : (POWER32 - 1) * (POWER32 - 1) + (POWER32 - 1) + (POWER32 - 1) < POWER64 := by decide
  omega

/-- Invariant of the inner loop of `multiply32` in row `i`, after `j` words
of `b`; `m0` is the memory at the start of the row and `N = wa + wb`. -/
theorem mul_inner_inv {m0 : Mem} (hm : WF m0) (pa pb pc wa wb i : Nat) (hi : i < wa)
    (hA : pa + wa ≤ pc ∨ pc + (wa + wb) ≤ pa) (hB : pb + wb ≤ pc ∨ pc + (wa + wb) ≤ pb)
    (j : Nat) (hj : j ≤ wb) :
    WF (loop j (mul_inner pa pb pc i) (m0, 0)).1 ∧
    (loop j (mul_inner pa pb pc i) (m0, 0)).2 < POWER32 ∧
    (∀ q, (q < pc + i ∨ pc + i + j ≤ q) → (loop j (mul_inner pa pb pc i) (m0, 0)).1 q = m0 q) ∧
    value (loop j (mul_inner pa pb pc i) (m0, 0)).1 pc (wa + wb) +
      (loop j (mul_inner pa pb pc i) (m0, 0)).2 * POWER32 ^ (i + j) =
      value m0 pc (wa + wb) + m0 (pa + i) * value m0 pb j * POWER32 ^ i := by
  induction j with
  | zero => exact ⟨hm, POWER32_pos, fun _ _ => rfl, by simp [loop, value]⟩
  | succ k ih =>
    obtain ⟨hwf, hc, hfr, hv⟩ := ih (by omega)
    rw [loop_succ]
    generalize loop k (mul_inner pa pb pc i) (m0, 0) = r at hwf hc hfr hv
    obtain ⟨mk, c⟩ := r
    simp only at hwf hc hfr hv
    have ha : mk (pa + i) = m0 (pa + i) := hfr _ (by omega)
    have hb : mk (pb + k) = m0 (pb + k) := hfr _ (by omega)
    simp only [mul_inner, ha, hb]
    have hp : (m0 (pa + i) * m0 (pb + k) + mk (pc + (i + k)) + c) % POWER64 =
        m0 (pa + i) * m0 (pb + k) + mk (pc + (i + k)) + c :=
      Nat.mod_eq_of_lt (mul_acc_lt (hm _) (hm _) (hwf _) hc)
    rw [hp]
    set p := m0 (pa + i) * m0 (pb + k) + mk (pc + (i + k)) + c with hpdef
    have hplt : p < POWER64 := mul_acc_lt (hm _) (hm _) (hwf _) hc
    have hdiv : p / POWER32 < POWER32 := by
      rw [Nat.div_lt_iff_lt_mul POWER32_pos, POWER32_lt_POWER64]; exact hplt
    have hdm : p / POWER32 % POWER32 = p / POWER32 := Nat.mod_eq_of_lt hdiv
    rw [hdm]
    refine ⟨WF_write hwf _ (mod_POWER32_lt _), hdiv, ?_, ?_⟩
    · intro q hq
      rw [write_other _ _ _ _ (by omega)]
      exact hfr q (by omega)
    · have hw := value_write_in mk pc (wa + wb) (i + k) (p % POWER32) (by omega)
      have hsplit : p % POWER32 + POWER32 * (p / POWER32) = p := Nat.mod_add_div p POWER32
      rw [value_succ]
      have e1 : POWER32 ^ (i + (k + 1)) = POWER32 * POWER32 ^ (i + k) := by
        rw [← Nat.add_assoc, pow_succ]; ring
      have e2 : POWER32 ^ (i + k) = POWER32 ^ k * POWER32 ^ i := by rw [pow_add]; ring
      rw [e1]
      have key : value (write mk (pc + (i + k)) (p % POWER32)) pc (wa + wb) +
          p / POWER32 * (POWER32 * POWER32 ^ (i + k)) + mk (pc + (i + k)) * POWER32 ^ (i + k) =
          value m0 pc (wa + wb) +
            m0 (pa + i) * (value m0 pb k + m0 (pb + k) * POWER32 ^ k) * POWER32 ^ i +
            mk (pc + (i + k)) * POWER32 ^ (i + k) := by
        calc value (write mk (pc + (i + k)) (p % POWER32)) pc (wa + wb) +
              p / POWER32 * (POWER32 * POWER32 ^ (i + k)) + mk (pc + (i + k)) * POWER32 ^ (i + k)
            = (value (write mk (pc + (i + k)) (p % POWER32)) pc (wa + wb) +
                mk (pc + (i + k)) * POWER32 ^ (i + k)) +
                p / POWER32 * (POWER32 * POWER32 ^ (i + k)) := by ring
          _ = value mk pc (wa + wb) +
                (p % POWER32 + POWER32 * (p / POWER32)) * POWER32 ^ (i + k) := by
              rw [hw]; ring
          _ = (value mk pc (wa + wb) + c * POWER32 ^ (i + k)) +
                (m0 (pa + i) * m0 (pb + k) + mk (pc + (i + k))) * POWER32 ^ (i + k) := by
              rw [hsplit, hpdef]; ring
          _ = _ := by rw [hv, e2]; ring
      omega

/-- One row of `multiply32` adds `a[i] * value b * 2^(32 i)` to the value
of the destination, provided the word at `i + wb` was still zero. -/
theorem mul_outer_spec {m0 : Mem} (hm : WF m0) (pa pb pc wa wb i : Nat) (hi : i < wa)
    (hA : pa + wa ≤ pc ∨ pc + (wa + wb) ≤ pa) (hB : pb + wb ≤ pc ∨ pc + (wa + wb) ≤ pb)
    (hz : m0 (pc + (i + wb)) = 0) :
    WF (mul_outer pa pb pc wb i m0) ∧
    (∀ q, (q < pc + i ∨ pc + i + wb + 1 ≤ q) → mul_outer pa pb pc wb i m0 q = m0 q) ∧
    value (mul_outer pa pb pc wb i m0) pc (wa + wb) =
      value m0 pc (wa + wb) + m0 (pa + i) * value m0 pb wb * POWER32 ^ i := by
  obtain ⟨hwf, hc, hfr, hv⟩ := mul_inner_inv hm pa pb pc wa wb i hi hA hB wb (le_refl _)
  unfold mul_outer
  generalize loop wb (mul_inner pa pb pc i) (m0, 0) = r at hwf hc hfr hv
  obtain ⟨mk, c⟩ := r
  simp only at hwf hc hfr hv ⊢
  refine ⟨WF_write hwf _ hc, ?_, ?_⟩
  · intro q hq
    rw [write_other _ _ _ _ (by omega)]
    exact hfr q (by omega)
  · have hw := value_write_in mk pc (wa + wb) (i + wb) c (by omega)
    have h0 : mk (pc + (i + wb)) = 0 := by
      rw [hfr _ (by omega)]; exact hz
    rw [h0] at hw
    omega

/-- What `multiply32` does, for a destination of `wa + wb` words disjoint
from both operands, whatever it held before. -/
theorem multiply32_spec {m : Mem} (hm : WF m) (pa pb pc wa wb : Nat)
    (hA : pa + wa ≤ pc ∨ pc + (wa + wb) ≤ pa) (hB : pb + wb ≤ pc ∨ pc + (wa + wb) ≤ pb) :
    WF (multiply32 m pa pb pc wa wb).1 ∧
    (multiply32 m pa pb pc wa wb).2 = wa + wb ∧
    (∀ q, (q < pc ∨ pc + (wa + wb) ≤ q) → (multiply32 m pa pb pc wa wb).1 q = m q) ∧
    value (multiply32 m pa pb pc wa wb).1 pc (wa + wb) = value m pa wa * value m pb wb := by
  obtain ⟨z1, z2, z3⟩ := zero_loop_spec hm pc (wa + wb)
  unfold multiply32
  simp only
  generalize loop (wa + wb) (fun i m => write m (pc + i) 0) m = mz at z1 z2 z3
  have hbz : value mz pb wb = value m pb wb :=
    value_congr (fun i hi => z2 _ (by omega))
  have inv : ∀ i, i ≤ wa →
      WF (loop i (mul_outer pa pb pc wb) mz) ∧
      (∀ q, (q < pc ∨ pc + i + wb ≤ q) → loop i (mul_outer pa pb pc wb) mz q = mz q) ∧
      value (loop i (mul_outer pa pb pc wb) mz) pc (wa + wb) = value m pa i * value m pb wb := by
    intro i
    induction i with
    | zero =>
      intro _
      refine ⟨z1, fun _ _ => rfl, ?_⟩
      simp only [loop, value, Nat.zero_mul]
      exact value_zero_block z3
    | succ k ih =>
      intro hk
      obtain ⟨h1, h2, h3⟩ := ih (by omega)
      rw [loop_succ]
      generalize loop k (mul_outer pa pb pc wb) mz = mk at h1 h2 h3
      have hz : mk (pc + (k + wb)) = 0 := by
        rw [h2 _ (by omega)]; exact z3 _ (by omega)
      obtain ⟨g1, g2, g3⟩ := mul_outer_spec h1 pa pb pc wa wb k (by omega) hA hB hz
      refine ⟨g1, ?_, ?_⟩
      · intro q hq
        rw [g2 q (by omega)]
        exact h2 q (by omega)
      · have ha : mk (pa + k) = m (pa + k) := by
          rw [h2 _ (by omega)]; exact z2 _ (by omega)
        have hb : value mk pb wb = value m pb wb := by
          rw [← hbz]
          exact value_congr (fun i hi => h2 _ (by omega))
        rw [g3, h3, ha, hb, value_succ]
        ring
  obtain ⟨h1, h2, h3⟩ := inv wa (le_refl _)
  refine ⟨h1, trivial, ?_, h3⟩
  intro q hq
  rw [h2 q (by omega)]
  exact z2 q hq

/-! ## karatsuba32 -/

theorem calloc_mem_lt (st : State) (n q : Nat) (h : q < st.brk) :
    (calloc st n).1.mem q = st.mem q := by
  simp only [calloc]
  rw [if_neg (by omega)]

theorem calloc_WF {st : State} (h : WF st.mem) (n : Nat) : WF (calloc st n).1.mem := by
  intro q
  simp only [calloc]
  split
  · exact POWER32_pos
  · exact h q

/-- The body of `karatsuba32`, one call at a time. -/
theorem karatsuba32_unfold (dec : Dispatcher) (st : State) (pa pb pc wa wb n : Nat)
    (hn : n = if wa < wb then wa / 2 else wb / 2)
    (m2 m3 m9 m10 m11 : Mem) (wt1 wt2 ww3 ww2 ww4 ww3a ww3b ww2b : Nat) (st5 st7 st8 : State)
    (h1 : add32 (calloc st (wa - n + (wb - n) + 2)).1.mem (pa + n) pa st.brk (wa - n) n
      = (m2, wt1))
    (h2 : add32 m2 (pb + n) pb (st.brk + (wa - n) + 1) (wb - n) n = (m3, wt2))
    (h3 : dec (calloc { mem := m3, brk := st.brk + (wa - n + (wb - n) + 2) } (wt1 + wt2)).1
      st.brk (st.brk + (wa - n) + 1) (st.brk + (wa - n + (wb - n) + 2)) wt1 wt2 = some (st5, ww3))
    (h4 : dec (calloc st5 (wa - n + (wb - n))).1 (pa + n) (pb + n) st5.brk (wa - n) (wb - n)
      = some (st7, ww2))
    (h5 : dec st7 pa pb pc n n = some (st8, ww4))
    (h6 : (if ww2 > ww4 then
        subtract32 st8.mem (st.brk + (wa - n + (wb - n) + 2)) st5.brk pc
          (st.brk + (wa - n + (wb - n) + 2)) ww3 ww2 ww4
      else
        subtract32 st8.mem (st.brk + (wa - n + (wb - n) + 2)) pc st5.brk
          (st.brk + (wa - n + (wb - n) + 2)) ww3 ww4 ww2) = (m9, ww3a))
    (h8 : add32 m9 (st.brk + (wa - n + (wb - n) + 2)) (pc + n) (pc + n) ww3a (ww4 - n)
      = (m10, ww3b))
    (h9 : add32 m10 st5.brk (pc + 2 * n) (pc + 2 * n) ww2 (ww3b - n) = (m11, ww2b)) :
    karatsuba32 dec st pa pb pc wa wb = some ({ st8 with mem := m11 }, 3 * n + (ww2b - n)) := by
  subst hn
  simp only [calloc] at h1 h3 h4
  simp only [karatsuba32, calloc, h1, h2, h3, h4, h5, h6, h8, h9]

/-- Values agree on blocks where the memories agree. -/
theorem value_agree {m m1 : Mem} {p n : Nat} (h : ∀ q, p ≤ q → q < p + n → m1 q = m q) :
    value m1 p n = value m p n :=
  value_congr (fun i hi => h (p + i) (by omega) (by omega))

/-- The result of `add32` without swap, as an existence statement. -/
theorem add32_le_ex {m : Mem} (hm : WF m) (pa pb pc wa wb : Nat) (hab : wb ≤ wa)
    (hA : pc ≤ pa ∨ pa + wa ≤ pc) (hB : pc ≤ pb ∨ pb + wb ≤ pc) :
    ∃ (m1 : Mem) (wc : Nat), add32 m pa pb pc wa wb = (m1, wc) ∧ WF m1 ∧ wa ≤ wc ∧ wc ≤ wa + 1 ∧
      (∀ q, (q < pc ∨ pc + wc ≤ q) → m1 q = m q) ∧
      value m1 pc wc = value m pa wa + value m pb wb ∧
      (wc = wa + 1 → POWER32 ^ wa ≤ value m pa wa + value m pb wb) := by
  refine ⟨(add32 m pa pb pc wa wb).1, (add32 m pa pb pc wa wb).2, rfl, ?_⟩
  rw [add32_of_le m pa pb pc wa wb hab]
  exact add32_main_spec hm pa pb pc wa wb hab hA hB

/-- The result of `subtract32` under its precondition, as an existence
statement. -/
theorem subtract32_ex {m : Mem} (hm : WF m) (pa pb pd pc wa wb wd : Nat)
    (hdb : wd ≤ wb) (hba : wb ≤ wa)
    (hA : pc ≤ pa ∨ pa + wa ≤ pc) (hB : pc ≤ pb ∨ pb + wb ≤ pc) (hD : pc ≤ pd ∨ pd + wd ≤ pc)
    (hval : value m pb wb + value m pd wd ≤ value m pa wa) :
    ∃ m1 : Mem, subtract32 m pa pb pd pc wa wb wd = (m1, wa) ∧ WF m1 ∧
      (∀ q, (q < pc ∨ pc + wa ≤ q) → m1 q = m q) ∧
      value m1 pc wa + value m pb wb + value m pd wd = value m pa wa := by
  obtain ⟨h1, h2, h3, h4, _⟩ := subtract32_spec hm pa pb pd pc wa wb wd hdb hba hA hB hD hval
  exact ⟨(subtract32 m pa pb pd pc wa wb wd).1, Prod.ext rfl h2, h1, h3, h4⟩

/-- The algebra of the Karatsuba recombination: with `P = 2^(32 n)`, cross
term `X`, low product `Lo4 + P * Hi4`, and `Lo3 + P * Y` the sum of the cross
term and `Hi4`. -/
theorem kara_identity (P U1 U2 V1 V2 X Lo4 Hi4 Lo3 Y : Nat)
    (hc : X + U1 * V1 + U2 * V2 = (U1 + U2) * (V1 + V2))
    (hd : Lo4 + P * Hi4 = U2 * V2) (he : Lo3 + P * Y = X + Hi4) :
    Lo4 + P * (Lo3 + P * (U1 * V1 + Y)) = (U2 + P * U1) * (V2 + P * V1) := by
  zify at hc hd he ⊢
  linear_combination hd + (P : Int) * he + (P : Int) * hc

/-- If the assembled product is below `P * P * Q`, its top part is below `Q`. -/
theorem kara_no_carry (P Q A B Pa Pb Lo4 Lo3 Z : Nat) (hlt : A * B < Pa * Pb)
    (hpow : Pa * Pb = P * (P * Q)) (hid : Lo4 + P * (Lo3 + P * Z) = A * B) (h : Q ≤ Z) :
    False := by
  have h1 : P * (P * Q) ≤ P * (P * Z) := Nat.mul_le_mul_left _ (Nat.mul_le_mul_left _ h)
  have h2 : P * (P * Z) ≤ Lo4 + P * (Lo3 + P * Z) :=
    le_trans (Nat.mul_le_mul_left _ (Nat.le_add_left _ _)) (Nat.le_add_left _ _)
  omega

theorem cross_le (U1 U2 V1 V2 : Nat) : U1 * V1 + U2 * V2 ≤ (U1 + U2) * (V1 + V2) := by
  have : (U1 + U2) * (V1 + V2) = U1 * V1 + U2 * V2 + (U1 * V2 + U2 * V1) := by ring
  omega

theorem karatsuba32_spec (dec : Dispatcher) (st : State) (pa pb pc wa wb : Nat)
    (hwa : 6 ≤ wa) (hwb : 6 ≤ wb)
    (hdec : ∀ st1 qa qb qc la lb, 1 ≤ la → 1 ≤ lb → la < wa → MulPre st1 qa qb qc la lb →
      MulOK dec st1 qa qb qc la lb)
    (hpre : MulPre st pa pb pc wa wb) :
    MulOK (karatsuba32 dec) st pa pb pc wa wb := by
  obtain ⟨hwf, hpa, hpb, hpc, hdA, hdB⟩ := hpre
  obtain ⟨n, hn⟩ : ∃ n, n = if wa < wb then wa / 2 else wb / 2 := ⟨_, rfl⟩
  have hn3 : 3 ≤ n := by split_ifs at hn <;> omega
  have hna : 2 * n ≤ wa := by split_ifs at hn <;> omega
  have hnb : 2 * n ≤ wb := by split_ifs at hn <;> omega
  -- the scratch block for t1 and t2
  obtain ⟨m1, hm1⟩ : ∃ m1, m1 = (calloc st (wa - n + (wb - n) + 2)).1.mem := ⟨_, rfl⟩
  have w1 : WF m1 := by rw [hm1]; exact calloc_WF hwf _
  have l1 : ∀ q, q < st.brk → m1 q = st.mem q := by
    intro q h; rw [hm1]; exact calloc_mem_lt st _ q h
  -- Step 1
  obtain ⟨m2, wt1, h1, w2, a1, a2, f2, v2, -⟩ :=
    add32_le_ex w1 (pa + n) pa st.brk (wa - n) n (by omega) (Or.inr (by omega))
      (Or.inr (by omega))
  have l2 : ∀ q, q < st.brk → m2 q = st.mem q := fun q h => by rw [f2 q (by omega)]; exact l1 q h
  have v2' : value m2 st.brk wt1 = value st.mem (pa + n) (wa - n) + value st.mem pa n := by
    rw [v2, value_agree (fun q _ _ => l1 q (by omega)), value_agree (fun q _ _ => l1 q (by omega))]
  -- Step 2
  obtain ⟨m3, wt2, h2, w3, b1, b2, f3, v3, -⟩ :=
    add32_le_ex w2 (pb + n) pb (st.brk + (wa - n) + 1) (wb - n) n (by omega) (Or.inr (by omega))
      (Or.inr (by omega))
  have l3 : ∀ q, q < st.brk → m3 q = st.mem q := fun q h => by rw [f3 q (by omega)]; exact l2 q h
  have v3' : value m3 (st.brk + (wa - n) + 1) wt2 =
      value st.mem (pb + n) (wb - n) + value st.mem pb n := by
    rw [v3, value_agree (fun q _ _ => l2 q (by omega)), value_agree (fun q _ _ => l2 q (by omega))]
  have v3t1 : value m3 st.brk wt1 = value st.mem (pa + n) (wa - n) + value st.mem pa n := by
    rw [← v2']; exact value_agree (fun q _ _ => f3 q (by omega))
  -- Step 3
  obtain ⟨st4, hst4⟩ : ∃ st4, st4 =
      (calloc { mem := m3, brk := st.brk + (wa - n + (wb - n) + 2) } (wt1 + wt2)).1 := ⟨_, rfl⟩
  have k4 : st4.brk = st.brk + (wa - n + (wb - n) + 2) + (wt1 + wt2) := by rw [hst4]; rfl
  have w4 : WF st4.mem := by rw [hst4]; exact calloc_WF w3 _
  have f4 : ∀ q, q < st.brk + (wa - n + (wb - n) + 2) → st4.mem q = m3 q := by
    intro q h; rw [hst4]; exact calloc_mem_lt _ _ q h
  obtain ⟨st5, h3, w5, k5, f5, v5⟩ :=
    hdec st4 st.brk (st.brk + (wa - n) + 1) (st.brk + (wa - n + (wb - n) + 2)) wt1 wt2
      (by omega) (by omega) (by omega)
      ⟨w4, by omega, by omega, by omega, Or.inl (by omega), Or.inl (by omega)⟩
  have v5' : value st5.mem (st.brk + (wa - n + (wb - n) + 2)) (wt1 + wt2) =
      (value st.mem (pa + n) (wa - n) + value st.mem pa n) *
        (value st.mem (pb + n) (wb - n) + value st.mem pb n) := by
    rw [v5, value_agree (fun q _ _ => f4 q (by omega)), value_agree (fun q _ _ => f4 q (by omega)),
      v3t1, v3']
  have l5 : ∀ q, q < st.brk → st5.mem q = st.mem q := fun q h => by
    rw [f5 q (by omega) (by omega), f4 q (by omega)]; exact l3 q h
  -- Step 4
  obtain ⟨st6, hst6⟩ : ∃ st6, st6 = (calloc st5 (wa - n + (wb - n))).1 := ⟨_, rfl⟩
  have k6 : st6.brk = st5.brk + (wa - n + (wb - n)) := by rw [hst6]; rfl
  have w6 : WF st6.mem := by rw [hst6]; exact calloc_WF w5 _
  have f6 : ∀ q, q < st5.brk → st6.mem q = st5.mem q := by
    intro q h; rw [hst6]; exact calloc_mem_lt _ _ q h
  obtain ⟨st7, h4, w7, k7, f7, v7⟩ :=
    hdec st6 (pa + n) (pb + n) st5.brk (wa - n) (wb - n) (by omega) (by omega) (by omega)
      ⟨w6, by omega, by omega, by omega, Or.inl (by omega), Or.inl (by omega)⟩
  have l6 : ∀ q, q < st.brk → st6.mem q = st.mem q := fun q h => by
    rw [f6 q (by omega)]; exact l5 q h
  have v7' : value st7.mem st5.brk (wa - n + (wb - n)) =
      value st.mem (pa + n) (wa - n) * value st.mem (pb + n) (wb - n) := by
    rw [v7, value_agree (fun q _ _ => l6 q (by omega)), value_agree (fun q _ _ => l6 q (by omega))]
  have l7 : ∀ q, q < st.brk → st7.mem q = st.mem q := fun q h => by
    rw [f7 q (by omega) (by omega)]; exact l6 q h
  have v7w3 : value st7.mem (st.brk + (wa - n + (wb - n) + 2)) (wt1 + wt2) =
      (value st.mem (pa + n) (wa - n) + value st.mem pa n) *
        (value st.mem (pb + n) (wb - n) + value st.mem pb n) := by
    rw [← v5']
    exact value_agree (fun q _ _ => by rw [f7 q (by omega) (by omega), f6 q (by omega)])
  -- Step 5
  obtain ⟨st8, h5, w8, k8, f8, v8⟩ :=
    hdec st7 pa pb pc n n (by omega) (by omega) (by omega)
      ⟨w7, by omega, by omega, by omega, by omega, by omega⟩
  have v8' : value st8.mem pc (n + n) = value st.mem pa n * value st.mem pb n := by
    rw [v8, value_agree (fun q _ _ => l7 q (by omega)), value_agree (fun q _ _ => l7 q (by omega))]
  have v8w2 : value st8.mem st5.brk (wa - n + (wb - n)) =
      value st.mem (pa + n) (wa - n) * value st.mem (pb + n) (wb - n) := by
    rw [← v7']
    exact value_agree (fun q _ _ => f8 q (by omega) (by omega))
  have v8w3 : value st8.mem (st.brk + (wa - n + (wb - n) + 2)) (wt1 + wt2) =
      (value st.mem (pa + n) (wa - n) + value st.mem pa n) *
        (value st.mem (pb + n) (wb - n) + value st.mem pb n) := by
    rw [← v7w3]
    exact value_agree (fun q _ _ => f8 q (by omega) (by omega))
  have l8 : ∀ q, q < st.brk → (q < pc ∨ pc + (wa + wb) ≤ q) → st8.mem q = st.mem q :=
    fun q h h' => by rw [f8 q (by omega) (by omega)]; exact l7 q h
  -- Step 6
  obtain ⟨m9, h6, w9, f9, v9⟩ : ∃ m9 : Mem,
      (if (wa - n + (wb - n)) > (n + n) then
        subtract32 st8.mem (st.brk + (wa - n + (wb - n) + 2)) st5.brk pc
          (st.brk + (wa - n + (wb - n) + 2)) (wt1 + wt2) (wa - n + (wb - n)) (n + n)
      else
        subtract32 st8.mem (st.brk + (wa - n + (wb - n) + 2)) pc st5.brk
          (st.brk + (wa - n + (wb - n) + 2)) (wt1 + wt2) (n + n) (wa - n + (wb - n)))
        = (m9, wt1 + wt2) ∧ WF m9 ∧
      (∀ q, (q < st.brk + (wa - n + (wb - n) + 2) ∨
        st.brk + (wa - n + (wb - n) + 2) + (wt1 + wt2) ≤ q) → m9 q = st8.mem q) ∧
      value m9 (st.brk + (wa - n + (wb - n) + 2)) (wt1 + wt2) +
        value st.mem (pa + n) (wa - n) * value st.mem (pb + n) (wb - n) +
        value st.mem pa n * value st.mem pb n =
      (value st.mem (pa + n) (wa - n) + value st.mem pa n) *
        (value st.mem (pb + n) (wb - n) + value st.mem pb n) := by
    by_cases hlen : (wa - n + (wb - n)) > (n + n)
    · rw [if_pos hlen]
      obtain ⟨m9, e, g1, g2, g3⟩ := subtract32_ex w8 (st.brk + (wa - n + (wb - n) + 2)) st5.brk pc
        (st.brk + (wa - n + (wb - n) + 2)) (wt1 + wt2) (wa - n + (wb - n)) (n + n)
        (by omega) (by omega) (Or.inl (le_refl _)) (Or.inl (by omega)) (Or.inr (by omega))
        (by rw [v8w2, v8', v8w3]; exact cross_le _ _ _ _)
      rw [v8w2, v8', v8w3] at g3
      exact ⟨m9, e, g1, g2, g3⟩
    · rw [if_neg hlen]
      obtain ⟨m9, e, g1, g2, g3⟩ := subtract32_ex w8 (st.brk + (wa - n + (wb - n) + 2)) pc st5.brk
        (st.brk + (wa - n + (wb - n) + 2)) (wt1 + wt2) (n + n) (wa - n + (wb - n))
        (by omega) (by omega) (Or.inl (le_refl _)) (Or.inr (by omega)) (Or.inl (by omega))
        (by rw [v8w2, v8', v8w3, Nat.add_comm]; exact cross_le _ _ _ _)
      rw [v8w2, v8', v8w3] at g3
      exact ⟨m9, e, g1, g2, by omega⟩
  -- Step 8
  obtain ⟨m10, ww3b, h8, w10, c1, c2, f10, v10, -⟩ :=
    add32_le_ex w9 (st.brk + (wa - n + (wb - n) + 2)) (pc + n) (pc + n) (wt1 + wt2) n (by omega)
      (Or.inl (by omega)) (Or.inl (le_refl _))
  -- Step 9
  obtain ⟨m11, ww2b, h9, w11, d1, d2, f11, v11, car⟩ :=
    add32_le_ex w10 st5.brk (pc + 2 * n) (pc + 2 * n) (wa - n + (wb - n)) (ww3b - n) (by omega)
      (Or.inl (by omega)) (Or.inl (le_refl _))
  have hkar := karatsuba32_unfold dec st pa pb pc wa wb n hn m2 m3 m9 m10 m11 wt1 wt2
    (wt1 + wt2) (wa - n + (wb - n)) (n + n) (wt1 + wt2) ww3b ww2b st5 st7 st8
    (hm1 ▸ h1) h2 (hst4 ▸ h3) (hst6 ▸ h4) h5 h6 (by rw [show n + n - n = n by omega]; exact h8) h9
  -- lengths, frame and unchanged pieces
  have e2n : pc + n + n = pc + 2 * n := by omega
  have e3 : n + (ww3b - n) = ww3b := by omega
  have ea : n + (wa - n) = wa := by omega
  have eb : n + (wb - n) = wb := by omega
  have eab : wa + wb = n + (n + (wa - n + (wb - n))) := by omega
  have hcar : ww2b ≠ wa - n + (wb - n) → ww2b = wa - n + (wb - n) + 1 := by omega
  have hwc : ww2b = wa - n + (wb - n) → 3 * n + (ww2b - n) = wa + wb := by omega
  have hbrk : st.brk ≤ st8.brk := by omega
  have fr : ww2b = wa - n + (wb - n) →
      ∀ q, q < st.brk → (q < pc ∨ pc + (wa + wb) ≤ q) → m11 q = st.mem q := by
    intro e q hq hq'
    rw [f11 q (by omega), f10 q (by omega), f9 q (by omega)]
    exact l8 q hq hq'
  have hHi4 : value m9 (pc + n) n = value st8.mem (pc + n) n :=
    value_agree (fun q _ _ => f9 q (by omega))
  have hw2 : value m10 st5.brk (wa - n + (wb - n)) =
      value st.mem (pa + n) (wa - n) * value st.mem (pb + n) (wb - n) := by
    rw [← v8w2]
    exact value_agree (fun q _ _ => by rw [f10 q (by omega), f9 q (by omega)])
  have p1 : value m11 pc n = value st8.mem pc n :=
    value_agree (fun q _ _ => by rw [f11 q (by omega), f10 q (by omega), f9 q (by omega)])
  have p2 : value m11 (pc + n) n = value m10 (pc + n) n :=
    value_agree (fun q _ _ => f11 q (by omega))
  clear f11 f10 f9 f8 f7 f6 f5 f4 f3 f2 l1 l2 l3 l5 l6 l7 l8 hdec
  -- the recombination
  have hd : value st8.mem pc n + POWER32 ^ n * value st8.mem (pc + n) n =
      value st.mem pa n * value st.mem pb n := by
    rw [← v8', value_add]
  have he : value m10 (pc + n) n + POWER32 ^ n * value m10 (pc + 2 * n) (ww3b - n) =
      value m9 (st.brk + (wa - n + (wb - n) + 2)) (wt1 + wt2) + value st8.mem (pc + n) n := by
    rw [← hHi4, ← v10, ← e2n, ← value_add, e3]
  rw [hw2] at v11 car
  have hA : value st.mem pa wa = value st.mem pa n + POWER32 ^ n * value st.mem (pa + n) (wa - n) := by
    rw [← value_add, ea]
  have hB : value st.mem pb wb = value st.mem pb n + POWER32 ^ n * value st.mem (pb + n) (wb - n) := by
    rw [← value_add, eb]
  have hid := kara_identity (POWER32 ^ n) (value st.mem (pa + n) (wa - n)) (value st.mem pa n)
    (value st.mem (pb + n) (wb - n)) (value st.mem pb n)
    (value m9 (st.brk + (wa - n + (wb - n) + 2)) (wt1 + wt2))
    (value st8.mem pc n) (value st8.mem (pc + n) n) (value m10 (pc + n) n)
    (value m10 (pc + 2 * n) (ww3b - n)) v9 hd he
  rw [← hA, ← hB] at hid
  -- the last addition does not carry
  have hnc : ww2b = wa - n + (wb - n) := by
    by_contra hne
    have hpow : POWER32 ^ wa * POWER32 ^ wb =
        POWER32 ^ n * (POWER32 ^ n * POWER32 ^ (wa - n + (wb - n))) := by
      rw [← pow_add, ← pow_add, ← pow_add, eab]
    exact kara_no_carry _ _ _ _ _ _ _ _ _
      (Nat.mul_lt_mul'' (value_lt hwf pa wa) (value_lt hwf pb wb)) hpow hid (car (hcar hne))
  refine ⟨{ st8 with mem := m11 }, ?_, w11, hbrk, fr hnc, ?_⟩
  · rw [hkar, hwc hnc]
  · have hsplit : value m11 pc (wa + wb) = value m11 pc n + POWER32 ^ n *
        (value m11 (pc + n) n + POWER32 ^ n * value m11 (pc + 2 * n) (wa - n + (wb - n))) := by
      rw [← e2n, ← value_add, ← value_add, ← eab]
    rw [hnc] at v11
    show value m11 pc (wa + wb) = _
    rw [hsplit, p1, p2, v11]
    exact hid

/-! ## decide -/

theorem decide_zero_operand (fuel : Nat) (st : State) (pa pb pc wa wb : Nat)
    (h : wb = 0 ∨ wa = 0) : decide (fuel + 1) st pa pb pc wa wb = some (st, 0) := by
  simp only [decide, h, if_true]

theorem decide_small (fuel : Nat) (st : State) (pa pb pc wa wb : Nat)
    (h0 : ¬ (wb = 0 ∨ wa = 0)) (h : wa < 27 ∨ wb < 27) :
    decide (fuel + 1) st pa pb pc wa wb =
      some ({ st with mem := (multiply32 st.mem pa pb pc wa wb).1 },
        (multiply32 st.mem pa pb pc wa wb).2) := by
  simp only [decide, h0, h, if_true, if_false]

theorem decide_large (fuel : Nat) (st : State) (pa pb pc wa wb : Nat)
    (ha : 27 ≤ wa) (hb : 27 ≤ wb) :
    decide (fuel + 1) st pa pb pc wa wb = karatsuba32 (decide fuel) st pa pb pc wa wb := by
  have h0 : ¬ (wb = 0 ∨ wa = 0) := by omega
  have h1 : ¬ (wa < 27 ∨ wb < 27) := by omega
  simp only [decide, h0, h1, if_false]

/-- The dispatcher multiplies: with fuel above `wa`, on nonempty operands and
a destination of `wa + wb` words disjoint from them, `decide` returns, reports
`wa + wb` and leaves the product in the destination. -/
theorem decide_spec : ∀ (fuel : Nat) (st : State) (pa pb pc wa wb : Nat),
    1 ≤ wa → 1 ≤ wb → wa < fuel → MulPre st pa pb pc wa wb →
    MulOK (decide fuel) st pa pb pc wa wb := by
  intro fuel
  induction fuel with
  | zero => intro st pa pb pc wa wb _ _ h; omega
  | succ k ih =>
    intro st pa pb pc wa wb h1 h2 hf hpre
    by_cases hs : wa < 27 ∨ wb < 27
    · obtain ⟨hwf, hpa, hpb, hpc, hdA, hdB⟩ := hpre
      obtain ⟨g1, g2, g3, g4⟩ := multiply32_spec hwf pa pb pc wa wb hdA hdB
      refine ⟨{ st with mem := (multiply32 st.mem pa pb pc wa wb).1 }, ?_, g1, le_refl _,
        fun q _ hq => g3 q hq, g4⟩
      rw [decide_small k st pa pb pc wa wb (by omega) hs, g2]
    · have hk := karatsuba32_spec (decide k) st pa pb pc wa wb (by omega) (by omega)
        (fun st1 qa qb qc la lb e1 e2 e3 e4 => ih st1 qa qb qc la lb e1 e2 (by omega) e4) hpre
      unfold MulOK at hk ⊢
      rw [decide_large k st pa pb pc wa wb (by omega) (by omega)]
      exact hk

/-! ## Facts that need 32-bit words only -/

/-- The carry of `add32` is 0 or 1 after every word, whatever the operands
and the destination overlap. -/
theorem add32_loop_carry {m : Mem} (hm : WF m) (pa pb pc wb : Nat) (i : Nat) :
    WF (loop i (add32_body pa pb pc wb) (m, 0)).1 ∧
    (loop i (add32_body pa pb pc wb) (m, 0)).2 ≤ 1 := by
  induction i with
  | zero => exact ⟨hm, Nat.zero_le _⟩
  | succ k ih =>
    obtain ⟨hwf, hc⟩ := ih
    rw [loop_succ]
    generalize loop k (add32_body pa pb pc wb) (m, 0) = r at hwf hc
    obtain ⟨mk, c⟩ := r
    simp only at hwf hc
    have hal := hwf (pa + k)
    have hbl := hwf (pb + k)
    have hP : POWER32 = 4294967296 := rfl
    have hQ : POWER64 = 18446744073709551616 := rfl
    refine ⟨WF_write hwf _ (mod_POWER32_lt _), ?_⟩
    simp only [add32_body]
    split
    · have hs : (mk (pa + k) + mk (pb + k) + c) % POWER64 = mk (pa + k) + mk (pb + k) + c :=
        Nat.mod_eq_of_lt (by omega)
      rw [hs]
      have : (mk (pa + k) + mk (pb + k) + c) / POWER32 ≤ 1 := by rw [hP]; omega
      exact le_trans (Nat.mod_le _ _) this
    · have hs : (mk (pa + k) + c) % POWER64 = mk (pa + k) + c := Nat.mod_eq_of_lt (by omega)
      rw [hs]
      have : (mk (pa + k) + c) / POWER32 ≤ 1 := by rw [hP]; omega
      exact le_trans (Nat.mod_le _ _) this

/-- The two loops of `add32` write `wa` words, or `wa + 1` words the last of
which is 1. -/
theorem add32_main_len {m : Mem} (hm : WF m) (pa pb pc wa wb : Nat) :
    WF (add32_main m pa pb pc wa wb).1 ∧
    ((add32_main m pa pb pc wa wb).2 = wa ∨ (add32_main m pa pb pc wa wb).2 = wa + 1) ∧
    ((add32_main m pa pb pc wa wb).2 = wa + 1 → (add32_main m pa pb pc wa wb).1 (pc + wa) = 1) := by
  obtain ⟨hwf, hc⟩ := add32_loop_carry hm pa pb pc wb wa
  unfold add32_main
  generalize loop wa (add32_body pa pb pc wb) (m, 0) = r at hwf hc
  obtain ⟨mk, c⟩ := r
  simp only at hwf hc ⊢
  have hc01 : c = 0 ∨ c = 1 := by omega
  rcases hc01 with rfl | rfl
  · simp only [add32_carry]
    exact ⟨hwf, Or.inl trivial, fun h => by omega⟩
  · have h1 : (1 : Nat) % POWER64 % POWER32 = 1 := by decide
    have h2 : (1 : Nat) % POWER64 / POWER32 % POWER32 = 0 := by decide
    simp only [add32_carry, h1, h2, Nat.lt_irrefl, if_true, Nat.zero_lt_one, gt_iff_lt]
    exact ⟨WF_write hwf _ (by decide), Or.inr trivial, fun _ => write_same _ _ _⟩

/-- Every word `add32` leaves in memory is a 32-bit word, in both branches. -/
theorem add32_WF {m : Mem} (hm : WF m) (pa pb pc wa wb : Nat) :
    WF (add32 m pa pb pc wa wb).1 := by
  unfold add32
  split
  · exact (add32_main_len (WF_write hm _ (mod_POWER32_lt _)) _ _ _ _ _).1
  · exact (add32_main_len hm _ _ _ _ _).1

/-- Every word `subtract32` leaves in memory is a 32-bit word. -/
theorem subtract32_WF {m : Mem} (hm : WF m) (pa pb pd pc wa wb wd : Nat) :
    WF (subtract32 m pa pb pd pc wa wb wd).1 := by
  have l3 : ∀ i, WF (loop i (sub_body3 pa pb pd pc) (m, 0)).1 := by
    intro i
    induction i with
    | zero => exact hm
    | succ k ih => rw [loop_succ]; exact WF_write ih _ (toWord_lt _)
  have l2 : ∀ (r : Mem × Int), WF r.1 → ∀ i, WF (loop i (sub_body2 pa pb pc wd) r).1 := by
    intro r hr i
    induction i with
    | zero => exact hr
    | succ k ih => rw [loop_succ]; exact WF_write ih _ (toWord_lt _)
  have lb : ∀ (k i : Nat) (sum : Int) (mk : Mem), WF mk →
      WF (sub_borrow pa pc k i sum mk).1 := by
    intro k
    induction k with
    | zero => intro i sum mk h; exact h
    | succ k ih =>
      intro i sum mk h
      simp only [sub_borrow]
      split
      · exact ih _ _ _ (WF_write h _ (toWord_lt _))
      · exact h
  have lc : ∀ (k i : Nat) (mk : Mem), WF mk → WF (sub_copy pa pc k i mk) := by
    intro k
    induction k with
    | zero => intro i mk h; exact h
    | succ k ih =>
      intro i mk h
      simp only [sub_copy]
      exact ih _ _ (WF_write h _ (h _))
  unfold subtract32
  exact lc _ _ _ (lb _ _ _ _ (l2 _ (l3 wd) _))

/-- Every word `multiply32` leaves in memory is a 32-bit word. -/
theorem multiply32_WF {m : Mem} (hm : WF m) (pa pb pc wa wb : Nat) :
    WF (multiply32 m pa pb pc wa wb).1 := by
  have li : ∀ (m0 : Mem) (i : Nat), WF m0 → ∀ j,
      WF (loop j (mul_inner pa pb pc i) (m0, 0)).1 ∧
      (loop j (mul_inner pa pb pc i) (m0, 0)).2 < POWER32 := by
    intro m0 i h0 j
    induction j with
    | zero => exact ⟨h0, POWER32_pos⟩
    | succ k ih =>
      rw [loop_succ]
      exact ⟨WF_write ih.1 _ (mod_POWER32_lt _), mod_POWER32_lt _⟩
  have lo : ∀ (m0 : Mem), WF m0 → ∀ i, WF (loop i (mul_outer pa pb pc wb) m0) := by
    intro m0 h0 i
    induction i with
    | zero => exact h0
    | succ k ih =>
      rw [loop_succ]
      exact WF_write (li _ k ih wb).1 _ (li _ k ih wb).2
  unfold multiply32
  exact lo _ (zero_loop_spec hm pc (wa + wb)).1 wa

/-- Blocks of 32-bit words with the same value hold the same words. -/
theorem value_inj {m1 m2 : Mem} (h1 : WF m1) (h2 : WF m2) (p1 p2 : Nat) :
    ∀ n, value m1 p1 n = value m2 p2 n → ∀ i, i < n → m1 (p1 + i) = m2 (p2 + i) := by
  intro n
  induction n with
  | zero => intro _ i hi; omega
  | succ k ih =>
    intro h i hi
    rw [value_succ, value_succ] at h
    have l1 := value_lt h1 p1 k
    have l2 := value_lt h2 p2 k
    have htop : m1 (p1 + k) = m2 (p2 + k) := by
      rcases Nat.lt_trichotomy (m1 (p1 + k)) (m2 (p2 + k)) with hlt | heq | hgt
      · have := Nat.mul_le_mul_right (POWER32 ^ k) (Nat.succ_le_of_lt hlt)
        rw [Nat.succ_mul] at this
        omega
      · exact heq
      · have := Nat.mul_le_mul_right (POWER32 ^ k) (Nat.succ_le_of_lt hgt)
        rw [Nat.succ_mul] at this
        omega
    rw [htop] at h
    by_cases hik : i = k
    · subst hik; exact htop
    · exact ih (by omega) i (by omega)

/-- The zeroing loop without any assumption on the memory. -/
theorem memset0_zero (m : Mem) (p n : Nat) :
    (∀ i, i < n → memset0 m p n (p + i) = 0) ∧
    (∀ q, (q < p ∨ p + n ≤ q) → memset0 m p n q = m q) := by
  unfold memset0
  induction n with
  | zero => exact ⟨fun i hi => by omega, fun _ _ => rfl⟩
  | succ k ih =>
    obtain ⟨h1, h2⟩ := ih
    rw [loop_succ]
    refine ⟨?_, ?_⟩
    · intro i hi
      by_cases hik : i = k
      · subst hik; exact write_same _ _ _
      · rw [write_other _ _ _ _ (by omega)]
        exact h1 i (by omega)
    · intro q hq
      rw [write_other _ _ _ _ (by omega)]
      exact h2 q (by omega)

/-! ## The locals of karatsuba32 -/

/-- The copy agrees with `karatsuba32`. -/
theorem karatsuba32_eq_locals (dec : Dispatcher) (st : State) (pa pb pc wa wb : Nat) :
    karatsuba32 dec st pa pb pc wa wb =
      (karatsuba32_locals dec st pa pb pc wa wb).map (fun L => (L.out, L.wc)) := by
  unfold karatsuba32 karatsuba32_locals
  simp only
  split
  · next h => first | rfl | simp only [h, Option.map_none']
  · next st5 ww3 h =>
    try simp only [h]
    split
    · next h2 => first | rfl | simp only [h2, Option.map_none']
    · next st7 ww2 h2 =>
      try simp only [h2]
      split
      · next h3 => first | rfl | simp only [h3, Option.map_none']
      · next st8 ww4 h3 => first | rfl | simp only [h3, Option.map_some']

/-- The body of `karatsuba32_locals`, one call at a time. -/
theorem karatsuba32_locals_intro (dec : Dispatcher) (st : State) (pa pb pc wa wb n : Nat)
    (hn : n = if wa < wb then wa / 2 else wb / 2)
    (m2 m3 m9 m10 m11 : Mem) (wt1 wt2 ww3 ww2 ww4 ww3a ww3b ww2b : Nat) (st5 st7 st8 : State)
    (h1 : add32 (calloc st (wa - n + (wb - n) + 2)).1.mem (pa + n) pa st.brk (wa - n) n
      = (m2, wt1))
    (h2 : add32 m2 (pb + n) pb (st.brk + (wa - n) + 1) (wb - n) n = (m3, wt2))
    (h3 : dec (calloc { mem := m3, brk := st.brk + (wa - n + (wb - n) + 2) } (wt1 + wt2)).1
      st.brk (st.brk + (wa - n) + 1) (st.brk + (wa - n + (wb - n) + 2)) wt1 wt2 = some (st5, ww3))
    (h4 : dec (calloc st5 (wa - n + (wb - n))).1 (pa + n) (pb + n) st5.brk (wa - n) (wb - n)
      = some (st7, ww2))
    (h5 : dec st7 pa pb pc n n = some (st8, ww4))
    (h6 : (if ww2 > ww4 then
        subtract32 st8.mem (st.brk + (wa - n + (wb - n) + 2)) st5.brk pc
          (st.brk + (wa - n + (wb - n) + 2)) ww3 ww2 ww4
      else
        subtract32 st8.mem (st.brk + (wa - n + (wb - n) + 2)) pc st5.brk
          (st.brk + (wa - n + (wb - n) + 2)) ww3 ww4 ww2) = (m9, ww3a))
    (h8 : add32 m9 (st.brk + (wa - n + (wb - n) + 2)) (pc + n) (pc + n) ww3a (ww4 - n)
      = (m10, ww3b))
    (h9 : add32 m10 st5.brk (pc + 2 * n) (pc + 2 * n) ww2 (ww3b - n) = (m11, ww2b)) :
    karatsuba32_locals dec st pa pb pc wa wb = some
      { n := n, wu1 := wa - n, wv1 := wb - n, t1 := st.brk, t2 := st.brk + (wa - n) + 1,
        m1 := (calloc st (wa - n + (wb - n) + 2)).1.mem, m2 := m2, wt1 := wt1, m3 := m3,
        wt2 := wt2, w3 := st.brk + (wa - n + (wb - n) + 2),
        st4 := (calloc { mem := m3, brk := st.brk + (wa - n + (wb - n) + 2) } (wt1 + wt2)).1,
        st5 := st5, ww3 := ww3, w2 := st5.brk, st6 := (calloc st5 (wa - n + (wb - n))).1,
        st7 := st7, ww2 := ww2, w4 := pc, st8 := st8, ww4 := ww4, m9 := m9, ww3a := ww3a,
        m10 := m10, ww3b := ww3b, m11 := m11, ww2b := ww2b, out := { st8 with mem := m11 },
        wc := 3 * n + (ww2b - n) } := by
  subst hn
  simp only [calloc] at h1 h3 h4
  simp only [karatsuba32_locals, calloc, h1, h2, h3, h4, h5, h6, h8, h9]

/-- The cross term plus the high half of the low product fits the words of
`t1 * t2`. -/
theorem kara_step8_lt (X A B T1 T2 P Lo Hi Q1 Q2 : Nat) (h9 : X + A + B = T1 * T2)
    (hd : Lo + P * Hi = B) (hP : 1 ≤ P) (h1 : T1 < Q1) (h2 : T2 < Q2) :
    X + Hi < Q1 * Q2 := by
  have hHi : Hi ≤ P * Hi := Nat.le_mul_of_pos_left _ hP
  have hlt : T1 * T2 < Q1 * Q2 := Nat.mul_lt_mul'' h1 h2
  omega

/-- One run of `karatsuba32` on operands of at least 6 words under the
precondition of a multiplication, with a dispatcher that multiplies shorter
operands: the locals exist; they are the same for any dispatcher that agrees
on the three calls; the three calls satisfy the precondition; and the
lengths, the step 6 values and the extent of every write are as listed. -/
theorem karatsuba32_locals_spec (dec : Dispatcher) (st : State) (pa pb pc wa wb : Nat)
    (hwa : 6 ≤ wa) (hwb : 6 ≤ wb)
    (hdec : ∀ st1 qa qb qc la lb, 1 ≤ la → 1 ≤ lb → la < wa → MulPre st1 qa qb qc la lb →
      MulOK dec st1 qa qb qc la lb)
    (hpre : MulPre st pa pb pc wa wb) :
    ∃ L : KLocals, karatsuba32_locals dec st pa pb pc wa wb = some L ∧
      (∀ dec2 : Dispatcher,
        dec2 L.st4 L.t1 L.t2 L.w3 L.wt1 L.wt2 = dec L.st4 L.t1 L.t2 L.w3 L.wt1 L.wt2 →
        dec2 L.st6 (pa + L.n) (pb + L.n) L.w2 L.wu1 L.wv1 =
          dec L.st6 (pa + L.n) (pb + L.n) L.w2 L.wu1 L.wv1 →
        dec2 L.st7 pa pb L.w4 L.n L.n = dec L.st7 pa pb L.w4 L.n L.n →
        karatsuba32_locals dec2 st pa pb pc wa wb = some L) ∧
      (MulPre L.st4 L.t1 L.t2 L.w3 L.wt1 L.wt2 ∧
        MulPre L.st6 (pa + L.n) (pb + L.n) L.w2 L.wu1 L.wv1 ∧
        MulPre L.st7 pa pb L.w4 L.n L.n) ∧
      (L.n = (if wa < wb then wa / 2 else wb / 2) ∧ L.wu1 = wa - L.n ∧ L.wv1 = wb - L.n ∧
        L.t1 = st.brk ∧ L.t2 = L.t1 + L.wu1 + 1 ∧ L.w3 = L.t1 + (L.wu1 + L.wv1 + 2) ∧
        L.w2 = L.st5.brk ∧ L.w4 = pc ∧
        L.st4.brk = L.w3 + (L.wt1 + L.wt2) ∧ L.st4.brk ≤ L.st5.brk ∧
        L.st6.brk = L.w2 + (L.wu1 + L.wv1) ∧ L.st6.brk ≤ L.st7.brk ∧ L.st7.brk ≤ L.st8.brk ∧
        L.wu1 ≤ L.wt1 ∧ L.wt1 ≤ L.wu1 + 1 ∧ L.wv1 ≤ L.wt2 ∧ L.wt2 ≤ L.wv1 + 1 ∧
        L.ww3 = L.wt1 + L.wt2 ∧ L.ww2 = L.wu1 + L.wv1 ∧ L.ww4 = L.n + L.n ∧
        L.ww3a = L.ww3 ∧ L.ww3b = L.ww3 ∧ L.ww2b = L.ww2 ∧ L.wc = wa + wb) ∧
      (value L.st8.mem L.w2 L.ww2 + value L.st8.mem L.w4 L.ww4 ≤
        value L.st8.mem L.w3 L.ww3) ∧
      ((∀ q, (q < L.t1 ∨ L.t1 + L.wt1 ≤ q) → L.m2 q = L.m1 q) ∧
        (∀ q, (q < L.t2 ∨ L.t2 + L.wt2 ≤ q) → L.m3 q = L.m2 q) ∧
        (∀ q, q < L.st4.brk → (q < L.w3 ∨ L.w3 + L.ww3 ≤ q) → L.st5.mem q = L.st4.mem q) ∧
        (∀ q, q < L.st6.brk → (q < L.w2 ∨ L.w2 + L.ww2 ≤ q) → L.st7.mem q = L.st6.mem q) ∧
        (∀ q, q < L.st7.brk → (q < L.w4 ∨ L.w4 + L.ww4 ≤ q) → L.st8.mem q = L.st7.mem q) ∧
        (∀ q, (q < L.w3 ∨ L.w3 + L.ww3a ≤ q) → L.m9 q = L.st8.mem q) ∧
        (∀ q, (q < pc + L.n ∨ pc + L.n + L.ww3b ≤ q) → L.m10 q = L.m9 q) ∧
        (∀ q, (q < pc + 2 * L.n ∨ pc + 2 * L.n + L.ww2b ≤ q) → L.m11 q = L.m10 q)) := by
  obtain ⟨sto, hsp, -, -, -, -⟩ := karatsuba32_spec dec st pa pb pc wa wb hwa hwb hdec hpre
  obtain ⟨hwf, hpa, hpb, hpc, hdA, hdB⟩ := hpre
  obtain ⟨n, hn⟩ : ∃ n, n = if wa < wb then wa / 2 else wb / 2 := ⟨_, rfl⟩
  have hn3 : 3 ≤ n := by split_ifs at hn <;> omega
  have hna : 2 * n ≤ wa := by split_ifs at hn <;> omega
  have hnb : 2 * n ≤ wb := by split_ifs at hn <;> omega
  -- the scratch block for t1 and t2
  obtain ⟨m1, hm1⟩ : ∃ m1, m1 = (calloc st (wa - n + (wb - n) + 2)).1.mem := ⟨_, rfl⟩
  have w1 : WF m1 := by rw [hm1]; exact calloc_WF hwf _
  have l1 : ∀ q, q < st.brk → m1 q = st.mem q := by
    intro q h; rw [hm1]; exact calloc_mem_lt st _ q h
  -- Step 1
  obtain ⟨m2, wt1, h1, w2, a1, a2, f2, v2, -⟩ :=
    add32_le_ex w1 (pa + n) pa st.brk (wa - n) n (by omega) (Or.inr (by omega))
      (Or.inr (by omega))
  have l2 : ∀ q, q < st.brk → m2 q = st.mem q := fun q h => by rw [f2 q (by omega)]; exact l1 q h
  have v2' : value m2 st.brk wt1 = value st.mem (pa + n) (wa - n) + value st.mem pa n := by
    rw [v2, value_agree (fun q _ _ => l1 q (by omega)), value_agree (fun q _ _ => l1 q (by omega))]
  -- Step 2
  obtain ⟨m3, wt2, h2, w3, b1, b2, f3, v3, -⟩ :=
    add32_le_ex w2 (pb + n) pb (st.brk + (wa - n) + 1) (wb - n) n (by omega) (Or.inr (by omega))
      (Or.inr (by omega))
  have l3 : ∀ q, q < st.brk → m3 q = st.mem q := fun q h => by rw [f3 q (by omega)]; exact l2 q h
  have v3' : value m3 (st.brk + (wa - n) + 1) wt2 =
      value st.mem (pb + n) (wb - n) + value st.mem pb n := by
    rw [v3, value_agree (fun q _ _ => l2 q (by omega)), value_agree (fun q _ _ => l2 q (by omega))]
  have v3t1 : value m3 st.brk wt1 = value st.mem (pa + n) (wa - n) + value st.mem pa n := by
    rw [← v2']; exact value_agree (fun q _ _ => f3 q (by omega))
  -- Step 3
  obtain ⟨st4, hst4⟩ : ∃ st4, st4 =
      (calloc { mem := m3, brk := st.brk + (wa - n + (wb - n) + 2) } (wt1 + wt2)).1 := ⟨_, rfl⟩
  have k4 : st4.brk = st.brk + (wa - n + (wb - n) + 2) + (wt1 + wt2) := by rw [hst4]; rfl
  have w4 : WF st4.mem := by rw [hst4]; exact calloc_WF w3 _
  have f4 : ∀ q, q < st.brk + (wa - n + (wb - n) + 2) → st4.mem q = m3 q := by
    intro q h; rw [hst4]; exact calloc_mem_lt _ _ q h
  have pre4 : MulPre st4 st.brk (st.brk + (wa - n) + 1) (st.brk + (wa - n + (wb - n) + 2))
      wt1 wt2 := ⟨w4, by omega, by omega, by omega, Or.inl (by omega), Or.inl (by omega)⟩
  obtain ⟨st5, h3, w5, k5, f5, v5⟩ :=
    hdec st4 st.brk (st.brk + (wa - n) + 1) (st.brk + (wa - n + (wb - n) + 2)) wt1 wt2
      (by omega) (by omega) (by omega) pre4
  have v5' : value st5.mem (st.brk + (wa - n + (wb - n) + 2)) (wt1 + wt2) =
      (value st.mem (pa + n) (wa - n) + value st.mem pa n) *
        (value st.mem (pb + n) (wb - n) + value st.mem pb n) := by
    rw [v5, value_agree (fun q _ _ => f4 q (by omega)), value_agree (fun q _ _ => f4 q (by omega)),
      v3t1, v3']
  have l5 : ∀ q, q < st.brk → st5.mem q = st.mem q := fun q h => by
    rw [f5 q (by omega) (by omega), f4 q (by omega)]; exact l3 q h
  -- Step 4
  obtain ⟨st6, hst6⟩ : ∃ st6, st6 = (calloc st5 (wa - n + (wb - n))).1 := ⟨_, rfl⟩
  have k6 : st6.brk = st5.brk + (wa - n + (wb - n)) := by rw [hst6]; rfl
  have w6 : WF st6.mem := by rw [hst6]; exact calloc_WF w5 _
  have f6 : ∀ q, q < st5.brk → st6.mem q = st5.mem q := by
    intro q h; rw [hst6]; exact calloc_mem_lt _ _ q h
  have pre6 : MulPre st6 (pa + n) (pb + n) st5.brk (wa - n) (wb - n) :=
    ⟨w6, by omega, by omega, by omega, Or.inl (by omega), Or.inl (by omega)⟩
  obtain ⟨st7, h4, w7, k7, f7, v7⟩ :=
    hdec st6 (pa + n) (pb + n) st5.brk (wa - n) (wb - n) (by omega) (by omega) (by omega) pre6
  have l6 : ∀ q, q < st.brk → st6.mem q = st.mem q := fun q h => by
    rw [f6 q (by omega)]; exact l5 q h
  have v7' : value st7.mem st5.brk (wa - n + (wb - n)) =
      value st.mem (pa + n) (wa - n) * value st.mem (pb + n) (wb - n) := by
    rw [v7, value_agree (fun q _ _ => l6 q (by omega)), value_agree (fun q _ _ => l6 q (by omega))]
  have l7 : ∀ q, q < st.brk → st7.mem q = st.mem q := fun q h => by
    rw [f7 q (by omega) (by omega)]; exact l6 q h
  have v7w3 : value st7.mem (st.brk + (wa - n + (wb - n) + 2)) (wt1 + wt2) =
      (value st.mem (pa + n) (wa - n) + value st.mem pa n) *
        (value st.mem (pb + n) (wb - n) + value st.mem pb n) := by
    rw [← v5']
    exact value_agree (fun q _ _ => by rw [f7 q (by omega) (by omega), f6 q (by omega)])
  -- Step 5
  have pre7 : MulPre st7 pa pb pc n n := ⟨w7, by omega, by omega, by omega, by omega, by omega⟩
  obtain ⟨st8, h5, w8, k8, f8, v8⟩ := hdec st7 pa pb pc n n (by omega) (by omega) (by omega) pre7
  have v8' : value st8.mem pc (n + n) = value st.mem pa n * value st.mem pb n := by
    rw [v8, value_agree (fun q _ _ => l7 q (by omega)), value_agree (fun q _ _ => l7 q (by omega))]
  have v8w2 : value st8.mem st5.brk (wa - n + (wb - n)) =
      value st.mem (pa + n) (wa - n) * value st.mem (pb + n) (wb - n) := by
    rw [← v7']
    exact value_agree (fun q _ _ => f8 q (by omega) (by omega))
  have v8w3 : value st8.mem (st.brk + (wa - n + (wb - n) + 2)) (wt1 + wt2) =
      (value st.mem (pa + n) (wa - n) + value st.mem pa n) *
        (value st.mem (pb + n) (wb - n) + value st.mem pb n) := by
    rw [← v7w3]
    exact value_agree (fun q _ _ => f8 q (by omega) (by omega))
  have l8 : ∀ q, q < st.brk → (q < pc ∨ pc + (wa + wb) ≤ q) → st8.mem q = st.mem q :=
    fun q h h' => by rw [f8 q (by omega) (by omega)]; exact l7 q h
  -- Step 6
  obtain ⟨m9, h6, w9, f9, v9⟩ : ∃ m9 : Mem,
      (if (wa - n + (wb - n)) > (n + n) then
        subtract32 st8.mem (st.brk + (wa - n + (wb - n) + 2)) st5.brk pc
          (st.brk + (wa - n + (wb - n) + 2)) (wt1 + wt2) (wa - n + (wb - n)) (n + n)
      else
        subtract32 st8.mem (st.brk + (wa - n + (wb - n) + 2)) pc st5.brk
          (st.brk + (wa - n + (wb - n) + 2)) (wt1 + wt2) (n + n) (wa - n + (wb - n)))
        = (m9, wt1 + wt2) ∧ WF m9 ∧
      (∀ q, (q < st.brk + (wa - n + (wb - n) + 2) ∨
        st.brk + (wa - n + (wb - n) + 2) + (wt1 + wt2) ≤ q) → m9 q = st8.mem q) ∧
      value m9 (st.brk + (wa - n + (wb - n) + 2)) (wt1 + wt2) +
        value st.mem (pa + n) (wa - n) * value st.mem (pb + n) (wb - n) +
        value st.mem pa n * value st.mem pb n =
      (value st.mem (pa + n) (wa - n) + value st.mem pa n) *
        (value st.mem (pb + n) (wb - n) + value st.mem pb n) := by
    by_cases hlen : (wa - n + (wb - n)) > (n + n)
    · rw [if_pos hlen]
      obtain ⟨m9, e, g1, g2, g3⟩ := subtract32_ex w8 (st.brk + (wa - n + (wb - n) + 2)) st5.brk pc
        (st.brk + (wa - n + (wb - n) + 2)) (wt1 + wt2) (wa - n + (wb - n)) (n + n)
        (by omega) (by omega) (Or.inl (le_refl _)) (Or.inl (by omega)) (Or.inr (by omega))
        (by rw [v8w2, v8', v8w3]; exact cross_le _ _ _ _)
      rw [v8w2, v8', v8w3] at g3
      exact ⟨m9, e, g1, g2, g3⟩
    · rw [if_neg hlen]
      obtain ⟨m9, e, g1, g2, g3⟩ := subtract32_ex w8 (st.brk + (wa - n + (wb - n) + 2)) pc st5.brk
        (st.brk + (wa - n + (wb - n) + 2)) (wt1 + wt2) (n + n) (wa - n + (wb - n))
        (by omega) (by omega) (Or.inl (le_refl _)) (Or.inr (by omega)) (Or.inl (by omega))
        (by rw [v8w2, v8', v8w3, Nat.add_comm]; exact cross_le _ _ _ _)
      rw [v8w2, v8', v8w3] at g3
      exact ⟨m9, e, g1, g2, by omega⟩
  -- Step 8
  obtain ⟨m10, ww3b, h8, w10, c1, c2, f10, v10, car8⟩ :=
    add32_le_ex w9 (st.brk + (wa - n + (wb - n) + 2)) (pc + n) (pc + n) (wt1 + wt2) n (by omega)
      (Or.inl (by omega)) (Or.inl (le_refl _))
  -- Step 9
  obtain ⟨m11, ww2b, h9, w11, d1, d2, f11, v11, car⟩ :=
    add32_le_ex w10 st5.brk (pc + 2 * n) (pc + 2 * n) (wa - n + (wb - n)) (ww3b - n) (by omega)
      (Or.inl (by omega)) (Or.inl (le_refl _))
  have hkar := karatsuba32_unfold dec st pa pb pc wa wb n hn m2 m3 m9 m10 m11 wt1 wt2
    (wt1 + wt2) (wa - n + (wb - n)) (n + n) (wt1 + wt2) ww3b ww2b st5 st7 st8
    (hm1 ▸ h1) h2 (hst4 ▸ h3) (hst6 ▸ h4) h5 h6 (by rw [show n + n - n = n by omega]; exact h8) h9
  have hwc : 3 * n + (ww2b - n) = wa + wb := by
    rw [hkar] at hsp
    simp only [Option.some.injEq, Prod.mk.injEq] at hsp
    exact hsp.2
  have hnc : ww2b = wa - n + (wb - n) := by omega
  have hc8 : ww3b ≠ wt1 + wt2 → ww3b = wt1 + wt2 + 1 := by omega
  have hk5 : st4.brk ≤ st5.brk := k5
  have hk7 : st6.brk ≤ st7.brk := k7
  have hk8 : st7.brk ≤ st8.brk := k8
  have e8 : n + n - n = n := by omega
  have hHi4 : value m9 (pc + n) n = value st8.mem (pc + n) n :=
    value_agree (fun q _ _ => f9 q (by omega))
  have hval : value st8.mem st5.brk (wa - n + (wb - n)) + value st8.mem pc (n + n) ≤
      value st8.mem (st.brk + (wa - n + (wb - n) + 2)) (wt1 + wt2) := by
    rw [v8w2, v8', v8w3]; exact cross_le _ _ _ _
  clear hdec l1 l2 l3 l5 l6 l7 l8 hsp
  -- step 8 does not carry
  have hT1 := value_lt w3 st.brk wt1
  have hT2 := value_lt w3 (st.brk + (wa - n) + 1) wt2
  rw [v3t1] at hT1
  rw [v3'] at hT2
  have hd : value st8.mem pc n + POWER32 ^ n * value st8.mem (pc + n) n =
      value st.mem pa n * value st.mem pb n := by
    rw [← v8', value_add]
  have hnc8 : ww3b = wt1 + wt2 := by
    by_contra hne
    have h := car8 (hc8 hne)
    rw [hHi4] at h
    have hlt := kara_step8_lt _ _ _ _ _ _ _ _ _ _ v9 hd
      (Nat.one_le_pow _ _ POWER32_pos) hT1 hT2
    rw [← pow_add] at hlt
    exact absurd h (not_le.mpr hlt)
  clear hT1 hT2 hd v9 v10 v11 car car8
  subst hnc8 hnc hst4 hst6 hm1
  refine ⟨_, karatsuba32_locals_intro dec st pa pb pc wa wb n hn m2 m3 m9 m10 m11 wt1 wt2
    (wt1 + wt2) (wa - n + (wb - n)) (n + n) (wt1 + wt2) (wt1 + wt2) (wa - n + (wb - n))
    st5 st7 st8 h1 h2 h3 h4 h5 h6 (by rw [e8]; exact h8) h9, ?_, ⟨pre4, pre6, pre7⟩, ?_, hval,
    ⟨f2, f3, f5, f7, f8, f9, f10, f11⟩⟩
  · intro dec2 e3 e4 e5
    exact karatsuba32_locals_intro dec2 st pa pb pc wa wb n hn m2 m3 m9 m10 m11 wt1 wt2
      (wt1 + wt2) (wa - n + (wb - n)) (n + n) (wt1 + wt2) (wt1 + wt2) (wa - n + (wb - n))
      st5 st7 st8 h1 h2 (e3.trans h3) (e4.trans h4) (e5.trans h5) h6 (by rw [e8]; exact h8) h9
  · exact ⟨hn, rfl, rfl, rfl, rfl, rfl, rfl, rfl, k4, hk5, k6, hk7, hk8,
      a1, a2, b1, b2, rfl, rfl, rfl, rfl, rfl, rfl, hwc⟩

/-! ## Assertions at every level of the recursion -/

/-- An assertion that holds after every run of `karatsuba32` (on operands
above the threshold, under the precondition of a multiplication, with a
dispatcher that multiplies shorter operands) never fails: the asserting
dispatcher is `decide`. -/
theorem decide_asserting_eq (chk : Nat → Nat → KLocals → Bool)
    (hchk : ∀ (dec : Dispatcher) (st : State) (pa pb pc wa wb : Nat) (L : KLocals),
      27 ≤ wa → 27 ≤ wb →
      (∀ st1 qa qb qc la lb, 1 ≤ la → 1 ≤ lb → la < wa → MulPre st1 qa qb qc la lb →
        MulOK dec st1 qa qb qc la lb) →
      MulPre st pa pb pc wa wb → karatsuba32_locals dec st pa pb pc wa wb = some L →
      chk wa wb L = true) :
    ∀ (fuel : Nat) (st : State) (pa pb pc wa wb : Nat), 1 ≤ wa → 1 ≤ wb → wa < fuel →
      MulPre st pa pb pc wa wb →
      decide_asserting chk fuel st pa pb pc wa wb = decide fuel st pa pb pc wa wb := by
  intro fuel
  induction fuel with
  | zero => intro st pa pb pc wa wb _ _ h; omega
  | succ k ih =>
    intro st pa pb pc wa wb h1 h2 hf hpre
    have h0 : ¬ (wb = 0 ∨ wa = 0) := by omega
    by_cases hs : wa < 27 ∨ wb < 27
    · simp only [decide_asserting, decide, h0, hs, if_true, if_false]
    · have hdec : ∀ st1 qa qb qc la lb, 1 ≤ la → 1 ≤ lb → la < wa → MulPre st1 qa qb qc la lb →
          MulOK (decide_asserting chk k) st1 qa qb qc la lb := by
        intro st1 qa qb qc la lb e1 e2 e3 e4
        have := decide_spec k st1 qa qb qc la lb e1 e2 (by omega) e4
        unfold MulOK at this ⊢
        rw [ih st1 qa qb qc la lb e1 e2 (by omega) e4]
        exact this
      obtain ⟨L, hL, hcong, ⟨p4, p6, p7⟩, lens, -, -⟩ :=
        karatsuba32_locals_spec (decide_asserting chk k) st pa pb pc wa wb (by omega) (by omega)
          hdec hpre
      have hc := hchk _ st pa pb pc wa wb L (by omega) (by omega) hdec hpre hL
      obtain ⟨ln, lu, lv, -, -, -, -, -, -, -, -, -, -, la1, la2, lb1, lb2, -⟩ := lens
      have hn13 : 13 ≤ L.n ∧ 2 * L.n ≤ wa ∧ 2 * L.n ≤ wb := by
        rw [ln]; split_ifs <;> omega
      have hL2 := hcong (decide k)
        (ih L.st4 L.t1 L.t2 L.w3 L.wt1 L.wt2 (by omega) (by omega) (by omega) p4).symm
        (ih L.st6 (pa + L.n) (pb + L.n) L.w2 L.wu1 L.wv1 (by omega) (by omega) (by omega) p6).symm
        (ih L.st7 pa pb L.w4 L.n L.n (by omega) (by omega) (by omega) p7).symm
      rw [decide_large k st pa pb pc wa wb (by omega) (by omega), karatsuba32_eq_locals, hL2]
      simp only [decide_asserting, h0, hs, if_false, hL, hc, if_true, Option.map_some']

/-- The assertion `step6_pre` holds after every run of `karatsuba32`. -/
theorem step6_pre_holds (dec : Dispatcher) (st : State) (pa pb pc wa wb : Nat) (L : KLocals)
    (hwa : 27 ≤ wa) (hwb : 27 ≤ wb)
    (hdec : ∀ st1 qa qb qc la lb, 1 ≤ la → 1 ≤ lb → la < wa → MulPre st1 qa qb qc la lb →
      MulOK dec st1 qa qb qc la lb)
    (hpre : MulPre st pa pb pc wa wb) (hL : karatsuba32_locals dec st pa pb pc wa wb = some L) :
    step6_pre wa wb L = true := by
  obtain ⟨L0, hL0, -, -, lens, hval, -⟩ :=
    karatsuba32_locals_spec dec st pa pb pc wa wb (by omega) (by omega) hdec hpre
  have e : L = L0 := Option.some.inj (hL.symm.trans hL0)
  subst e
  obtain ⟨ln, lu, lv, -, -, -, -, -, -, -, -, -, -, la1, la2, lb1, lb2, l3, l2, l4, -⟩ := lens
  have hn13 : 2 * L.n ≤ wa ∧ 2 * L.n ≤ wb := by
    rw [ln]; split_ifs <;> omega
  have e1 : L.ww4 ≤ L.ww2 := by omega
  have e2 : L.ww2 ≤ L.ww3 := by omega
  have e3 : L.ww4 ≤ L.ww3 := by omega
  unfold step6_pre
  split
  · exact decide_eq_true ⟨e1, e2, hval⟩
  · next h =>
    exact decide_eq_true ⟨by omega, e3, by rw [Nat.add_comm]; exact hval⟩

/-- The assertion `writes_fit` holds after every run of `karatsuba32`. -/
theorem writes_fit_holds (dec : Dispatcher) (st : State) (pa pb pc wa wb : Nat) (L : KLocals)
    (hwa : 27 ≤ wa) (hwb : 27 ≤ wb)
    (hdec : ∀ st1 qa qb qc la lb, 1 ≤ la → 1 ≤ lb → la < wa → MulPre st1 qa qb qc la lb →
      MulOK dec st1 qa qb qc la lb)
    (hpre : MulPre st pa pb pc wa wb) (hL : karatsuba32_locals dec st pa pb pc wa wb = some L) :
    writes_fit wa wb L = true := by
  obtain ⟨L0, hL0, -, -, lens, -, -⟩ :=
    karatsuba32_locals_spec dec st pa pb pc wa wb (by omega) (by omega) hdec hpre
  have e : L = L0 := Option.some.inj (hL.symm.trans hL0)
  subst e
  obtain ⟨ln, lu, lv, lt1, lt2, -, -, -, -, -, -, -, -, la1, la2, lb1, lb2, l3, l2, l4, l3a,
    l3b, l2b, -⟩ := lens
  have hn13 : 13 ≤ L.n ∧ 2 * L.n ≤ wa ∧ 2 * L.n ≤ wb := by
    rw [ln]; split_ifs <;> omega
  unfold writes_fit
  exact decide_eq_true ⟨la2, lb2, lt2, by omega, by omega, by omega, by omega, by omega, by omega,
    by omega⟩

/-- The assertion `assembly_exact` holds after every run of `karatsuba32`. -/
theorem assembly_exact_holds (dec : Dispatcher) (st : State) (pa pb pc wa wb : Nat)
    (L : KLocals) (hwa : 27 ≤ wa) (hwb : 27 ≤ wb)
    (hdec : ∀ st1 qa qb qc la lb, 1 ≤ la → 1 ≤ lb → la < wa → MulPre st1 qa qb qc la lb →
      MulOK dec st1 qa qb qc la lb)
    (hpre : MulPre st pa pb pc wa wb) (hL : karatsuba32_locals dec st pa pb pc wa wb = some L) :
    assembly_exact wa wb L = true := by
  obtain ⟨L0, hL0, -, -, lens, -, -⟩ :=
    karatsuba32_locals_spec dec st pa pb pc wa wb (by omega) (by omega) hdec hpre
  have e : L = L0 := Option.some.inj (hL.symm.trans hL0)
  subst e
  obtain ⟨ln, lu, lv, lt1, lt2, -, -, -, -, -, -, -, -, la1, la2, lb1, lb2, l3, l2, l4, l3a,
    l3b, l2b, lwc⟩ := lens
  have hn13 : 13 ≤ L.n ∧ 2 * L.n ≤ wa ∧ 2 * L.n ≤ wb := by
    rw [ln]; split_ifs <;> omega
  unfold assembly_exact
  exact decide_eq_true ⟨by omega, by omega, by omega, l2b, by omega, lwc⟩

/-- One run of `karatsuba32` above the threshold on 32-bit words, with a
dispatcher that returns on shorter first operands: the locals exist, they
are the same for any dispatcher that agrees on the three calls, and the
lengths of the two sums are as listed. -/
theorem karatsuba32_locals_total (dec : Dispatcher) (st : State) (pa pb pc wa wb : Nat)
    (hwa : 27 ≤ wa) (hwb : 27 ≤ wb) (hwf : WF st.mem)
    (hdec : ∀ (st1 : State) (qa qb qc la lb : Nat), la < wa → WF st1.mem →
      ∃ r, dec st1 qa qb qc la lb = some r ∧ WF r.1.mem) :
    ∃ L : KLocals, karatsuba32_locals dec st pa pb pc wa wb = some L ∧ WF L.out.mem ∧
      (∀ dec2 : Dispatcher,
        dec2 L.st4 L.t1 L.t2 L.w3 L.wt1 L.wt2 = dec L.st4 L.t1 L.t2 L.w3 L.wt1 L.wt2 →
        dec2 L.st6 (pa + L.n) (pb + L.n) L.w2 L.wu1 L.wv1 =
          dec L.st6 (pa + L.n) (pb + L.n) L.w2 L.wu1 L.wv1 →
        dec2 L.st7 pa pb L.w4 L.n L.n = dec L.st7 pa pb L.w4 L.n L.n →
        karatsuba32_locals dec2 st pa pb pc wa wb = some L) ∧
      (WF L.st4.mem ∧ WF L.st6.mem ∧ WF L.st7.mem) ∧
      (L.n = (if wa < wb then wa / 2 else wb / 2) ∧ L.wu1 = wa - L.n ∧ L.wv1 = wb - L.n ∧
        L.wu1 ≤ L.wt1 ∧ L.wt1 ≤ L.wu1 + 1 ∧ L.wv1 ≤ L.wt2 ∧ L.wt2 ≤ L.wv1 + 1) := by
  obtain ⟨n, hn⟩ : ∃ n, n = if wa < wb then wa / 2 else wb / 2 := ⟨_, rfl⟩
  have hn13 : 13 ≤ n := by split_ifs at hn <;> omega
  have hna : 2 * n ≤ wa := by split_ifs at hn <;> omega
  have hnb : 2 * n ≤ wb := by split_ifs at hn <;> omega
  have w1 : WF (calloc st (wa - n + (wb - n) + 2)).1.mem := calloc_WF hwf _
  -- Step 1
  have w2 := add32_WF w1 (pa + n) pa st.brk (wa - n) n
  have a1 := (add32_main_len w1 (pa + n) pa st.brk (wa - n) n).2.1
  rw [← add32_of_le _ _ _ _ _ _ (show n ≤ wa - n by omega)] at a1
  rcases h1 : add32 (calloc st (wa - n + (wb - n) + 2)).1.mem (pa + n) pa st.brk (wa - n) n
    with ⟨m2, wt1⟩
  rw [h1] at w2 a1
  simp only at w2 a1
  -- Step 2
  have w3 := add32_WF w2 (pb + n) pb (st.brk + (wa - n) + 1) (wb - n) n
  have b1 := (add32_main_len w2 (pb + n) pb (st.brk + (wa - n) + 1) (wb - n) n).2.1
  rw [← add32_of_le _ _ _ _ _ _ (show n ≤ wb - n by omega)] at b1
  rcases h2 : add32 m2 (pb + n) pb (st.brk + (wa - n) + 1) (wb - n) n with ⟨m3, wt2⟩
  rw [h2] at w3 b1
  simp only at w3 b1
  -- Steps 3 to 5
  have w4 : WF (calloc { mem := m3, brk := st.brk + (wa - n + (wb - n) + 2) } (wt1 + wt2)).1.mem :=
    calloc_WF w3 _
  obtain ⟨⟨st5, ww3⟩, h3, w5⟩ := hdec _ st.brk (st.brk + (wa - n) + 1)
    (st.brk + (wa - n + (wb - n) + 2)) wt1 wt2 (by omega) w4
  have w6 : WF (calloc st5 (wa - n + (wb - n))).1.mem := calloc_WF w5 _
  obtain ⟨⟨st7, ww2⟩, h4, w7⟩ := hdec _ (pa + n) (pb + n) st5.brk (wa - n) (wb - n)
    (by omega) w6
  obtain ⟨⟨st8, ww4⟩, h5, w8⟩ := hdec st7 pa pb pc n n (by omega) w7
  simp only at w5 w7 w8
  -- Step 6
  rcases h6 : (if ww2 > ww4 then
        subtract32 st8.mem (st.brk + (wa - n + (wb - n) + 2)) st5.brk pc
          (st.brk + (wa - n + (wb - n) + 2)) ww3 ww2 ww4
      else
        subtract32 st8.mem (st.brk + (wa - n + (wb - n) + 2)) pc st5.brk
          (st.brk + (wa - n + (wb - n) + 2)) ww3 ww4 ww2) with ⟨m9, ww3a⟩
  have w9 : WF m9 := by
    have : m9 = (if ww2 > ww4 then
        subtract32 st8.mem (st.brk + (wa - n + (wb - n) + 2)) st5.brk pc
          (st.brk + (wa - n + (wb - n) + 2)) ww3 ww2 ww4
      else
        subtract32 st8.mem (st.brk + (wa - n + (wb - n) + 2)) pc st5.brk
          (st.brk + (wa - n + (wb - n) + 2)) ww3 ww4 ww2).1 := by rw [h6]
    rw [this]
    split
    · exact subtract32_WF w8 _ _ _ _ _ _ _
    · exact subtract32_WF w8 _ _ _ _ _ _ _
  -- Steps 8 and 9
  have w10 := add32_WF w9 (st.brk + (wa - n + (wb - n) + 2)) (pc + n) (pc + n) ww3a (ww4 - n)
  rcases h8 : add32 m9 (st.brk + (wa - n + (wb - n) + 2)) (pc + n) (pc + n) ww3a (ww4 - n)
    with ⟨m10, ww3b⟩
  rw [h8] at w10
  simp only at w10
  have w11 := add32_WF w10 st5.brk (pc + 2 * n) (pc + 2 * n) ww2 (ww3b - n)
  rcases h9 : add32 m10 st5.brk (pc + 2 * n) (pc + 2 * n) ww2 (ww3b - n) with ⟨m11, ww2b⟩
  rw [h9] at w11
  simp only at w11
  refine ⟨_, karatsuba32_locals_intro dec st pa pb pc wa wb n hn m2 m3 m9 m10 m11 wt1 wt2
    ww3 ww2 ww4 ww3a ww3b ww2b st5 st7 st8 h1 h2 h3 h4 h5 h6 h8 h9, w11, ?_, ⟨w4, w6, w7⟩,
    ⟨hn, rfl, rfl, ?_, ?_, ?_, ?_⟩⟩
  · intro dec2 e3 e4 e5
    exact karatsuba32_locals_intro dec2 st pa pb pc wa wb n hn m2 m3 m9 m10 m11 wt1 wt2
      ww3 ww2 ww4 ww3a ww3b ww2b st5 st7 st8 h1 h2 (e3.trans h3) (e4.trans h4) (e5.trans h5)
      h6 h8 h9
  · show wa - n ≤ wt1; omega
  · show wt1 ≤ wa - n + 1; omega
  · show wb - n ≤ wt2; omega
  · show wt2 ≤ wb - n + 1; omega

/-- The assertion `calls_decrease` never fails and `decide` returns, on
any memory of 32-bit words, once the fuel exceeds `wa`. -/
theorem decide_total : ∀ (fuel : Nat) (st : State) (pa pb pc wa wb : Nat), wa < fuel →
    WF st.mem → ∃ r, decide fuel st pa pb pc wa wb = some r ∧
      decide_asserting calls_decrease fuel st pa pb pc wa wb = some r ∧ WF r.1.mem := by
  intro fuel
  induction fuel with
  | zero => intro st pa pb pc wa wb h; omega
  | succ k ih =>
    intro st pa pb pc wa wb hf hwf
    by_cases h0 : wb = 0 ∨ wa = 0
    · exact ⟨(st, 0), by simp only [decide, h0, if_true],
        by simp only [decide_asserting, h0, if_true], hwf⟩
    · by_cases hs : wa < 27 ∨ wb < 27
      · exact ⟨_, decide_small k st pa pb pc wa wb h0 hs,
          by simp only [decide_asserting, h0, hs, if_true, if_false],
          multiply32_WF hwf pa pb pc wa wb⟩
      · have hdec : ∀ (st1 : State) (qa qb qc la lb : Nat), la < wa → WF st1.mem →
            ∃ r, decide k st1 qa qb qc la lb = some r ∧ WF r.1.mem := by
          intro st1 qa qb qc la lb e1 e2
          obtain ⟨r, g1, -, g3⟩ := ih st1 qa qb qc la lb (by omega) e2
          exact ⟨r, g1, g3⟩
        obtain ⟨L, hL, wout, hcong, ⟨p4, p6, p7⟩, ln, lu, lv, la1, la2, lb1, lb2⟩ :=
          karatsuba32_locals_total (decide k) st pa pb pc wa wb (by omega) (by omega) hwf hdec
        have hn13 : 13 ≤ L.n ∧ 2 * L.n ≤ wa ∧ 2 * L.n ≤ wb := by
          rw [ln]; split_ifs <;> omega
        have agree : ∀ (st1 : State) (qa qb qc la lb : Nat), la < wa → WF st1.mem →
            decide_asserting calls_decrease k st1 qa qb qc la lb = decide k st1 qa qb qc la lb := by
          intro st1 qa qb qc la lb e1 e2
          obtain ⟨r, g1, g2, -⟩ := ih st1 qa qb qc la lb (by omega) e2
          rw [g1, g2]
        have hL2 := hcong (decide_asserting calls_decrease k)
          (agree _ _ _ _ _ _ (by omega) p4) (agree _ _ _ _ _ _ (by omega) p6)
          (agree _ _ _ _ _ _ (by omega) p7)
        have hc : calls_decrease wa wb L = true := by
          unfold calls_decrease
          exact decide_eq_true ⟨by omega, by omega, by omega, by omega, by omega, by omega,
            by omega, by omega, by omega⟩
        refine ⟨(L.out, L.wc), ?_, ?_, wout⟩
        · rw [decide_large k st pa pb pc wa wb (by omega) (by omega), karatsuba32_eq_locals, hL]
          rfl
        · simp only [decide_asserting, h0, hs, if_false, hL2, hc, if_true]

/-! ## The claims -/

theorem WF_ofList (l : List Nat) : ∀ p, (∀ x ∈ l, x < POWER32) → WF (ofList p l) := by
  induction l with
  | nil => intro p _ q; exact POWER32_pos
  | cons x xs ih =>
    intro p h
    exact WF_write (ih (p + 1) (fun y hy => h y (List.mem_cons_of_mem _ hy))) p
      (h x (List.mem_cons_self _ _))

theorem memset0_spec {m : Mem} (hm : WF m) (pc n : Nat) :
    WF (memset0 m pc n) ∧ (∀ q, (q < pc ∨ pc + n ≤ q) → memset0 m pc n q = m q) :=
  ⟨(zero_loop_spec hm pc n).1, (zero_loop_spec hm pc n).2.1⟩

/-- C1. Multiplication correctness of the dispatcher as invoked by
`Product32`: for operands `a` (`wa` words) and `b` (`wb` words) of any
lengths, zero included, and a destination of `wa + wb` allocated words
disjoint from the operands, `decide`, run with fuel above `wa` on the
destination zeroed by `Product32`, returns a state and a length `wc` with
`Σ_{i<wc} c[i] * 2^(32 i) = value a * value b`; `Product32` returns the same
state and `wc`. -/
theorem Product32_correct (fuel : Nat) (st : State) (a b c wa ba wb bb bc : Nat)
    (hfuel : wa < fuel) (hwf : WF st.mem)
    (ha : a + wa ≤ st.brk) (hb : b + wb ≤ st.brk) (hc : c + (wa + wb) ≤ st.brk)
    (hca : a + wa ≤ c ∨ c + (wa + wb) ≤ a) (hcb : b + wb ≤ c ∨ c + (wa + wb) ≤ b) :
    ∃ (st1 : State) (wc : Nat),
      decide fuel { st with mem := memset0 st.mem c (wa + wb) } a b c wa wb = some (st1, wc) ∧
      Product32 fuel st a b c wa ba wb bb bc = some (st1, wc, bc) ∧
      value st1.mem c wc = value st.mem a wa * value st.mem b wb := by
  obtain ⟨z1, z2⟩ := memset0_spec hwf c (wa + wb)
  have hva : value (memset0 st.mem c (wa + wb)) a wa = value st.mem a wa :=
    value_agree (fun q _ _ => z2 q (by omega))
  have hvb : value (memset0 st.mem c (wa + wb)) b wb = value st.mem b wb :=
    value_agree (fun q _ _ => z2 q (by omega))
  by_cases h0 : wb = 0 ∨ wa = 0
  · obtain ⟨k, rfl⟩ : ∃ k, fuel = k + 1 := ⟨fuel - 1, by omega⟩
    refine ⟨_, 0, decide_zero_operand k _ a b c wa wb h0, ?_, ?_⟩
    · simp only [Product32, decide_zero_operand k _ a b c wa wb h0]
    · rcases h0 with h | h <;> subst h <;> simp [value]
  · obtain ⟨st1, e, _, _, _, v⟩ := decide_spec fuel { st with mem := memset0 st.mem c (wa + wb) }
      a b c wa wb (by omega) (by omega) hfuel ⟨z1, ha, hb, hc, hca, hcb⟩
    refine ⟨st1, wa + wb, e, ?_, ?_⟩
    · simp only [Product32, e]
    · rw [v]; simp only; rw [hva, hvb]

theorem Product32_correct_witness :
    2 < 3 ∧ WF exMul.mem ∧ 0 + 2 ≤ exMul.brk ∧ 2 + 1 ≤ exMul.brk ∧ 3 + (2 + 1) ≤ exMul.brk ∧
    (∃ (st1 : State) (wc : Nat),
      decide 3 { exMul with mem := memset0 exMul.mem 3 (2 + 1) } 0 2 3 2 1 = some (st1, wc) ∧
      Product32 3 exMul 0 2 3 2 64 1 2 0 = some (st1, wc, 0) ∧
      value st1.mem 3 wc = value exMul.mem 0 2 * value exMul.mem 2 1) ∧
    (Product32 3 exMul 0 2 3 2 64 1 2 0).map (fun r => (r.2.1, words r.1.mem 3 3)) =
      some (3, [0xFFFFFFFE, 0xFFFFFFFF, 0x1]) :=
  ⟨by decide, WF_ofList _ _ (by decide), by decide, by decide, by decide,
    Product32_correct 3 exMul 0 2 3 2 64 1 2 0 (by decide) (WF_ofList _ _ (by decide))
      (by decide) (by decide) (by decide) (by decide) (by decide),
    by decide!⟩

/-- C2. Schoolbook correctness: for operands `a` (`wa` words), `b` (`wb`
words) and a destination of `wa + wb` words disjoint from both, `multiply32`
reports `wc = wa + wb` and leaves `value c[0..wa+wb) = value a * value b`,
whatever the memory (the destination included) held before the call. -/
theorem multiply32_correct (m : Mem) (a b c wa wb : Nat) (hwf : WF m)
    (hca : a + wa ≤ c ∨ c + (wa + wb) ≤ a) (hcb : b + wb ≤ c ∨ c + (wa + wb) ≤ b) :
    (multiply32 m a b c wa wb).2 = wa + wb ∧
    value (multiply32 m a b c wa wb).1 c (wa + wb) = value m a wa * value m b wb :=
  ⟨(multiply32_spec hwf a b c wa wb hca hcb).2.1, (multiply32_spec hwf a b c wa wb hca hcb).2.2.2⟩

theorem multiply32_correct_witness :
    WF exMul.mem ∧ (0 + 2 ≤ 3 ∨ 3 + (2 + 1) ≤ 0) ∧ (2 + 1 ≤ 3 ∨ 3 + (2 + 1) ≤ 2) ∧
    (multiply32 exMul.mem 0 2 3 2 1).2 = 2 + 1 ∧
    value (multiply32 exMul.mem 0 2 3 2 1).1 3 (2 + 1) = value exMul.mem 0 2 * value exMul.mem 2 1 :=
  ⟨WF_ofList _ _ (by decide), by decide, by decide,
    multiply32_correct exMul.mem 0 2 3 2 1 (WF_ofList _ _ (by decide)) (by decide) (by decide)⟩

/-- C3. Addition correctness fails in the swapped case.  With `a = [5]` at
address 0 and `b = [1, 1]` at address 1 (`wa = 1 < wb = 2`), `add32` stores
`wa = 1` into `a[0]` before adding, reports `wc = 2` and leaves `[2, 1]`,
whose value is not `value a + value b` (that sum is `[6, 1]`). -/
theorem add32_swap_wrong :
    (add32 exAdd 0 1 3 1 2).2 = 2 ∧ words (add32 exAdd 0 1 3 1 2).1 3 2 = [2, 1] ∧
    (add32 exAdd 0 1 3 1 2).1 0 = 1 ∧ exAdd 0 = 5 ∧
    value (add32 exAdd 0 1 3 1 2).1 3 (add32 exAdd 0 1 3 1 2).2 ≠
      value exAdd 0 1 + value exAdd 1 2 := by
  decide!

/-- C4. Addition is not commutative on operands of different lengths.  With
`a = [5]` and `b = [1, 1]`, both runs starting from the same memory,
`add32(a, b, 1, 2)` leaves `[2, 1]` and `add32(b, a, 2, 1)` leaves `[6, 1]`. -/
theorem add32_not_commutative :
    (add32 exAdd 0 1 3 1 2).2 = 2 ∧ (add32 exAdd 1 0 3 2 1).2 = 2 ∧
    words (add32 exAdd 0 1 3 1 2).1 3 2 = [2, 1] ∧
    words (add32 exAdd 1 0 3 2 1).1 3 2 = [6, 1] := by
  decide!

/-- C5. Constrained subtraction: for `wd ≤ wb ≤ wa` and
`value a ≥ value b + value d`, and a destination that lies on `a` or does not
start inside an operand (so that no operand word is overwritten before it is
read), `subtract32` reports `wc = wa`, leaves
`value c[0..wa) = value a - value b - value d`, and every word `j ≥ wb` at
which the borrow chain has resolved (`value a[0..j) ≥ value b + value d`) is a
copy of `a[j]`. -/
theorem subtract32_correct (m : Mem) (a b d c wa wb wd : Nat) (hwf : WF m)
    (hdb : wd ≤ wb) (hba : wb ≤ wa)
    (hA : c ≤ a ∨ a + wa ≤ c) (hB : c ≤ b ∨ b + wb ≤ c) (hD : c ≤ d ∨ d + wd ≤ c)
    (hval : value m a wa ≥ value m b wb + value m d wd) :
    (subtract32 m a b d c wa wb wd).2 = wa ∧
    value (subtract32 m a b d c wa wb wd).1 c wa = value m a wa - value m b wb - value m d wd ∧
    (∀ j, wb ≤ j → j < wa → value m a j ≥ value m b wb + value m d wd →
      (subtract32 m a b d c wa wb wd).1 (c + j) = m (a + j)) := by
  obtain ⟨_, h2, _, h4, h5⟩ := subtract32_spec hwf a b d c wa wb wd hdb hba hA hB hD hval
  exact ⟨h2, by omega, h5⟩

theorem subtract32_correct_witness :
    WF exSub ∧ 0 ≤ 1 ∧ 1 ≤ 3 ∧ value exSub 0 3 ≥ value exSub 3 1 + value exSub 4 0 ∧
    ((subtract32 exSub 0 3 4 5 3 1 0).2 = 3 ∧
    value (subtract32 exSub 0 3 4 5 3 1 0).1 5 3 =
      value exSub 0 3 - value exSub 3 1 - value exSub 4 0 ∧
    (∀ j, 1 ≤ j → j < 3 → value exSub 0 j ≥ value exSub 3 1 + value exSub 4 0 →
      (subtract32 exSub 0 3 4 5 3 1 0).1 (5 + j) = exSub (0 + j))) ∧
    words (subtract32 exSub 0 3 4 5 3 1 0).1 5 3 = [0xFFFFFFFF, 0, 9] :=
  ⟨WF_ofList _ _ (by decide), by decide, by decide, by decide,
    subtract32_correct exSub 0 3 4 5 3 1 0 (WF_ofList _ _ (by decide)) (by decide) (by decide)
      (by decide) (by decide) (by decide) (by decide),
    by decide⟩

/-- C6. The addition/subtraction round trip fails when `wy > wx`.  With
`x = [5]` at address 0 and `y = [1, 0]` at address 1 (`value x ≥ value y`),
`add32(x, y, 1, 2)` leaves `s = [2, 0]` at address 3 with `ws = 2`, and
`subtract32(s, y, d, ws, 2, 0)` leaves `[1, 0]` at address 7, of value 1,
while `value x = 5`. -/
theorem add32_subtract32_round_trip_wrong :
    value exRound 0 1 ≥ value exRound 1 2 ∧
    (add32 exRound 0 1 3 1 2).2 = 2 ∧ words (add32 exRound 0 1 3 1 2).1 3 2 = [2, 0] ∧
    words (subtract32 (add32 exRound 0 1 3 1 2).1 3 1 6 7 (add32 exRound 0 1 3 1 2).2 2 0).1 7 2
      = [1, 0] ∧
    value (subtract32 (add32 exRound 0 1 3 1 2).1 3 1 6 7 (add32 exRound 0 1 3 1 2).2 2 0).1 7
      (add32 exRound 0 1 3 1 2).2 ≠ value exRound 0 1 := by
  decide!

/-- C7. `karatsuba32` called directly disagrees with `multiply32` on
`a = b = [0xFFFFFFFF, 0xFFFFFFFF]` (`a` at address 0, `b` at address 2,
destination at address 4 with 8 words of room): `multiply32` leaves
`[1, 0, 0xFFFFFFFE, 0xFFFFFFFF]`, the square of `2^64 - 1`, while
`karatsuba32` reports `wc = 5` and leaves `[1, 0, 0xFFFFFFFF, 0xFFFFFFFF, 0]`:
its last `add32` has `wb = 3 > wa = 2`, swaps, and stores `2` into `w2[0]`. -/
theorem karatsuba32_direct_wrong :
    (multiply32 exKara.mem 0 2 4 2 2).2 = 4 ∧
    words (multiply32 exKara.mem 0 2 4 2 2).1 4 4 = [1, 0, 0xFFFFFFFE, 0xFFFFFFFF] ∧
    (karatsuba32 (decide 1) exKara 0 2 4 2 2).map (fun r => (r.2, words r.1.mem 4 r.2)) =
      some (5, [1, 0, 0xFFFFFFFF, 0xFFFFFFFF, 0]) ∧
    (karatsuba32 (decide 1) exKara 0 2 4 2 2).map (fun r => value r.1.mem 4 r.2) ≠
      some (value (multiply32 exKara.mem 0 2 4 2 2).1 4 (multiply32 exKara.mem 0 2 4 2 2).2) := by
  decide!

/-- C8. Above the threshold the Karatsuba path agrees with the schoolbook
path: for `wa ≥ 27` and `wb ≥ 27` (and a destination of `wa + wb` allocated
words disjoint from the operands), `decide` is the `karatsuba32` branch, it
returns with enough fuel, and the value of its result equals the value of
the result of `multiply32` on the same inputs. -/
theorem decide_karatsuba_eq_multiply32 (fuel : Nat) (st : State) (a b c wa wb : Nat)
    (hwa : 27 ≤ wa) (hwb : 27 ≤ wb) (hfuel : wa ≤ fuel) (hwf : WF st.mem)
    (ha : a + wa ≤ st.brk) (hb : b + wb ≤ st.brk) (hc : c + (wa + wb) ≤ st.brk)
    (hca : a + wa ≤ c ∨ c + (wa + wb) ≤ a) (hcb : b + wb ≤ c ∨ c + (wa + wb) ≤ b) :
    decide (fuel + 1) st a b c wa wb = karatsuba32 (decide fuel) st a b c wa wb ∧
    ∃ (st1 : State) (wc : Nat), karatsuba32 (decide fuel) st a b c wa wb = some (st1, wc) ∧
      value st1.mem c wc =
        value (multiply32 st.mem a b c wa wb).1 c (multiply32 st.mem a b c wa wb).2 := by
  have hl := decide_large fuel st a b c wa wb hwa hwb
  obtain ⟨st1, e, _, _, _, v⟩ := decide_spec (fuel + 1) st a b c wa wb (by omega) (by omega)
    (by omega) ⟨hwf, ha, hb, hc, hca, hcb⟩
  obtain ⟨_, g2, _, g4⟩ := multiply32_spec hwf a b c wa wb hca hcb
  refine ⟨hl, st1, wa + wb, hl ▸ e, ?_⟩
  rw [v, g2, g4]

theorem decide_karatsuba_eq_multiply32_witness :
    27 ≤ 40 ∧ 40 ≤ 40 ∧ WF exBig.mem ∧ 80 + (40 + 40) ≤ exBig.brk ∧
    (decide (40 + 1) exBig 0 40 80 40 40 = karatsuba32 (decide 40) exBig 0 40 80 40 40 ∧
    ∃ (st1 : State) (wc : Nat), karatsuba32 (decide 40) exBig 0 40 80 40 40 = some (st1, wc) ∧
      value st1.mem 80 wc =
        value (multiply32 exBig.mem 0 40 80 40 40).1 80 (multiply32 exBig.mem 0 40 80 40 40).2) :=
  ⟨by decide, by decide, fun _ => Nat.mod_lt _ POWER32_pos, by decide,
    decide_karatsuba_eq_multiply32 40 exBig 0 40 80 40 40 (by decide) (by decide) (by decide)
      (fun _ => Nat.mod_lt _ POWER32_pos) (by decide) (by decide) (by decide) (by decide)
      (by decide)⟩

/-- C9. Zero-operand identity: if `wa = 0` or `wb = 0`, `decide` (with any
nonzero fuel) reports `wc = 0` and returns the state it was given: no word of
the destination, nor of any other block, is written. -/
theorem decide_zero_length (fuel : Nat) (st : State) (a b c wa wb : Nat)
    (hfuel : 0 < fuel) (h : wa = 0 ∨ wb = 0) :
    decide fuel st a b c wa wb = some (st, 0) := by
  obtain ⟨k, rfl⟩ : ∃ k, fuel = k + 1 := ⟨fuel - 1, by omega⟩
  exact decide_zero_operand k st a b c wa wb (by omega)

theorem decide_zero_length_witness :
    0 < 1 ∧ ((0 : Nat) = 0 ∨ 1 = 0) ∧ decide 1 exMul 0 2 3 0 1 = some (exMul, 0) :=
  ⟨by decide, by decide, decide_zero_length 1 exMul 0 2 3 0 1 (by decide) (by decide)⟩

/-- C10. Dispatch policy: for `wa ≥ 1` and `wb ≥ 1`, the result of `decide`
(state and `wc`) is that of `multiply32` when `wa < 27` or `wb < 27`, and that
of `karatsuba32` (recursing through `decide`) when `wa ≥ 27` and `wb ≥ 27`. -/
theorem decide_dispatch (fuel : Nat) (st : State) (a b c wa wb : Nat)
    (hwa : 1 ≤ wa) (hwb : 1 ≤ wb) :
    ((wa < 27 ∨ wb < 27) → decide (fuel + 1) st a b c wa wb =
      some ({ st with mem := (multiply32 st.mem a b c wa wb).1 },
        (multiply32 st.mem a b c wa wb).2)) ∧
    ((27 ≤ wa ∧ 27 ≤ wb) → decide (fuel + 1) st a b c wa wb =
      karatsuba32 (decide fuel) st a b c wa wb) :=
  ⟨fun h => decide_small fuel st a b c wa wb (by omega) h,
    fun h => decide_large fuel st a b c wa wb h.1 h.2⟩

theorem decide_dispatch_witness :
    (decide (40 + 1) exBig 0 40 80 26 27 =
      some ({ exBig with mem := (multiply32 exBig.mem 0 40 80 26 27).1 },
        (multiply32 exBig.mem 0 40 80 26 27).2)) ∧
    (decide (40 + 1) exBig 0 40 80 27 26 =
      some ({ exBig with mem := (multiply32 exBig.mem 0 40 80 27 26).1 },
        (multiply32 exBig.mem 0 40 80 27 26).2)) ∧
    (decide (40 + 1) exBig 0 40 80 27 27 = karatsuba32 (decide 40) exBig 0 40 80 27 27) :=
  ⟨(decide_dispatch 40 exBig 0 40 80 26 27 (by decide) (by decide)).1 (by decide),
    (decide_dispatch 40 exBig 0 40 80 27 26 (by decide) (by decide)).1 (by decide),
    (decide_dispatch 40 exBig 0 40 80 27 27 (by decide) (by decide)).2 (by decide)⟩

/-- C11. Addition output length: with 32-bit words, `add32` reports
`wc = max(wa, wb)` or `wc = max(wa, wb) + 1`; in the branch it takes (operands
as given when `wb ≤ wa`, swapped after the store into `a[0]` when `wa < wb`)
the carry after each word is 0 or 1; and whenever `wc = max(wa, wb) + 1` the
appended top word `c[wc - 1]` is 1. -/
theorem add32_length (m : Mem) (a b c wa wb : Nat) (hwf : WF m) :
    ((add32 m a b c wa wb).2 = max wa wb ∨ (add32 m a b c wa wb).2 = max wa wb + 1) ∧
    (wb ≤ wa → ∀ i, (loop i (add32_body a b c wb) (m, 0)).2 ≤ 1) ∧
    (wa < wb → ∀ i, (loop i (add32_body b a c (write m a (wa % POWER32) a))
      (write m a (wa % POWER32), 0)).2 ≤ 1) ∧
    ((add32 m a b c wa wb).2 = max wa wb + 1 →
      (add32 m a b c wa wb).1 (c + ((add32 m a b c wa wb).2 - 1)) = 1) := by
  refine ⟨?_, fun _ i => (add32_loop_carry hwf a b c wb i).2,
    fun _ i => (add32_loop_carry (WF_write hwf _ (mod_POWER32_lt _)) b a c _ i).2, ?_⟩
  · unfold add32
    split
    · rename_i h
      rw [Nat.max_eq_right (by omega)]
      exact (add32_main_len (WF_write hwf _ (mod_POWER32_lt _)) _ _ _ _ _).2.1
    · rename_i h
      rw [Nat.max_eq_left (by omega)]
      exact (add32_main_len hwf _ _ _ _ _).2.1
  · unfold add32
    split
    · rename_i h
      rw [Nat.max_eq_right (by omega)]
      intro e
      rw [e, Nat.add_sub_cancel]
      exact (add32_main_len (WF_write hwf _ (mod_POWER32_lt _)) _ _ _ _ _).2.2 e
    · rename_i h
      rw [Nat.max_eq_left (by omega)]
      intro e
      rw [e, Nat.add_sub_cancel]
      exact (add32_main_len hwf _ _ _ _ _).2.2 e

theorem add32_length_witness :
    WF exCarry ∧
    (((add32 exCarry 2 1 3 1 1).2 = max 1 1 ∨ (add32 exCarry 2 1 3 1 1).2 = max 1 1 + 1) ∧
    (1 ≤ 1 → ∀ i, (loop i (add32_body 2 1 3 1) (exCarry, 0)).2 ≤ 1) ∧
    (1 < 1 → ∀ i, (loop i (add32_body 1 2 3 (write exCarry 2 (1 % POWER32) 2))
      (write exCarry 2 (1 % POWER32), 0)).2 ≤ 1) ∧
    ((add32 exCarry 2 1 3 1 1).2 = max 1 1 + 1 →
      (add32 exCarry 2 1 3 1 1).1 (3 + ((add32 exCarry 2 1 3 1 1).2 - 1)) = 1)) ∧
    (add32 exCarry 2 1 3 1 1).2 = 2 ∧ words (add32 exCarry 2 1 3 1 1).1 3 2 = [0, 1] :=
  ⟨WF_ofList _ _ (by decide), add32_length exCarry 2 1 3 1 1 (WF_ofList _ _ (by decide)),
    by decide!, by decide!⟩

/-- C12. The swap branch of `add32` writes into an operand.  With `a = [5]`
at address 0, `b = [1, 1]` at address 1 and the destination at address 3
(disjoint from both), `a[0]` is 5 before the call and 1 (the value of `wa`)
after it; `b` is unchanged. -/
theorem add32_swap_mutates_operand :
    words exAdd 0 1 = [5] ∧ words (add32 exAdd 0 1 3 1 2).1 0 1 = [1] ∧
    words exAdd 1 2 = [1, 1] ∧ words (add32 exAdd 0 1 3 1 2).1 1 2 = [1, 1] := by
  decide!

/-- C13. The precondition of the cross-term subtraction is honoured: for
`wa ≥ 27`, `wb ≥ 27` (operands and a destination of `wa + wb` words allocated,
the destination disjoint from the operands, fuel at least `wa`), the run of
`karatsuba32` reaches step 6 with `L3 ≤ L2 ≤ ww3`, where `L2` and `L3` are the
lengths of the second and third operand chosen by the test `ww2 > ww4`, and
with `value w3 ≥ value w2 + value w4` in the memory `subtract32` is called on;
and the same holds at every level of the recursion: `decide` with the
assertion `step6_pre` after every run of `karatsuba32` never fails.  `L` holds
the locals of the run that `decide` makes. -/
theorem karatsuba32_subtract32_precondition (fuel : Nat) (st : State) (a b c wa wb : Nat)
    (hwa : 27 ≤ wa) (hwb : 27 ≤ wb) (hfuel : wa ≤ fuel) (hwf : WF st.mem)
    (ha : a + wa ≤ st.brk) (hb : b + wb ≤ st.brk) (hc : c + (wa + wb) ≤ st.brk)
    (hca : a + wa ≤ c ∨ c + (wa + wb) ≤ a) (hcb : b + wb ≤ c ∨ c + (wa + wb) ≤ b) :
    (∃ L : KLocals, karatsuba32_locals (decide fuel) st a b c wa wb = some L ∧
      decide (fuel + 1) st a b c wa wb = some (L.out, L.wc) ∧
      (if L.ww2 > L.ww4 then L.ww4 else L.ww2) ≤ (if L.ww2 > L.ww4 then L.ww2 else L.ww4) ∧
      (if L.ww2 > L.ww4 then L.ww2 else L.ww4) ≤ L.ww3 ∧
      value L.st8.mem L.w3 L.ww3 ≥ value L.st8.mem L.w2 L.ww2 + value L.st8.mem L.w4 L.ww4 ∧
      step6_pre wa wb L = true) ∧
    (∃ r, decide (fuel + 1) st a b c wa wb = some r ∧
      decide_asserting step6_pre (fuel + 1) st a b c wa wb = some r) := by
  have hpre : MulPre st a b c wa wb := ⟨hwf, ha, hb, hc, hca, hcb⟩
  have hdec : ∀ st1 qa qb qc la lb, 1 ≤ la → 1 ≤ lb → la < wa → MulPre st1 qa qb qc la lb →
      MulOK (decide fuel) st1 qa qb qc la lb :=
    fun st1 qa qb qc la lb e1 e2 e3 e4 => decide_spec fuel st1 qa qb qc la lb e1 e2 (by omega) e4
  obtain ⟨L, hL, -, -, lens, hval, -⟩ :=
    karatsuba32_locals_spec (decide fuel) st a b c wa wb (by omega) (by omega) hdec hpre
  have hchk := step6_pre_holds (decide fuel) st a b c wa wb L hwa hwb hdec hpre hL
  obtain ⟨ln, lu, lv, -, -, -, -, -, -, -, -, -, -, la1, la2, lb1, lb2, l3, l2, l4, -⟩ := lens
  have hn13 : 2 * L.n ≤ wa ∧ 2 * L.n ≤ wb := by
    rw [ln]; split_ifs <;> omega
  obtain ⟨st1, e, -⟩ := decide_spec (fuel + 1) st a b c wa wb (by omega) (by omega) (by omega)
    hpre
  refine ⟨⟨L, hL, ?_, ?_, ?_, hval, hchk⟩, (st1, wa + wb), e, ?_⟩
  · rw [decide_large fuel st a b c wa wb hwa hwb, karatsuba32_eq_locals, hL]; rfl
  · split_ifs <;> omega
  · split_ifs <;> omega
  · rw [decide_asserting_eq step6_pre step6_pre_holds (fuel + 1) st a b c wa wb (by omega)
      (by omega) (by omega) hpre]
    exact e

theorem karatsuba32_subtract32_precondition_witness :
    27 ≤ 40 ∧ 40 ≤ 40 ∧ WF exBig.mem ∧
    ((∃ L : KLocals, karatsuba32_locals (decide 40) exBig 0 40 80 40 40 = some L ∧
      decide (40 + 1) exBig 0 40 80 40 40 = some (L.out, L.wc) ∧
      (if L.ww2 > L.ww4 then L.ww4 else L.ww2) ≤ (if L.ww2 > L.ww4 then L.ww2 else L.ww4) ∧
      (if L.ww2 > L.ww4 then L.ww2 else L.ww4) ≤ L.ww3 ∧
      value L.st8.mem L.w3 L.ww3 ≥ value L.st8.mem L.w2 L.ww2 + value L.st8.mem L.w4 L.ww4 ∧
      step6_pre 40 40 L = true) ∧
    (∃ r, decide (40 + 1) exBig 0 40 80 40 40 = some r ∧
      decide_asserting step6_pre (40 + 1) exBig 0 40 80 40 40 = some r)) :=
  ⟨by decide, by decide, fun _ => Nat.mod_lt _ POWER32_pos,
    karatsuba32_subtract32_precondition 40 exBig 0 40 80 40 40 (by decide) (by decide)
      (by decide) (fun _ => Nat.mod_lt _ POWER32_pos) (by decide) (by decide) (by decide)
      (by decide) (by decide)⟩

/-- C14. `karatsuba32` stays inside its buffers: for `wa ≥ 27`, `wb ≥ 27`
(operands and destination allocated, destination disjoint from the operands),
with `n = floor(min(wa, wb) / 2)`: the sub-product `w4` and the two in-place
additions at word offsets `n` and `2n` change only `c[0..ww4)`, `c[n..n+ww3)`
and `c[2n..2n+ww2)`, carry word included, all within `c[0..wa+wb)`; the
additions into `t1` and `t2` change at most `wu1 + 1` and `wv1 + 1` words,
inside the block of `wu1 + wv1 + 2` words; the sub-products, and the
subtraction in place, change only the `wt1 + wt2` words of `w3` and the
`wu1 + wv1` words of `w2` (below the break of the state they are called on);
the whole call changes no word below the break outside `c[0..wa+wb)`; and the
length conditions `writes_fit` hold at every level of the recursion. -/
theorem karatsuba32_within_buffers (fuel : Nat) (st : State) (a b c wa wb : Nat)
    (hwa : 27 ≤ wa) (hwb : 27 ≤ wb) (hfuel : wa ≤ fuel) (hwf : WF st.mem)
    (ha : a + wa ≤ st.brk) (hb : b + wb ≤ st.brk) (hc : c + (wa + wb) ≤ st.brk)
    (hca : a + wa ≤ c ∨ c + (wa + wb) ≤ a) (hcb : b + wb ≤ c ∨ c + (wa + wb) ≤ b) :
    (∃ L : KLocals, karatsuba32_locals (decide fuel) st a b c wa wb = some L ∧
      decide (fuel + 1) st a b c wa wb = some (L.out, L.wc) ∧
      L.n = min wa wb / 2 ∧ L.wu1 = wa - L.n ∧ L.wv1 = wb - L.n ∧
      -- the destination
      (L.w4 = c ∧ L.ww4 ≤ wa + wb ∧ L.n + L.ww3b ≤ wa + wb ∧ 2 * L.n + L.ww2b ≤ wa + wb ∧
        (∀ q, q < L.st7.brk → (q < c ∨ c + L.ww4 ≤ q) → L.st8.mem q = L.st7.mem q) ∧
        (∀ q, (q < c + L.n ∨ c + L.n + L.ww3b ≤ q) → L.m10 q = L.m9 q) ∧
        (∀ q, (q < c + 2 * L.n ∨ c + 2 * L.n + L.ww2b ≤ q) → L.m11 q = L.m10 q) ∧
        (∀ q, q < st.brk → (q < c ∨ c + (wa + wb) ≤ q) → L.out.mem q = st.mem q)) ∧
      -- the block of t1 and t2
      (L.t1 = st.brk ∧ L.t2 = L.t1 + L.wu1 + 1 ∧ L.wt1 ≤ L.wu1 + 1 ∧ L.wt2 ≤ L.wv1 + 1 ∧
        L.t2 + L.wt2 ≤ L.t1 + (L.wu1 + L.wv1 + 2) ∧
        (∀ q, (q < L.t1 ∨ L.t1 + L.wt1 ≤ q) → L.m2 q = L.m1 q) ∧
        (∀ q, (q < L.t2 ∨ L.t2 + L.wt2 ≤ q) → L.m3 q = L.m2 q)) ∧
      -- the blocks of w3 and w2
      (L.ww3 ≤ L.wt1 + L.wt2 ∧ L.ww3a ≤ L.wt1 + L.wt2 ∧ L.ww2 ≤ L.wu1 + L.wv1 ∧
        L.st4.brk = L.w3 + (L.wt1 + L.wt2) ∧ L.st6.brk = L.w2 + (L.wu1 + L.wv1) ∧
        (∀ q, q < L.st4.brk → (q < L.w3 ∨ L.w3 + L.ww3 ≤ q) → L.st5.mem q = L.st4.mem q) ∧
        (∀ q, q < L.st6.brk → (q < L.w2 ∨ L.w2 + L.ww2 ≤ q) → L.st7.mem q = L.st6.mem q) ∧
        (∀ q, (q < L.w3 ∨ L.w3 + L.ww3a ≤ q) → L.m9 q = L.st8.mem q)) ∧
      writes_fit wa wb L = true) ∧
    (∃ r, decide (fuel + 1) st a b c wa wb = some r ∧
      decide_asserting writes_fit (fuel + 1) st a b c wa wb = some r) := by
  have hpre : MulPre st a b c wa wb := ⟨hwf, ha, hb, hc, hca, hcb⟩
  have hdec : ∀ st1 qa qb qc la lb, 1 ≤ la → 1 ≤ lb → la < wa → MulPre st1 qa qb qc la lb →
      MulOK (decide fuel) st1 qa qb qc la lb :=
    fun st1 qa qb qc la lb e1 e2 e3 e4 => decide_spec fuel st1 qa qb qc la lb e1 e2 (by omega) e4
  obtain ⟨L, hL, -, -, lens, -, f2, f3, f5, f7, f8, f9, f10, f11⟩ :=
    karatsuba32_locals_spec (decide fuel) st a b c wa wb (by omega) (by omega) hdec hpre
  have hchk := writes_fit_holds (decide fuel) st a b c wa wb L hwa hwb hdec hpre hL
  obtain ⟨ln, lu, lv, lt1, lt2, lw3, lw2, lw4, k4, -, k6, -, -, la1, la2, lb1, lb2, l3, l2, l4,
    l3a, l3b, l2b, lwc⟩ := lens
  have hn13 : 13 ≤ L.n ∧ 2 * L.n ≤ wa ∧ 2 * L.n ≤ wb := by
    rw [ln]; split_ifs <;> omega
  have hmin : L.n = min wa wb / 2 := by
    rw [ln]; split_ifs with h
    · rw [Nat.min_eq_left (by omega)]
    · rw [Nat.min_eq_right (by omega)]
  obtain ⟨st1, e, -, -, fr, -⟩ := decide_spec (fuel + 1) st a b c wa wb (by omega) (by omega)
    (by omega) hpre
  have hout : decide (fuel + 1) st a b c wa wb = some (L.out, L.wc) := by
    rw [decide_large fuel st a b c wa wb hwa hwb, karatsuba32_eq_locals, hL]; rfl
  have est : st1 = L.out := by
    rw [hout] at e
    simp only [Option.some.injEq, Prod.mk.injEq] at e
    exact e.1.symm
  rw [est] at fr
  rw [lw4] at f8
  refine ⟨⟨L, hL, hout, hmin, lu, lv,
    ⟨lw4, by omega, by omega, by omega, f8, f10, f11, fr⟩,
    ⟨lt1, lt2, la2, lb2, by omega, f2, f3⟩,
    ⟨by omega, by omega, by omega, k4, k6, f5, f7, f9⟩, hchk⟩, (L.out, L.wc), hout, ?_⟩
  rw [decide_asserting_eq writes_fit writes_fit_holds (fuel + 1) st a b c wa wb (by omega)
    (by omega) (by omega) hpre]
  exact hout

theorem karatsuba32_within_buffers_witness :
    27 ≤ 40 ∧ 40 ≤ 40 ∧ WF exBig.mem ∧ 80 + (40 + 40) ≤ exBig.brk ∧
    (∃ L : KLocals, karatsuba32_locals (decide 40) exBig 0 40 80 40 40 = some L ∧
      decide (40 + 1) exBig 0 40 80 40 40 = some (L.out, L.wc) ∧ L.n = min 40 40 / 2 ∧
      L.ww4 ≤ 40 + 40 ∧ L.n + L.ww3b ≤ 40 + 40 ∧ 2 * L.n + L.ww2b ≤ 40 + 40 ∧
      L.wt1 ≤ L.wu1 + 1 ∧ L.wt2 ≤ L.wv1 + 1 ∧ L.ww3 ≤ L.wt1 + L.wt2 ∧
      L.ww2 ≤ L.wu1 + L.wv1 ∧ writes_fit 40 40 L = true) ∧
    (∃ r, decide (40 + 1) exBig 0 40 80 40 40 = some r ∧
      decide_asserting writes_fit (40 + 1) exBig 0 40 80 40 40 = some r) :=
  have h := karatsuba32_within_buffers 40 exBig 0 40 80 40 40 (by decide) (by decide)
    (by decide) (fun _ => Nat.mod_lt _ POWER32_pos) (by decide) (by decide) (by decide)
    (by decide) (by decide)
  ⟨by decide, by decide, fun _ => Nat.mod_lt _ POWER32_pos, by decide,
    h.1.elim (fun L hL => ⟨L, hL.1, hL.2.1, hL.2.2.1, hL.2.2.2.2.2.1.2.1, hL.2.2.2.2.2.1.2.2.1,
      hL.2.2.2.2.2.1.2.2.2.1, hL.2.2.2.2.2.2.1.2.2.1, hL.2.2.2.2.2.2.1.2.2.2.1,
      hL.2.2.2.2.2.2.2.1.1, hL.2.2.2.2.2.2.2.1.2.2.1, hL.2.2.2.2.2.2.2.2⟩), h.2⟩

/-- C15. In-place addition is alias-safe: for `wb ≤ wa`, `add32` run with
the destination on the buffer of `b` (as in steps 8 and 9 of `karatsuba32`,
where `a` is a block the destination does not run into) reports the same
`wc` and leaves the same `wc` words as `add32` run on the same operands with a
destination `c` that overwrites no operand word before it is read, in
particular one disjoint from both. -/
theorem add32_in_place (m : Mem) (a b c wa wb : Nat) (hwf : WF m) (hab : wb ≤ wa)
    (hAb : b ≤ a ∨ a + wa ≤ b) (hAc : c ≤ a ∨ a + wa ≤ c) (hBc : c ≤ b ∨ b + wb ≤ c) :
    (add32 m a b b wa wb).2 = (add32 m a b c wa wb).2 ∧
    ∀ i, i < (add32 m a b b wa wb).2 →
      (add32 m a b b wa wb).1 (b + i) = (add32 m a b c wa wb).1 (c + i) := by
  rw [add32_of_le m a b b wa wb hab, add32_of_le m a b c wa wb hab]
  obtain ⟨w1, a1, a2, _, v1, c1⟩ := add32_main_spec hwf a b b wa wb hab hAb (Or.inl (le_refl _))
  obtain ⟨w2, b1, b2, _, v2, c2⟩ := add32_main_spec hwf a b c wa wb hab hAc hBc
  have l1 := value_lt w1 b (add32_main m a b b wa wb).2
  have l2 := value_lt w2 c (add32_main m a b c wa wb).2
  rw [v1] at l1
  rw [v2] at l2
  have hlen : (add32_main m a b b wa wb).2 = (add32_main m a b c wa wb).2 := by
    by_cases e1 : (add32_main m a b b wa wb).2 = wa + 1
    · by_cases e2 : (add32_main m a b c wa wb).2 = wa + 1
      · rw [e1, e2]
      · have e2' : (add32_main m a b c wa wb).2 = wa := by omega
        rw [e2'] at l2
        have := c1 e1
        omega
    · have e1' : (add32_main m a b b wa wb).2 = wa := by omega
      by_cases e2 : (add32_main m a b c wa wb).2 = wa + 1
      · rw [e1'] at l1
        have := c2 e2
        omega
      · omega
  refine ⟨hlen, ?_⟩
  apply value_inj w1 w2 b c
  rw [v1, hlen, v2]

theorem add32_in_place_witness :
    WF exInPlace ∧ 1 ≤ 2 ∧
    ((add32 exInPlace 0 2 2 2 1).2 = (add32 exInPlace 0 2 5 2 1).2 ∧
    ∀ i, i < (add32 exInPlace 0 2 2 2 1).2 →
      (add32 exInPlace 0 2 2 2 1).1 (2 + i) = (add32 exInPlace 0 2 5 2 1).1 (5 + i)) ∧
    (add32 exInPlace 0 2 2 2 1).2 = 3 ∧ words (add32 exInPlace 0 2 2 2 1).1 2 3 = [0, 0, 1] :=
  ⟨WF_ofList _ _ (by decide), by decide,
    add32_in_place exInPlace 0 2 5 2 1 (WF_ofList _ _ (by decide)) (by decide) (by decide)
      (by decide) (by decide),
    by decide!, by decide!⟩

/-- C16. The entry point ignores the bit lengths: `Product32` hands back the
word at `*bc` as it received it, its result is the same for any other bit
lengths `ba2`, `bb2`, and it is the result of `decide` on the memory in which
the first `wa + wb` words of the destination were zeroed and nothing else
was changed.  Moreover, for allocated operands and destination (destination
disjoint from the operands, fuel above `wa`), every word below the break
outside the destination, so also a bit-length word stored there, holds after
the call what it held before. -/
theorem Product32_ignores_bit_lengths (fuel : Nat) (st : State)
    (a b c wa ba wb bb bc ba2 bb2 : Nat) :
    Product32 fuel st a b c wa ba wb bb bc =
      (decide fuel { st with mem := memset0 st.mem c (wa + wb) } a b c wa wb).map
        (fun r => (r.1, r.2, bc)) ∧
    Product32 fuel st a b c wa ba2 wb bb2 bc = Product32 fuel st a b c wa ba wb bb bc ∧
    (∀ r, Product32 fuel st a b c wa ba wb bb bc = some r → r.2.2 = bc) ∧
    (∀ i, i < wa + wb → memset0 st.mem c (wa + wb) (c + i) = 0) ∧
    (∀ q, (q < c ∨ c + (wa + wb) ≤ q) → memset0 st.mem c (wa + wb) q = st.mem q) ∧
    (wa < fuel → WF st.mem → a + wa ≤ st.brk → b + wb ≤ st.brk → c + (wa + wb) ≤ st.brk →
      (a + wa ≤ c ∨ c + (wa + wb) ≤ a) → (b + wb ≤ c ∨ c + (wa + wb) ≤ b) →
      ∃ r, Product32 fuel st a b c wa ba wb bb bc = some r ∧
        ∀ p, p < st.brk → (p < c ∨ c + (wa + wb) ≤ p) → r.1.mem p = st.mem p) := by
  have e : ∀ x y, Product32 fuel st a b c wa x wb y bc =
      (decide fuel { st with mem := memset0 st.mem c (wa + wb) } a b c wa wb).map
        (fun r => (r.1, r.2, bc)) := by
    intro x y
    unfold Product32
    simp only
    cases decide fuel { st with mem := memset0 st.mem c (wa + wb) } a b c wa wb with
    | none => rfl
    | some r => rfl
  refine ⟨e ba bb, by rw [e, e], ?_, (memset0_zero st.mem c (wa + wb)).1,
    (memset0_zero st.mem c (wa + wb)).2, ?_⟩
  · intro r hr
    rw [e] at hr
    cases h : decide fuel { st with mem := memset0 st.mem c (wa + wb) } a b c wa wb with
    | none => rw [h] at hr; cases hr
    | some x =>
      rw [h] at hr
      simp only [Option.map_some', Option.some.injEq] at hr
      rw [← hr]
  · intro hfuel hwf ha hb hc hca hcb
    have z2 := (memset0_zero st.mem c (wa + wb)).2
    by_cases h0 : wb = 0 ∨ wa = 0
    · obtain ⟨k, rfl⟩ : ∃ k, fuel = k + 1 := ⟨fuel - 1, by omega⟩
      refine ⟨({ st with mem := memset0 st.mem c (wa + wb) }, 0, bc), ?_, ?_⟩
      · rw [e, decide_zero_operand k _ a b c wa wb h0]; rfl
      · intro p _ hp
        exact z2 p hp
    · obtain ⟨st1, e1, -, -, fr, -⟩ := decide_spec fuel
        { st with mem := memset0 st.mem c (wa + wb) } a b c wa wb (by omega) (by omega) hfuel
        ⟨(memset0_spec hwf c (wa + wb)).1, ha, hb, hc, hca, hcb⟩
      refine ⟨(st1, wa + wb, bc), ?_, ?_⟩
      · rw [e, e1]; rfl
      · intro p hp hpc
        rw [fr p hp hpc]
        exact z2 p hpc

theorem Product32_ignores_bit_lengths_witness :
    WF exMul.mem ∧
    (∃ r, Product32 3 exMul 0 2 3 2 64 1 2 0 = some r ∧
      ∀ p, p < exMul.brk → (p < 3 ∨ 3 + (2 + 1) ≤ p) → r.1.mem p = exMul.mem p) ∧
    Product32 3 exMul 0 2 3 2 1 1 1 0 = Product32 3 exMul 0 2 3 2 64 1 2 0 :=
  ⟨WF_ofList _ _ (by decide),
    (Product32_ignores_bit_lengths 3 exMul 0 2 3 2 64 1 2 0 1 1).2.2.2.2.2 (by decide)
      (WF_ofList _ _ (by decide)) (by decide) (by decide) (by decide) (by decide) (by decide),
    (Product32_ignores_bit_lengths 3 exMul 0 2 3 2 64 1 2 0 1 1).2.1⟩

/-- C17. Fixed output length of the dispatcher: for `wa ≥ 1`, `wb ≥ 1`
(operands and destination allocated, destination disjoint from the operands,
fuel above `wa`), `decide` reports `wc = wa + wb` exactly.  On the Karatsuba
path the two assembling additions have a second operand no longer than the
first and append no carry word, so `3n + (ww2 - n) = wa + wb`; and the
assertion `assembly_exact`, which says so, holds at every level of the
recursion. -/
theorem decide_length_exact (fuel : Nat) (st : State) (a b c wa wb : Nat)
    (hwa : 1 ≤ wa) (hwb : 1 ≤ wb) (hfuel : wa ≤ fuel) (hwf : WF st.mem)
    (ha : a + wa ≤ st.brk) (hb : b + wb ≤ st.brk) (hc : c + (wa + wb) ≤ st.brk)
    (hca : a + wa ≤ c ∨ c + (wa + wb) ≤ a) (hcb : b + wb ≤ c ∨ c + (wa + wb) ≤ b) :
    (∃ st1 : State, decide (fuel + 1) st a b c wa wb = some (st1, wa + wb) ∧
      decide_asserting assembly_exact (fuel + 1) st a b c wa wb = some (st1, wa + wb)) ∧
    (27 ≤ wa → 27 ≤ wb →
      ∃ L : KLocals, karatsuba32_locals (decide fuel) st a b c wa wb = some L ∧
        decide (fuel + 1) st a b c wa wb = some (L.out, L.wc) ∧
        L.ww4 - L.n ≤ L.ww3a ∧ L.ww3b = L.ww3a ∧ L.ww3b - L.n ≤ L.ww2 ∧ L.ww2b = L.ww2 ∧
        L.wc = 3 * L.n + (L.ww2b - L.n) ∧ 3 * L.n + (L.ww2b - L.n) = wa + wb) := by
  have hpre : MulPre st a b c wa wb := ⟨hwf, ha, hb, hc, hca, hcb⟩
  obtain ⟨st1, e, -⟩ := decide_spec (fuel + 1) st a b c wa wb hwa hwb (by omega) hpre
  refine ⟨⟨st1, e, ?_⟩, ?_⟩
  · rw [decide_asserting_eq assembly_exact assembly_exact_holds (fuel + 1) st a b c wa wb hwa
      hwb (by omega) hpre]
    exact e
  · intro h27a h27b
    have hdec : ∀ st1 qa qb qc la lb, 1 ≤ la → 1 ≤ lb → la < wa → MulPre st1 qa qb qc la lb →
        MulOK (decide fuel) st1 qa qb qc la lb :=
      fun st1 qa qb qc la lb e1 e2 e3 e4 =>
        decide_spec fuel st1 qa qb qc la lb e1 e2 (by omega) e4
    obtain ⟨L, hL, -, -, lens, -, -⟩ :=
      karatsuba32_locals_spec (decide fuel) st a b c wa wb (by omega) (by omega) hdec hpre
    obtain ⟨ln, lu, lv, lt1, lt2, lw3, lw2, lw4, k4, -, k6, -, -, la1, la2, lb1, lb2, l3, l2,
      l4, l3a, l3b, l2b, lwc⟩ := lens
    have hn13 : 13 ≤ L.n ∧ 2 * L.n ≤ wa ∧ 2 * L.n ≤ wb := by
      rw [ln]; split_ifs <;> omega
    have hout : decide (fuel + 1) st a b c wa wb = some (L.out, L.wc) := by
      rw [decide_large fuel st a b c wa wb h27a h27b, karatsuba32_eq_locals, hL]; rfl
    exact ⟨L, hL, hout, by omega, by omega, by omega, l2b, by omega, by omega⟩

theorem decide_length_exact_witness :
    1 ≤ 40 ∧ 40 ≤ 40 ∧ WF exBig.mem ∧
    ((∃ st1 : State, decide (40 + 1) exBig 0 40 80 40 40 = some (st1, 40 + 40) ∧
      decide_asserting assembly_exact (40 + 1) exBig 0 40 80 40 40 = some (st1, 40 + 40)) ∧
    (27 ≤ 40 → 27 ≤ 40 →
      ∃ L : KLocals, karatsuba32_locals (decide 40) exBig 0 40 80 40 40 = some L ∧
        decide (40 + 1) exBig 0 40 80 40 40 = some (L.out, L.wc) ∧
        L.ww4 - L.n ≤ L.ww3a ∧ L.ww3b = L.ww3a ∧ L.ww3b - L.n ≤ L.ww2 ∧ L.ww2b = L.ww2 ∧
        L.wc = 3 * L.n + (L.ww2b - L.n) ∧ 3 * L.n + (L.ww2b - L.n) = 40 + 40)) :=
  ⟨by decide, by decide, fun _ => Nat.mod_lt _ POWER32_pos,
    decide_length_exact 40 exBig 0 40 80 40 40 (by decide) (by decide)
      (by decide) (fun _ => Nat.mod_lt _ POWER32_pos) (by decide) (by decide) (by decide)
      (by decide) (by decide)⟩

/-- C18. The result does not depend on what the destination held: for
`wa ≥ 1`, `wb ≥ 1` and a second memory `m2` that differs from the first only
inside the destination `c[0..wa+wb)`, the two runs of `decide` (with fuel above
`wa`) report the same `wc` and leave the same words in `c[0..wc)`. -/
theorem decide_destination_independent (fuel : Nat) (st : State) (m2 : Mem)
    (a b c wa wb : Nat) (hwa : 1 ≤ wa) (hwb : 1 ≤ wb) (hfuel : wa < fuel)
    (hwf : WF st.mem) (hwf2 : WF m2)
    (hm2 : ∀ q, (q < c ∨ c + (wa + wb) ≤ q) → m2 q = st.mem q)
    (ha : a + wa ≤ st.brk) (hb : b + wb ≤ st.brk) (hc : c + (wa + wb) ≤ st.brk)
    (hca : a + wa ≤ c ∨ c + (wa + wb) ≤ a) (hcb : b + wb ≤ c ∨ c + (wa + wb) ≤ b) :
    ∃ (r1 r2 : State × Nat), decide fuel st a b c wa wb = some r1 ∧
      decide fuel { st with mem := m2 } a b c wa wb = some r2 ∧ r1.2 = r2.2 ∧
      ∀ i, i < r1.2 → r1.1.mem (c + i) = r2.1.mem (c + i) := by
  obtain ⟨s1, e1, w1, _, _, v1⟩ := decide_spec fuel st a b c wa wb hwa hwb hfuel
    ⟨hwf, ha, hb, hc, hca, hcb⟩
  obtain ⟨s2, e2, w2, _, _, v2⟩ := decide_spec fuel { st with mem := m2 } a b c wa wb hwa hwb
    hfuel ⟨hwf2, ha, hb, hc, hca, hcb⟩
  simp only at v2
  rw [value_agree (fun q _ _ => hm2 q (by omega)), value_agree (fun q _ _ => hm2 q (by omega))]
    at v2
  refine ⟨(s1, wa + wb), (s2, wa + wb), e1, e2, rfl, ?_⟩
  apply value_inj w1 w2 c c
  rw [v1, v2]

theorem decide_destination_independent_witness :
    1 ≤ 40 ∧ 40 < 41 ∧ WF exBig.mem ∧ WF (memset0 exBig.mem 80 80) ∧
    ∃ (r1 r2 : State × Nat), decide 41 exBig 0 40 80 40 40 = some r1 ∧
      decide 41 { exBig with mem := memset0 exBig.mem 80 80 } 0 40 80 40 40 = some r2 ∧
      r1.2 = r2.2 ∧ ∀ i, i < r1.2 → r1.1.mem (80 + i) = r2.1.mem (80 + i) :=
  ⟨by decide, by decide, fun _ => Nat.mod_lt _ POWER32_pos,
    (memset0_spec (fun _ => Nat.mod_lt _ POWER32_pos) 80 80).1,
    decide_destination_independent 41 exBig (memset0 exBig.mem 80 80) 0 40 80 40 40 (by decide)
      (by decide) (by decide) (fun _ => Nat.mod_lt _ POWER32_pos)
      (memset0_spec (fun _ => Nat.mod_lt _ POWER32_pos) 80 80).1
      (fun q hq => (memset0_zero exBig.mem 80 80).2 q hq)
      (by decide) (by decide) (by decide) (by decide) (by decide)⟩

/-- C19. The recursion of `decide` through `karatsuba32` terminates: on any
memory of 32-bit words, `decide` returns once the fuel exceeds `wa`, and the
assertion `calls_decrease` holds after every run of `karatsuba32` at every
level.  For `wa ≥ 27`, `wb ≥ 27` and `n = floor(min(wa, wb) / 2)`, the three
`decide` calls of `karatsuba32` receive the lengths `(wt1, wt2)`,
`(wu1, wv1) = (wa - n, wb - n)` and `(n, n)`, with `n ≥ 13`,
`wt1 ≤ wa - n + 1`, `wt2 ≤ wb - n + 1`, first components below `wa` and second
components below `wb`. -/
theorem decide_terminates (fuel : Nat) (st : State) (a b c wa wb : Nat)
    (hfuel : wa ≤ fuel) (hwf : WF st.mem) :
    (∃ r, decide (fuel + 1) st a b c wa wb = some r ∧
      decide_asserting calls_decrease (fuel + 1) st a b c wa wb = some r) ∧
    (27 ≤ wa → 27 ≤ wb →
      ∃ L : KLocals, karatsuba32_locals (decide fuel) st a b c wa wb = some L ∧
        decide (fuel + 1) st a b c wa wb = some (L.out, L.wc) ∧
        L.n = min wa wb / 2 ∧ 13 ≤ L.n ∧ L.wu1 = wa - L.n ∧ L.wv1 = wb - L.n ∧
        L.wt1 ≤ wa - L.n + 1 ∧ L.wt2 ≤ wb - L.n + 1 ∧
        (L.wt1 < wa ∧ L.wt2 < wb) ∧ (L.wu1 < wa ∧ L.wv1 < wb) ∧ (L.n < wa ∧ L.n < wb)) := by
  refine ⟨?_, ?_⟩
  · obtain ⟨r, g1, g2, -⟩ := decide_total (fuel + 1) st a b c wa wb (by omega) hwf
    exact ⟨r, g1, g2⟩
  · intro hwa hwb
    have hdec : ∀ (st1 : State) (qa qb qc la lb : Nat), la < wa → WF st1.mem →
        ∃ r, decide fuel st1 qa qb qc la lb = some r ∧ WF r.1.mem := by
      intro st1 qa qb qc la lb e1 e2
      obtain ⟨r, g1, -, g3⟩ := decide_total fuel st1 qa qb qc la lb (by omega) e2
      exact ⟨r, g1, g3⟩
    obtain ⟨L, hL, -, -, -, ln, lu, lv, la1, la2, lb1, lb2⟩ :=
      karatsuba32_locals_total (decide fuel) st a b c wa wb hwa hwb hwf hdec
    have hn13 : 13 ≤ L.n ∧ 2 * L.n ≤ wa ∧ 2 * L.n ≤ wb := by
      rw [ln]; split_ifs <;> omega
    have hmin : L.n = min wa wb / 2 := by
      rw [ln]; split_ifs with h
      · rw [Nat.min_eq_left (by omega)]
      · rw [Nat.min_eq_right (by omega)]
    have hout : decide (fuel + 1) st a b c wa wb = some (L.out, L.wc) := by
      rw [decide_large fuel st a b c wa wb hwa hwb, karatsuba32_eq_locals, hL]; rfl
    exact ⟨L, hL, hout, hmin, by omega, lu, lv, by omega, by omega, ⟨by omega, by omega⟩,
      ⟨by omega, by omega⟩, ⟨by omega, by omega⟩⟩

theorem decide_terminates_witness :
    40 ≤ 40 ∧ WF exBig.mem ∧
    ((∃ r, decide (40 + 1) exBig 0 40 80 40 40 = some r ∧
      decide_asserting calls_decrease (40 + 1) exBig 0 40 80 40 40 = some r) ∧
    (27 ≤ 40 → 27 ≤ 40 →
      ∃ L : KLocals, karatsuba32_locals (decide 40) exBig 0 40 80 40 40 = some L ∧
        decide (40 + 1) exBig 0 40 80 40 40 = some (L.out, L.wc) ∧
        L.n = min 40 40 / 2 ∧ 13 ≤ L.n ∧ L.wu1 = 40 - L.n ∧ L.wv1 = 40 - L.n ∧
        L.wt1 ≤ 40 - L.n + 1 ∧ L.wt2 ≤ 40 - L.n + 1 ∧
        (L.wt1 < 40 ∧ L.wt2 < 40) ∧ (L.wu1 < 40 ∧ L.wv1 < 40) ∧ (L.n < 40 ∧ L.n < 40))) :=
  ⟨by decide, fun _ => Nat.mod_lt _ POWER32_pos,
    decide_terminates 40 exBig 0 40 80 40 40 (by decide) (fun _ => Nat.mod_lt _ POWER32_pos)⟩

/-- C20. The schoolbook accumulator never overflows: for 32-bit `x`, `y`, `z`
and carry `k`, `x * y + z + k ≤ 2^64 - 1`; hence one step of the inner loop of
`multiply32` that reads `a[i] = x`, `b[j] = y`, `c[i+j] = z` with carry `k`
stores the exact sum modulo `2^32` and carries the exact quotient, which is
again below `2^32`. -/
theorem mul_inner_exact (x y z k : Nat) (hx : x < POWER32) (hy : y < POWER32)
    (hz : z < POWER32) (hk : k < POWER32) :
    x * y + z + k ≤ POWER64 - 1 ∧
    (x * y + z + k) / POWER32 < POWER32 ∧
    ∀ (m : Mem) (a b c i j : Nat), m (a + i) = x → m (b + j) = y → m (c + (i + j)) = z →
      mul_inner a b c i j (m, k) =
        (write m (c + (i + j)) ((x * y + z + k) % POWER32), (x * y + z + k) / POWER32) := by
  have hlt := mul_acc_lt hx hy hz hk
  have hdiv : (x * y + z + k) / POWER32 < POWER32 := by
    rw [Nat.div_lt_iff_lt_mul POWER32_pos, POWER32_lt_POWER64]; exact hlt
  refine ⟨by omega, hdiv, ?_⟩
  intro m a b c i j ha hb hc
  simp only [mul_inner, ha, hb, hc, Nat.mod_eq_of_lt hlt, Nat.mod_eq_of_lt hdiv]

theorem mul_inner_exact_witness :
    (0xFFFFFFFF : Nat) < POWER32 ∧
    (0xFFFFFFFF * 0xFFFFFFFF + 0xFFFFFFFF + 0xFFFFFFFF ≤ POWER64 - 1 ∧
    (0xFFFFFFFF * 0xFFFFFFFF + 0xFFFFFFFF + 0xFFFFFFFF) / POWER32 < POWER32 ∧
    ∀ (m : Mem) (a b c i j : Nat), m (a + i) = 0xFFFFFFFF → m (b + j) = 0xFFFFFFFF →
      m (c + (i + j)) = 0xFFFFFFFF →
      mul_inner a b c i j (m, 0xFFFFFFFF) =
        (write m (c + (i + j))
          ((0xFFFFFFFF * 0xFFFFFFFF + 0xFFFFFFFF + 0xFFFFFFFF) % POWER32),
          (0xFFFFFFFF * 0xFFFFFFFF + 0xFFFFFFFF + 0xFFFFFFFF) / POWER32)) ∧
    0xFFFFFFFF * 0xFFFFFFFF + 0xFFFFFFFF + 0xFFFFFFFF = POWER64 - 1 :=
  ⟨by decide, mul_inner_exact 0xFFFFFFFF 0xFFFFFFFF 0xFFFFFFFF 0xFFFFFFFF (by decide) (by decide)
    (by decide) (by decide), by decide⟩

end Scaffold32
